import Mathlib

/-!
# SortEngine: a verification development

A shallow embedding of `src/src/SortEngine.h` (class `sl::SortEngine<T>`).

* `std::vector<T>` is a `List α`; every element access goes through `rd` / `wr`,
  which return `none` when the index lies outside `[0, size)` (undefined behaviour
  in the source).
* `int` variables are `Int` (vector sizes are assumed to fit in an `int`).
* `T::operator<` is a parameter `lt : α → α → Bool`; the source's `x > y` is read as
  `lt y x`.
* `for` loops with a fixed trip count are `forUp`; `while` loops and recursion are
  defined by recursion on a fuel counter, and running out of fuel is `none`. Each
  caller passes the size of the vector (of the arena, for lists) plus one as fuel.
  Hence a result `some out` says: the call terminated within this bound, touched no
  index outside the vector, and left `out` in the vector.
* In the insertion loops the source declares `j` with the element type (`T tmp = arr[i],
  j = i;`), and `quickSelect` holds the pivot in an `int` (`int pivot = ...`). The
  conversions between `T` and `int` that this brings in are a parameter `cv : Conv α`;
  `convInt` is `T = int`, `convUChar` is `T = unsigned char`, `convLongLong` is
  `T = long long`.
* Linked lists live in an arena (`Heap`): a pointer is `Option Nat`, `none` being
  `nullptr`.
-/

namespace SortEngine

variable {α : Type}

/-! ## Memory primitives -/

/-- Read `a[i]`; `none` when `i` is outside the vector. -/
def rd (a : List α) (i : Int) : Option α :=
  if i < 0 then none else a[i.toNat]?

/-- Write `a[i] = v`; `none` when `i` is outside the vector. -/
def wr (a : List α) (i : Int) (v : α) : Option (List α) :=
  if 0 ≤ i ∧ i < a.length then some (a.set i.toNat v) else none

/-- `swap(a[i], a[j])` (lines 191-195): `T tmp = a; a = b; b = tmp;`. -/
def swap (a : List α) (i j : Int) : Option (List α) := do
  let tmp ← rd a i
  let y ← rd a j
  let a ← wr a i y
  wr a j tmp

/-- Loop `for (int i = lo; ...; ++i) body` executed for the `n` consecutive values
`lo, lo+1, ..., lo+n-1` of `i`. -/
def forUp {σ : Type} (body : Int → σ → Option σ) : Nat → Int → σ → Option σ
  | 0, _, s => some s
  | n + 1, i, s => (body i s).bind (forUp body n (i + 1))

/-! ## The element type used as a number -/

/-- The conversions between the element type `T` and `int` that the source uses, for an
arithmetic `T`.
* `ofInt i` is the `int` value `i` converted to `T`: the initialisation `j = i` in
  `T tmp = arr[i], j = i;`, and the value of `j` after `--j`.
* `toInt j` is the integer that `j` denotes where it is used as a number: in the test
  `j >= 1` and in the subscripts `arr[j - 1]` and `arr[j]`.
* `asInt p` is `p` after it has been stored in an `int` and converted back for a
  comparison with a `T`: `int pivot = choosePivot(a, left, right);` in `quickSelect`,
  followed by `a[++i] < pivot` and `pivot < a[--j]`. -/
structure Conv (α : Type) where
  ofInt : Int → α
  toInt : α → Int
  asInt : α → α

/-- The conversions for `T = int`: all of them are the identity. -/
def convInt : Conv Int := ⟨fun i => i, fun j => j, fun p => p⟩

/-- The conversions for `T = unsigned char` (8 bits; elements are the integers in
`[0, 256)`): an `int` converts to its residue modulo 256, and every value fits in an
`int`. -/
def convUChar : Conv Int := ⟨fun i => i % 256, fun j => j, fun p => p⟩

/-- The conversions for `T = long long` (64 bits; elements are integers, every index
fits): storing a value in a 32-bit `int` keeps its residue modulo `2^32` in
`[-2^31, 2^31)`. -/
def convLongLong : Conv Int :=
  ⟨fun i => i, fun j => j, fun p => (p + 2147483648) % 4294967296 - 2147483648⟩

/-- The element type is converted from and to `int` through a key, as for a record with
an integer key and a tag whose comparison looks at the key only. -/
def convKey {τ : Type} (tag : τ) : Conv (Int × τ) :=
  ⟨fun i => (i, tag), fun e => e.1, fun p => p⟩

/-! ## Insertion sort (lines 25-37) -/

/-- Inner loop `while (j >= 1 && tmp < arr[j - 1]) { arr[j] = arr[j - 1]; --j; }` with
`j` of the element type; returns the vector and the final `j`. -/
def insertWhile (cv : Conv α) (lt : α → α → Bool) (tmp : α) :
    Nat → List α → α → Option (List α × α)
  | 0, _, _ => none
  | fuel + 1, arr, j =>
    if cv.toInt j ≥ 1 then
      (rd arr (cv.toInt j - 1)).bind fun x =>
        if lt tmp x then
          (wr arr (cv.toInt j) x).bind fun arr =>
            insertWhile cv lt tmp fuel arr (cv.ofInt (cv.toInt j - 1))
        else some (arr, j)
    else some (arr, j)

/-- Body of the outer loop of the insertion sort, for one value of `i`:
`if (arr[i] < arr[i-1]) { T tmp = arr[i], j = i; while ...; arr[j] = tmp; }`.
The same text (with `a[i-1] > a[i]` for the test) is the body of the small-range
branch of `quickSort` and `quickSelect`. -/
def insertStep (cv : Conv α) (lt : α → α → Bool) (i : Int) (arr : List α) :
    Option (List α) :=
  (rd arr i).bind fun ai =>
  (rd arr (i - 1)).bind fun ai1 =>
    if lt ai ai1 then
      (insertWhile cv lt ai (arr.length + 1) arr (cv.ofInt i)).bind fun r =>
        wr r.1 (cv.toInt r.2) ai
    else some arr

/-- Function `insertionSort(arr)`: `for (int i = 1; i < n; ++i)`. -/
def insertionSort (cv : Conv α) (lt : α → α → Bool) (arr : List α) : Option (List α) :=
  let n : Int := arr.length
  forUp (insertStep cv lt) (n - 1).toNat 1 arr

/-! ## Selection sort (lines 44-57) -/

/-- Inner loop `for (int k = i; k < n; ++k) if (arr[k] < arr[min]) min = k;`
the state is `min`. -/
def selectMin (lt : α → α → Bool) (arr : List α) (k : Int) (min : Int) : Option Int :=
  (rd arr k).bind fun ak =>
  (rd arr min).bind fun am =>
    if lt ak am then some k else some min

/-- Body of the outer loop of the selection sort for one value of `i`. -/
def selectStep (lt : α → α → Bool) (n : Int) (i : Int) (arr : List α) : Option (List α) :=
  (forUp (selectMin lt arr) (n - i).toNat i i).bind fun min =>
    if min ≠ i then swap arr i min else some arr

/-- Function `selectionSort(arr)`: `for (int i = 0; i < n - 1; ++i)`. -/
def selectionSort (lt : α → α → Bool) (arr : List α) : Option (List α) :=
  let n : Int := arr.length
  forUp (selectStep lt n) (n - 1 - 0).toNat 0 arr

/-! ## Shell sort (lines 64-80) -/

/-- Inner loop
`for (j = i; j >= increment; j -= increment) { if (tmp < arr[j - increment]) arr[j] = arr[j - increment]; else break; }`;
returns the vector and the final `j`. -/
def shellInner (lt : α → α → Bool) (tmp : α) (increment : Int) :
    Nat → List α → Int → Option (List α × Int)
  | 0, _, _ => none
  | fuel + 1, arr, j =>
    if j ≥ increment then
      (rd arr (j - increment)).bind fun x =>
        if lt tmp x then
          (wr arr j x).bind fun arr => shellInner lt tmp increment fuel arr (j - increment)
        else some (arr, j)
    else some (arr, j)

/-- Body of the middle loop of the shell sort for one value of `i`:
`T tmp = arr[i]; int j; for (j = i; ...) ...; arr[j] = tmp;`. -/
def shellStep (lt : α → α → Bool) (increment : Int) (i : Int) (arr : List α) :
    Option (List α) :=
  (rd arr i).bind fun tmp =>
  (shellInner lt tmp increment (arr.length + 1) arr i).bind fun r => wr r.1 r.2 tmp

/-- Outer loop `for (int increment = n / 2; increment >= 1; increment /= 2)` with its
middle loop `for (int i = increment; i < n; ++i)`. -/
def shellOuter (lt : α → α → Bool) (n : Int) : Nat → List α → Int → Option (List α)
  | 0, _, _ => none
  | fuel + 1, arr, increment =>
    if increment ≥ 1 then
      (forUp (shellStep lt increment) (n - increment).toNat increment arr).bind fun arr =>
        shellOuter lt n fuel arr (Int.tdiv increment 2)
    else some arr

/-- Function `shellSort(arr)`. -/
def shellSort (lt : α → α → Bool) (arr : List α) : Option (List α) :=
  let n : Int := arr.length
  shellOuter lt n (arr.length + 1) arr (Int.tdiv n 2)

/-! ## Merge sort on vectors (lines 87-90, 217-248) -/

/-- State of the merge loops: scratch vector, `tmpIndex`, `leftPos`, `rightPos`. -/
structure MergeState (α : Type) where
  tmpArr : List α
  tmpIndex : Int
  leftPos : Int
  rightPos : Int

/-- First merge loop `while (leftPos <= leftEnd && rightPos <= rightEnd)`: take the
left head when it is less than the right head, else the right head. -/
def mergeLoop (lt : α → α → Bool) (arr : List α) (leftEnd rightEnd : Int) :
    Nat → MergeState α → Option (MergeState α)
  | 0, _ => none
  | fuel + 1, s =>
    if s.leftPos ≤ leftEnd ∧ s.rightPos ≤ rightEnd then
      (rd arr s.leftPos).bind fun x =>
      (rd arr s.rightPos).bind fun y =>
        if lt x y then
          (wr s.tmpArr s.tmpIndex x).bind fun t =>
            mergeLoop lt arr leftEnd rightEnd fuel
              ⟨t, s.tmpIndex + 1, s.leftPos + 1, s.rightPos⟩
        else
          (wr s.tmpArr s.tmpIndex y).bind fun t =>
            mergeLoop lt arr leftEnd rightEnd fuel
              ⟨t, s.tmpIndex + 1, s.leftPos, s.rightPos + 1⟩
    else some s

/-- Second merge loop `while (leftPos <= leftEnd) tmpArr[tmpIndex++] = arr[leftPos++];`. -/
def copyLeft (arr : List α) (leftEnd : Int) : Nat → MergeState α → Option (MergeState α)
  | 0, _ => none
  | fuel + 1, s =>
    if s.leftPos ≤ leftEnd then
      (rd arr s.leftPos).bind fun x =>
      (wr s.tmpArr s.tmpIndex x).bind fun t =>
        copyLeft arr leftEnd fuel ⟨t, s.tmpIndex + 1, s.leftPos + 1, s.rightPos⟩
    else some s

/-- Third merge loop `while (rightPos <= rightEnd) tmpArr[tmpIndex++] = arr[rightPos++];`. -/
def copyRight (arr : List α) (rightEnd : Int) : Nat → MergeState α → Option (MergeState α)
  | 0, _ => none
  | fuel + 1, s =>
    if s.rightPos ≤ rightEnd then
      (rd arr s.rightPos).bind fun y =>
      (wr s.tmpArr s.tmpIndex y).bind fun t =>
        copyRight arr rightEnd fuel ⟨t, s.tmpIndex + 1, s.leftPos, s.rightPos + 1⟩
    else some s

/-- Copy-back loop `for (int i = 0; i < n; ++i, --rightEnd) arr[rightEnd] = tmpArr[rightEnd];`
with `rightEnd` as the state next to the vector. -/
def copyBack (tmpArr : List α) (_i : Int) (s : List α × Int) : Option (List α × Int) :=
  (rd tmpArr s.2).bind fun v =>
  (wr s.1 s.2 v).bind fun arr => some (arr, s.2 - 1)

/-- Function `mergeSortArray(arr, left, right, tmpArr)`; returns `arr` and `tmpArr`. -/
def mergeSortArray (lt : α → α → Bool) :
    Nat → List α → Int → Int → List α → Option (List α × List α)
  | 0, _, _, _, _ => none
  | fuel + 1, arr, left, right, tmpArr =>
    if left < right then
      let mid := Int.tdiv (left + right) 2
      (mergeSortArray lt fuel arr left mid tmpArr).bind fun r1 =>
      (mergeSortArray lt fuel r1.1 (mid + 1) right r1.2).bind fun r2 =>
        let arr := r2.1
        let n := right - left + 1
        (mergeLoop lt arr mid right (arr.length + 1) ⟨r2.2, left, left, mid + 1⟩).bind fun s1 =>
        (copyLeft arr mid (arr.length + 1) s1).bind fun s2 =>
        (copyRight arr right (arr.length + 1) s2).bind fun s3 =>
        (forUp (copyBack s3.tmpArr) n.toNat 0 (arr, right)).bind fun r =>
          some (r.1, s3.tmpArr)
    else some (arr, tmpArr)

/-- Function `mergeSort(std::vector<T>&)`: `tmpArr` holds `arr.size()` value-initialised
elements `dflt`; `arr.size() - 1` is the right bound (`-1` for the empty vector). -/
def mergeSort (lt : α → α → Bool) (dflt : α) (arr : List α) : Option (List α) :=
  let tmpArr := List.replicate arr.length dflt
  (mergeSortArray lt (arr.length + 1) arr 0 ((arr.length : Int) - 1) tmpArr).map Prod.fst

/-! ## Merge sort on linked lists (lines 95-107, 256-294) -/

/-- A `ListNode*`: `none` is `nullptr`, `some p` the address of slot `p` of the arena. -/
abbrev Ptr := Option Nat

/-- The struct `ListNode` (lines 95-98). -/
structure ListNode (α : Type) where
  val : α
  next : Ptr

/-- The arena holding every node. -/
abbrev Heap (α : Type) := List (ListNode α)

/-- Dereference `p->`; `none` for `nullptr` or an address outside the arena. -/
def deref (heap : Heap α) (p : Ptr) : Option (ListNode α) :=
  p.bind fun q => heap[q]?

/-- Assignment `p->next = nx`. -/
def setNext (heap : Heap α) (p : Ptr) (nx : Ptr) : Option (Heap α) :=
  p.bind fun q => (heap[q]?).map fun node => heap.set q ⟨node.val, nx⟩

/-- Loop `while (tmp && tmp->next) { mid = mid->next; tmp = tmp->next->next; }`
of `mergeSortList`; returns the final `mid`. -/
def splitLoop : Nat → Heap α → Ptr → Ptr → Option Ptr
  | 0, _, _, _ => none
  | fuel + 1, heap, mid, tmp =>
    match tmp with
    | none => some mid
    | some t =>
      (deref heap (some t)).bind fun tn =>
        match tn.next with
        | none => some mid
        | some t1 =>
          (deref heap mid).bind fun mn =>
          (deref heap (some t1)).bind fun tn1 =>
            splitLoop fuel heap mn.next tn1.next

/-- Function `mergeTwoList(a, b)`; the call on line 292 is the recursive call. -/
def mergeTwoList (lt : α → α → Bool) : Nat → Heap α → Ptr → Ptr → Option (Heap α × Ptr)
  | 0, _, _, _ => none
  | fuel + 1, heap, a, b =>
    match a with
    | none => some (heap, b)
    | some _ =>
      match b with
      | none => some (heap, a)
      | some _ =>
        (deref heap a).bind fun an =>
        (deref heap b).bind fun bn =>
          if !(lt an.val bn.val) then
            -- tmp = b->next; b->next = a; a = b; b = tmp;
            (setNext heap b a).bind fun heap1 =>
            (deref heap1 b).bind fun an1 =>
            (mergeTwoList lt fuel heap1 an1.next bn.next).bind fun r =>
            (setNext r.1 b r.2).bind fun heap2 => some (heap2, b)
          else
            (mergeTwoList lt fuel heap an.next b).bind fun r =>
            (setNext r.1 a r.2).bind fun heap2 => some (heap2, a)

/-- Function `mergeSortList(h)`; returns the arena and the new head. -/
def mergeSortList (lt : α → α → Bool) : Nat → Heap α → Ptr → Option (Heap α × Ptr)
  | 0, _, _ => none
  | fuel + 1, heap, h =>
    match h with
    | none => some (heap, h)
    | some _ =>
      (deref heap h).bind fun hn =>
        match hn.next with
        | none => some (heap, h)
        | some _ =>
          (splitLoop (heap.length + 1) heap h hn.next).bind fun mid =>
          (deref heap mid).bind fun mn =>
            let secondStart := mn.next
            (setNext heap mid none).bind fun heap1 =>
            (mergeSortList lt fuel heap1 h).bind fun r1 =>
            (mergeSortList lt fuel r1.1 secondStart).bind fun r2 =>
              mergeTwoList lt (heap.length + 1) r2.1 r1.2 r2.2

/-- Function `mergeSort(ListNode*&)`: `h = mergeSortList(h)`. -/
def mergeSortL (lt : α → α → Bool) (heap : Heap α) (h : Ptr) : Option (Heap α × Ptr) :=
  mergeSortList lt (heap.length + 1) heap h

/-- Build a list holding `xs` in a fresh arena: node `i` holds `xs[i]` and links to
node `i + 1`; the head is node `0`. -/
def buildList (xs : List α) : Heap α × Ptr :=
  ((xs.enum).map fun p => ⟨p.2, if p.1 + 1 < xs.length then some (p.1 + 1) else none⟩,
   if xs.length = 0 then none else some 0)

/-- Traverse from `h`, collecting the addresses visited, `none` if the chain does not
end within `fuel` nodes or leaves the arena. -/
def traverse (heap : Heap α) : Nat → Ptr → Option (List Nat)
  | _, none => some []
  | 0, some _ => none
  | fuel + 1, some p => (heap[p]?).bind fun node =>
      (traverse heap fuel node.next).map fun ps => p :: ps

/-! ## Quick sort and quick select (lines 118-132, 308-403) -/

/-- Function `choosePivot(a, left, right)`; returns the vector and the pivot. -/
def choosePivot (lt : α → α → Bool) (a : List α) (left right : Int) : Option (List α × α) :=
  let mid := Int.tdiv (left + right) 2
  (rd a mid).bind fun am => (rd a left).bind fun al =>
  (if lt am al then swap a left mid else some a).bind fun a =>
  (rd a right).bind fun ar => (rd a left).bind fun al =>
  (if lt ar al then swap a left right else some a).bind fun a =>
  (rd a right).bind fun ar => (rd a mid).bind fun am =>
  (if lt ar am then swap a mid right else some a).bind fun a =>
  (swap a mid (right - 1)).bind fun a =>
  (rd a (right - 1)).bind fun p => some (a, p)

/-- Scan `while (a[++i] < pivot) {}`; returns the final `i`. -/
def scanUp (lt : α → α → Bool) (a : List α) (pivot : α) : Nat → Int → Option Int
  | 0, _ => none
  | fuel + 1, i =>
    (rd a (i + 1)).bind fun x =>
      if lt x pivot then scanUp lt a pivot fuel (i + 1) else some (i + 1)

/-- Scan `while (pivot < a[--j]) {}`; returns the final `j`. -/
def scanDown (lt : α → α → Bool) (a : List α) (pivot : α) : Nat → Int → Option Int
  | 0, _ => none
  | fuel + 1, j =>
    (rd a (j - 1)).bind fun x =>
      if lt pivot x then scanDown lt a pivot fuel (j - 1) else some (j - 1)

/-- Loop `while (1) { scan up; scan down; if (i < j) swap(a[i], a[j]); else break; }`;
returns the vector and the final `i`. -/
def partitionLoop (lt : α → α → Bool) (pivot : α) :
    Nat → List α → Int → Int → Option (List α × Int)
  | 0, _, _, _ => none
  | fuel + 1, a, i, j =>
    (scanUp lt a pivot (a.length + 1) i).bind fun i =>
    (scanDown lt a pivot (a.length + 1) j).bind fun j =>
      if i < j then
        (swap a i j).bind fun a => partitionLoop lt pivot fuel a i j
      else some (a, i)

/-- Pivot selection, partition loop and pivot restoration of `quickSort` (lines 332-343,
`T pivot`); returns the vector and the crossing index. For `T = int` this is also the
partition of `quickSelect` (lines 374-385). -/
def partition (lt : α → α → Bool) (a : List α) (left right : Int) : Option (List α × Int) :=
  (choosePivot lt a left right).bind fun cp =>
  (partitionLoop lt cp.2 (a.length + 1) cp.1 left (right - 1)).bind fun r =>
  (swap r.1 r.2 (right - 1)).bind fun a => some (a, r.2)

/-- Private function `quickSort(a, left, right)`. -/
def quickSortRange (cv : Conv α) (lt : α → α → Bool) :
    Nat → List α → Int → Int → Option (List α)
  | 0, _, _, _ => none
  | fuel + 1, a, left, right =>
    if left + 10 ≤ right then
      (partition lt a left right).bind fun r =>
      (quickSortRange cv lt fuel r.1 left (r.2 - 1)).bind fun a =>
        quickSortRange cv lt fuel a (r.2 + 1) right
    else
      forUp (insertStep cv lt) (right - left).toNat (left + 1) a

/-- Public function `quickSort(arr)`: `quickSort(arr, 0, arr.size() - 1)`. -/
def quickSort (cv : Conv α) (lt : α → α → Bool) (arr : List α) : Option (List α) :=
  quickSortRange cv lt (arr.length + 1) arr 0 ((arr.length : Int) - 1)

/-- The built-in `<` of `int`. -/
def ltInt (x y : Int) : Bool := decide (x < y)

/-- Pivot selection, partition loop and pivot restoration of `quickSelect` (lines
374-385): as `partition`, but the pivot is held in an `int` (`int pivot = ...`), so the
scans compare the elements with `cv.asInt` of the value that `choosePivot` returned. -/
def partitionSelect (cv : Conv α) (lt : α → α → Bool) (a : List α) (left right : Int) :
    Option (List α × Int) :=
  (choosePivot lt a left right).bind fun cp =>
  (partitionLoop lt (cv.asInt cp.2) (a.length + 1) cp.1 left (right - 1)).bind fun r =>
  (swap r.1 r.2 (right - 1)).bind fun a => some (a, r.2)

/-- Private function `quickSelect(a, left, right, k)`. -/
def quickSelectRange (cv : Conv α) (lt : α → α → Bool) :
    Nat → List α → Int → Int → Int → Option (List α)
  | 0, _, _, _, _ => none
  | fuel + 1, a, left, right, k =>
    if left + 10 ≤ right then
      (partitionSelect cv lt a left right).bind fun r =>
        if k ≤ r.2 then quickSelectRange cv lt fuel r.1 left (r.2 - 1) k
        else if k ≥ r.2 + 2 then
          quickSelectRange cv lt fuel r.1 (r.2 + 1) right (k - r.2 - 1)
        else some r.1
    else
      forUp (insertStep cv lt) (right - left).toNat (left + 1) a

/-- Public function `quickSelect(arr, k)`: `quickSelect(arr, 0, arr.size() - 1, k)`, for
a vector of `int`. -/
def quickSelect (arr : List Int) (k : Int) : Option (List Int) :=
  quickSelectRange convInt ltInt (arr.length + 1) arr 0 ((arr.length : Int) - 1) k

/-! ## Specification vocabulary -/

/-- The comparison `lt` is a strict weak order: irreflexive, transitive, and with a
transitive "not less than". Distinct elements may compare as equal. -/
structure StrictWeak (lt : α → α → Bool) : Prop where
  irrefl : ∀ a, lt a a = false
  trans : ∀ a b c, lt a b = true → lt b c = true → lt a c = true
  negTrans : ∀ a b c, lt a b = false → lt b c = false → lt a c = false

/-- The elements `a[lo], ..., a[hi]` are in non-descending order: no later one is less
than an earlier one. -/
def SortedRange (lt : α → α → Bool) (a : List α) (lo hi : Int) : Prop :=
  ∀ k1 k2 x y, lo ≤ k1 → k1 < k2 → k2 ≤ hi → rd a k1 = some x → rd a k2 = some y →
    lt y x = false

/-- The whole sequence is in non-descending order under `lt`. -/
def NonDesc (lt : α → α → Bool) (l : List α) : Prop :=
  l.Pairwise fun x y => lt y x = false

/-- The element type holds every index below `n` exactly: an `int` in `[0, n)` converted
to `T` denotes the same integer. This is so for `T = int` and every `n`, and for
`T = unsigned char` exactly when `n ≤ 256`. -/
def Conv.Exact (cv : Conv α) (n : Int) : Prop :=
  ∀ i : Int, 0 ≤ i → i < n → cv.toInt (cv.ofInt i) = i

/-- The inner loop of the insertion sort with the index `j` held in an `int`. The
proofs work on this loop; `insertWhile` agrees with it when the element type holds the
indices exactly (`insertWhile_eq`). -/
def insertWhileZ (lt : α → α → Bool) (tmp : α) : Nat → List α → Int → Option (List α × Int)
  | 0, _, _ => none
  | fuel + 1, arr, j =>
    if j ≥ 1 then
      (rd arr (j - 1)).bind fun x =>
        if lt tmp x then
          (wr arr j x).bind fun arr => insertWhileZ lt tmp fuel arr (j - 1)
        else some (arr, j)
    else some (arr, j)

/-- The body of the insertion loop with the index `j` held in an `int`
(see `insertWhileZ` and `insertStep_eq`). -/
def insertStepZ (lt : α → α → Bool) (i : Int) (arr : List α) : Option (List α) :=
  (rd arr i).bind fun ai =>
  (rd arr (i - 1)).bind fun ai1 =>
    if lt ai ai1 then
      (insertWhileZ lt ai (arr.length + 1) arr i).bind fun r => wr r.1 r.2 ai
    else some arr

/-- The elements `a[lo], ..., a[hi]` as a list (empty when `hi < lo`). -/
def slice (a : List α) (lo hi : Int) : List α :=
  (a.drop lo.toNat).take (hi + 1 - lo).toNat

/-- Reference sort for the merge sort: the stable sort (insertion sort under "not
greater than") of the reversed input. Elements that compare as equal come out in the
reverse of their input order. -/
def refSort (lt : α → α → Bool) (l : List α) : List α :=
  List.insertionSort (fun a b => lt b a = false) l.reverse

/-- The vector `a'` is `a` with the elements of `a[lo..hi]` rearranged: same length, a
permutation, nothing changed outside the range, and every element of the range of `a'`
is an element of the range of `a`. -/
structure Rearr (lo hi : Int) (a a' : List α) : Prop where
  len : a'.length = a.length
  perm : a'.Perm a
  frame : ∀ k, k < lo ∨ hi < k → rd a' k = rd a k
  src : ∀ k, lo ≤ k → k ≤ hi → ∃ k', lo ≤ k' ∧ k' ≤ hi ∧ rd a' k = rd a k'

/-- The chain of `next` links from `h` visits exactly the addresses `ps`, in this order,
and then reaches `nullptr`: `h` heads a finite, acyclic list whose nodes are `ps`. -/
def IsList (heap : Heap α) : Ptr → List Nat → Prop
  | h, [] => h = none
  | h, p :: ps => h = some p ∧ ∃ node, heap[p]? = some node ∧ IsList heap node.next ps

/-- The values stored in the nodes `ps`, in this order. -/
def vals (heap : Heap α) (ps : List Nat) : List α :=
  ps.filterMap fun p => (heap[p]?).map ListNode.val

/-- Comparison by key only: an element is a pair of a key and a tag, and the tag is
ignored. -/
def keyLt {κ τ : Type} [LinearOrder κ] (a b : κ × τ) : Bool := decide (a.1 < b.1)

/-- The kth smallest element of a sequence of integers: the element at index `k` of
the sequence fully sorted in non-descending order (`none` when `k` is out of range). -/
def kthSmallest (arr : List Int) (k : Int) : Option Int :=
  rd (arr.insertionSort (· ≤ ·)) k

/-- The scan `while (a[++i] < pivot) {}` with, next to the final `i`, the list of the
values taken by `i`, which are the indices read. -/
def scanUpT (lt : α → α → Bool) (a : List α) (pivot : α) : Nat → Int → Option (Int × List Int)
  | 0, _ => none
  | fuel + 1, i =>
    (rd a (i + 1)).bind fun x =>
      if lt x pivot then
        (scanUpT lt a pivot fuel (i + 1)).map fun r => (r.1, (i + 1) :: r.2)
      else some (i + 1, [i + 1])

/-- The scan `while (pivot < a[--j]) {}` with, next to the final `j`, the list of the
values taken by `j`, which are the indices read. -/
def scanDownT (lt : α → α → Bool) (a : List α) (pivot : α) :
    Nat → Int → Option (Int × List Int)
  | 0, _ => none
  | fuel + 1, j =>
    (rd a (j - 1)).bind fun x =>
      if lt pivot x then
        (scanDownT lt a pivot fuel (j - 1)).map fun r => (r.1, (j - 1) :: r.2)
      else some (j - 1, [j - 1])

/-- The partition loop of `quickSort` (and of `quickSelect` for `T = int`) with a record
of the cursors:
the result is the vector, the final `i`, the values taken by the left cursor `i` and
the values taken by the right cursor `j` during the loop. Every element the loop reads
or swaps is at a recorded value of a cursor. -/
def partitionLoopT (lt : α → α → Bool) (pivot : α) :
    Nat → List α → Int → Int → Option (List α × Int × List Int × List Int)
  | 0, _, _, _ => none
  | fuel + 1, a, i, j =>
    (scanUpT lt a pivot (a.length + 1) i).bind fun ri =>
    (scanDownT lt a pivot (a.length + 1) j).bind fun rj =>
      if ri.1 < rj.1 then
        (swap a ri.1 rj.1).bind fun a =>
          (partitionLoopT lt pivot fuel a ri.1 rj.1).map fun r =>
            (r.1, r.2.1, ri.2 ++ r.2.2.1, rj.2 ++ r.2.2.2)
      else some (a, ri.1, ri.2, rj.2)

/-- Pivot selection, partition loop and pivot restoration as in `partition`, with the
record of the cursors of the loop. -/
def partitionT (lt : α → α → Bool) (a : List α) (left right : Int) :
    Option (List α × Int × List Int × List Int) :=
  (choosePivot lt a left right).bind fun cp =>
  (partitionLoopT lt cp.2 (a.length + 1) cp.1 left (right - 1)).bind fun r =>
  (swap r.1 r.2.1 (right - 1)).bind fun a => some (a, r.2.1, r.2.2.1, r.2.2.2)

/-! ## Reading and writing -/

theorem rd_natCast (a : List α) (n : Nat) : rd a (n : Int) = a[n]? := by
  simp [rd]

theorem rd_eq_some {a : List α} {i : Int} {x : α} (h : rd a i = some x) :
    0 ≤ i ∧ i < a.length ∧ a[i.toNat]? = some x := by
  unfold rd at h
  split at h
  · cases h
  · have hlt := (List.getElem?_eq_some_iff.mp h).1
    exact ⟨by omega, by omega, h⟩

theorem rd_bounds {a : List α} {i : Int} {x : α} (h : rd a i = some x) :
    0 ≤ i ∧ i < a.length :=
  ⟨(rd_eq_some h).1, (rd_eq_some h).2.1⟩

theorem rd_isSome {a : List α} {i : Int} (h0 : 0 ≤ i) (h1 : i < a.length) :
    ∃ x, rd a i = some x := by
  have h2 : i.toNat < a.length := by omega
  refine ⟨a[i.toNat], ?_⟩
  unfold rd
  rw [if_neg (by omega)]
  exact List.getElem?_eq_getElem h2

theorem rd_eq_none {a : List α} {i : Int} (h : i < 0 ∨ (a.length : Int) ≤ i) :
    rd a i = none := by
  unfold rd
  split
  · rfl
  · exact List.getElem?_eq_none (by omega)

theorem wr_eq_some {a a' : List α} {i : Int} {v : α} (h : wr a i v = some a') :
    0 ≤ i ∧ i < a.length ∧ a' = a.set i.toNat v := by
  unfold wr at h
  split at h
  · next hb => exact ⟨hb.1, hb.2, (Option.some.inj h).symm⟩
  · cases h

theorem wr_isSome {a : List α} {i : Int} (v : α) (h0 : 0 ≤ i) (h1 : i < a.length) :
    wr a i v = some (a.set i.toNat v) := by
  unfold wr
  rw [if_pos ⟨h0, h1⟩]

theorem wr_length {a a' : List α} {i : Int} {v : α} (h : wr a i v = some a') :
    a'.length = a.length := by
  rw [(wr_eq_some h).2.2, List.length_set]

theorem rd_wr {a a' : List α} {i : Int} {v : α} (h : wr a i v = some a') (k : Int) :
    rd a' k = if k = i then some v else rd a k := by
  obtain ⟨h0, h1, rfl⟩ := wr_eq_some h
  unfold rd
  by_cases hk : k < 0
  · rw [if_pos hk, if_pos hk, if_neg (by omega)]
  · rw [if_neg hk, if_neg hk, List.getElem?_set]
    by_cases hki : k = i
    · subst hki
      rw [if_pos rfl, if_pos rfl, if_pos (by omega)]
    · rw [if_neg hki, if_neg (by omega)]

theorem rd_wr_self {a a' : List α} {i : Int} {v : α} (h : wr a i v = some a') :
    rd a' i = some v := by
  rw [rd_wr h, if_pos rfl]

theorem rd_wr_ne {a a' : List α} {i k : Int} {v : α} (h : wr a i v = some a') (hk : k ≠ i) :
    rd a' k = rd a k := by
  rw [rd_wr h, if_neg hk]

/-- Two vectors of the same length with the same element at every index are equal. -/
theorem ext_rd {a b : List α} (h : ∀ k : Int, rd a k = rd b k) : a = b := by
  apply List.ext_getElem?
  intro n
  have := h n
  rwa [rd_natCast, rd_natCast] at this

theorem wr_self {a : List α} {i : Int} {x : α} (h : rd a i = some x) : wr a i x = some a := by
  obtain ⟨h0, h1, h2⟩ := rd_eq_some h
  rw [wr_isSome x h0 h1]
  congr 1
  apply ext_rd
  intro k
  rw [rd_wr (wr_isSome x h0 h1)]
  split
  · next hk => rw [hk, h]
  · rfl

theorem wr_wr {a b c : List α} {i : Int} {v w : α} (h1 : wr a i v = some b)
    (h2 : wr b i w = some c) : wr a i w = some c := by
  obtain ⟨h0, hl, _⟩ := wr_eq_some h1
  rw [wr_isSome w h0 hl]
  congr 1
  apply ext_rd
  intro k
  rw [rd_wr (wr_isSome w h0 hl), rd_wr h2, rd_wr h1]
  split <;> rfl

/-! ## Swaps are permutations -/

theorem set_getElem_same (a : List α) (i : Nat) (hi : i < a.length) : a.set i a[i] = a := by
  apply List.ext_getElem?
  intro n
  rw [List.getElem?_set]
  split
  · next h => subst h; simp [hi]
  · rfl

theorem set_set_perm_aux (a : List α) (i j : Nat) (hi : i < a.length) (hj : j < a.length) :
    ((a.set i a[j]).set j a[i]).Perm a := by
  classical
  rw [List.perm_iff_count]
  intro b
  by_cases hij : i = j
  · subst hij
    rw [List.set_set, set_getElem_same a i hi]
  · have hj' : j < (a.set i a[j]).length := by simpa using hj
    rw [List.count_set _ _ _ _ hj', List.count_set _ _ _ _ hi]
    have e1 : (a.set i a[j])[j] = a[j] := by
      rw [List.getElem_set]; simp [hij]
    rw [e1]
    have ci : (a[i] == b) = true → 0 < List.count b a := by
      intro h
      have : a[i] = b := by simpa using h
      rw [← this]
      exact List.count_pos_iff.mpr (List.getElem_mem hi)
    have cj : (a[j] == b) = true → 0 < List.count b a := by
      intro h
      have : a[j] = b := by simpa using h
      rw [← this]
      exact List.count_pos_iff.mpr (List.getElem_mem hj)
    by_cases h1 : (a[i] == b) = true <;> by_cases h2 : (a[j] == b) = true
    · simp only [h1, h2, if_true]
      have := ci h1
      omega
    · simp only [h1, h2, if_true, if_false]
      have := ci h1
      simp only [Bool.false_eq_true, if_false]
      omega
    · simp only [h1, h2, if_true, if_false]
      have := cj h2
      simp only [Bool.false_eq_true, if_false]
      omega
    · simp only [h1, h2, if_false]
      simp

theorem swap_eq_some {a a' : List α} {i j : Int} (h : swap a i j = some a') :
    ∃ x y b, rd a i = some x ∧ rd a j = some y ∧ wr a i y = some b ∧ wr b j x = some a' := by
  unfold swap at h
  simp only [Option.bind_eq_bind, Option.bind_eq_some] at h
  obtain ⟨x, hx, y, hy, b, hb, hw⟩ := h
  exact ⟨x, y, b, hx, hy, hb, hw⟩

theorem swap_isSome {a : List α} {i j : Int} (hi0 : 0 ≤ i) (hi1 : i < a.length)
    (hj0 : 0 ≤ j) (hj1 : j < a.length) : ∃ a', swap a i j = some a' := by
  obtain ⟨x, hx⟩ := rd_isSome hi0 hi1
  obtain ⟨y, hy⟩ := rd_isSome hj0 hj1
  have hb := wr_isSome y hi0 hi1
  have hl : j < ((a.set i.toNat y).length : Int) := by rw [List.length_set]; exact hj1
  refine ⟨(a.set i.toNat y).set j.toNat x, ?_⟩
  unfold swap
  simp only [Option.bind_eq_bind, hx, hy, hb, Option.some_bind]
  exact wr_isSome x hj0 hl

theorem swap_length {a a' : List α} {i j : Int} (h : swap a i j = some a') :
    a'.length = a.length := by
  obtain ⟨x, y, b, _, _, hb, hw⟩ := swap_eq_some h
  rw [wr_length hw, wr_length hb]

theorem rd_swap {a a' : List α} {i j : Int} (h : swap a i j = some a') (k : Int) :
    rd a' k = if k = j then rd a i else if k = i then rd a j else rd a k := by
  obtain ⟨x, y, b, hx, hy, hb, hw⟩ := swap_eq_some h
  rw [rd_wr hw, rd_wr hb, hx, hy]

theorem swap_perm {a a' : List α} {i j : Int} (h : swap a i j = some a') : a'.Perm a := by
  obtain ⟨x, y, b, hx, hy, hb, hw⟩ := swap_eq_some h
  obtain ⟨hi0, hi1, hxi⟩ := rd_eq_some hx
  obtain ⟨hj0, hj1, hyj⟩ := rd_eq_some hy
  have hi : i.toNat < a.length := by omega
  have hj : j.toNat < a.length := by omega
  have ex : a[i.toNat] = x := by
    rw [List.getElem?_eq_getElem hi] at hxi; exact Option.some.inj hxi
  have ey : a[j.toNat] = y := by
    rw [List.getElem?_eq_getElem hj] at hyj; exact Option.some.inj hyj
  have := set_set_perm_aux a i.toNat j.toNat hi hj
  rw [ex, ey] at this
  rw [(wr_eq_some hw).2.2, (wr_eq_some hb).2.2]
  exact this

/-! ## Counted loops -/

/-- Invariant rule for `forUp`: an invariant that holds at the start and is carried by
every iteration holds at the end, and the loop returns. -/
theorem forUp_inv {σ : Type} (body : Int → σ → Option σ) (I : Int → σ → Prop) :
    ∀ (n : Nat) (lo : Int) (s : σ), I lo s →
      (∀ i s, lo ≤ i → i < lo + n → I i s → ∃ s', body i s = some s' ∧ I (i + 1) s') →
      ∃ s', forUp body n lo s = some s' ∧ I (lo + n) s' := by
  intro n
  induction n with
  | zero =>
    intro lo s h0 _
    exact ⟨s, rfl, by simpa using h0⟩
  | succ n ih =>
    intro lo s h0 hstep
    obtain ⟨s1, hb, h1⟩ := hstep lo s (le_refl _) (by push_cast; omega) h0
    obtain ⟨s2, hf, h2⟩ := ih (lo + 1) s1 h1 (fun i s hi hi' hI =>
      hstep i s (by omega) (by push_cast; omega) hI)
    refine ⟨s2, ?_, ?_⟩
    · simp only [forUp, hb, Option.some_bind, hf]
    · have e : lo + ((n + 1 : Nat) : Int) = lo + 1 + (n : Int) := by push_cast; omega
      rw [e]; exact h2

theorem exact_convInt (n : Int) : convInt.Exact n := fun _ _ _ => rfl

theorem exact_convKey {τ : Type} (tag : τ) (n : Int) : (convKey tag).Exact n :=
  fun _ _ _ => rfl

theorem exact_convUChar (n : Int) (h : n ≤ 256) : convUChar.Exact n := by
  intro i h0 h1
  show i % 256 = i
  omega

theorem Conv.Exact.of_le {cv : Conv α} {n m : Int} (h : cv.Exact n) (hm : m ≤ n) :
    cv.Exact m := fun i h0 h1 => h i h0 (by omega)

theorem StrictWeak.asymm {lt : α → α → Bool} (sw : StrictWeak lt) {a b : α}
    (h : lt a b = true) : lt b a = false := by
  cases hba : lt b a with
  | false => rfl
  | true =>
    have := sw.trans a b a h hba
    rw [sw.irrefl] at this
    cases this

theorem swap_of {a b c : List α} {i j : Int} {x y : α} (hx : rd a i = some x)
    (hy : rd a j = some y) (hb : wr a i y = some b) (hc : wr b j x = some c) :
    swap a i j = some c := by
  unfold swap
  simp only [Option.bind_eq_bind, hx, hy, hb, Option.some_bind, hc]

theorem sortedRange_mono {lt : α → α → Bool} {a : List α} {lo hi lo' hi' : Int}
    (h : SortedRange lt a lo hi) (h1 : lo ≤ lo') (h2 : hi' ≤ hi) : SortedRange lt a lo' hi' :=
  fun k1 k2 x y a1 a2 a3 => h k1 k2 x y (by omega) a2 (by omega)

theorem nonDesc_of_sortedRange {lt : α → α → Bool} {a : List α}
    (h : SortedRange lt a 0 ((a.length : Int) - 1)) : NonDesc lt a := by
  unfold NonDesc
  rw [List.pairwise_iff_getElem]
  intro i j hi hj hij
  apply h (i : Int) (j : Int) a[i] a[j] (by omega) (by omega) (by omega)
  · rw [rd_natCast]; exact List.getElem?_eq_getElem hi
  · rw [rd_natCast]; exact List.getElem?_eq_getElem hj

theorem sortedRange_of_nonDesc {lt : α → α → Bool} {a : List α} (h : NonDesc lt a)
    (lo hi : Int) : SortedRange lt a lo hi := by
  unfold NonDesc at h
  rw [List.pairwise_iff_getElem] at h
  intro k1 k2 x y _ h12 _ hx hy
  obtain ⟨h10, h11, hx'⟩ := rd_eq_some hx
  obtain ⟨h20, h21, hy'⟩ := rd_eq_some hy
  have b1 : k1.toNat < a.length := by omega
  have b2 : k2.toNat < a.length := by omega
  have := h k1.toNat k2.toNat b1 b2 (by omega)
  rw [List.getElem?_eq_getElem b1] at hx'
  rw [List.getElem?_eq_getElem b2] at hy'
  rw [Option.some.inj hx', Option.some.inj hy'] at this
  exact this

/-! ## The shifting loop of the insertion sort -/

theorem insertWhile_spec (lt : α → α → Bool) (tmp : α) (a0 : List α) (i : Int)
    (hi : rd a0 i = some tmp) :
    ∀ (fuel : Nat) (a : List α) (j : Int), j.toNat < fuel → 0 ≤ j → j ≤ i →
      a.length = a0.length →
      (∀ k, j < k → k ≤ i → ∃ x, rd a0 (k - 1) = some x ∧ rd a k = some x ∧ lt tmp x = true) →
      (∀ k, (k ≤ j ∨ i < k) → rd a k = rd a0 k) →
      (∀ b, wr a j tmp = some b → b.Perm a0) →
      ∃ a' j', insertWhileZ lt tmp fuel a j = some (a', j') ∧ 0 ≤ j' ∧ j' ≤ i ∧
        a'.length = a0.length ∧
        (∀ k, j' < k → k ≤ i →
          ∃ x, rd a0 (k - 1) = some x ∧ rd a' k = some x ∧ lt tmp x = true) ∧
        (∀ k, (k ≤ j' ∨ i < k) → rd a' k = rd a0 k) ∧
        (∀ b, wr a' j' tmp = some b → b.Perm a0) ∧
        (j' = 0 ∨ ∃ x, rd a0 (j' - 1) = some x ∧ lt tmp x = false) := by
  have hib := rd_bounds hi
  intro fuel
  induction fuel with
  | zero => intro a j hf; omega
  | succ fuel ih =>
    intro a j hf hj0 hji hlen hsh hfr hperm
    unfold insertWhileZ
    by_cases hj1 : j ≥ 1
    · rw [if_pos hj1]
      obtain ⟨x, hx⟩ := rd_isSome (a := a) (i := j - 1) (by omega) (by omega)
      have hx0 : rd a0 (j - 1) = some x := by rw [← hfr (j - 1) (Or.inl (by omega))]; exact hx
      rw [hx, Option.some_bind]
      cases hlt : lt tmp x with
      | false =>
        simp only [Bool.false_eq_true, if_false]
        exact ⟨a, j, rfl, hj0, hji, hlen, hsh, hfr, hperm, Or.inr ⟨x, hx0, hlt⟩⟩
      | true =>
        simp only [if_true]
        have hw := wr_isSome (a := a) (i := j) x hj0 (by omega)
        rw [hw, Option.some_bind]
        apply ih (a.set j.toNat x) (j - 1) (by omega) (by omega) (by omega)
        · rw [List.length_set]; exact hlen
        · intro k hk1 hk2
          by_cases hkj : k = j
          · subst hkj
            exact ⟨x, hx0, rd_wr_self hw, hlt⟩
          · rw [rd_wr_ne hw hkj]
            exact hsh k (by omega) hk2
        · intro k hk
          rw [rd_wr_ne hw (by omega)]
          exact hfr k (by omega)
        · intro b1 hb1
          have hwb := wr_isSome (a := a) (i := j) tmp hj0 (by omega)
          have hpb := hperm _ hwb
          have hbl : (a.set j.toNat tmp).length = a.length := List.length_set _ _ _
          have hwc := wr_isSome (a := a.set j.toNat tmp) (i := j) x hj0 (by omega)
          have hc := wr_wr hwb hwc
          rw [hw] at hc
          rw [Option.some.inj hc] at hb1
          have hsw : swap (a.set j.toNat tmp) j (j - 1) = some b1 := by
            apply swap_of (x := tmp) (y := x) (rd_wr_self hwb) _ hwc hb1
            rw [rd_wr_ne hwb (by omega)]; exact hx
          exact (swap_perm hsw).trans hpb
    · rw [if_neg hj1]
      exact ⟨a, j, rfl, hj0, hji, hlen, hsh, hfr, hperm, Or.inl (by omega)⟩

/-- One iteration of the insertion loop: with `a[lo..i-1]` sorted and nothing in
`a[lo..i]` less than `a[lo-1]`, the iteration leaves `a[lo..i]` sorted and only
rearranges `a[lo..i]`. -/
theorem insertStep_spec {lt : α → α → Bool} (sw : StrictWeak lt) (a : List α) (lo i : Int)
    (hlo : 0 ≤ lo) (hi : lo < i) (hlen : i < a.length)
    (hs : SortedRange lt a lo (i - 1))
    (hb : ∀ k x y, lo ≤ k → k ≤ i → rd a k = some x → rd a (lo - 1) = some y →
      lt x y = false) :
    ∃ a', insertStepZ lt i a = some a' ∧ a'.length = a.length ∧ a'.Perm a ∧
      (∀ k, k < lo ∨ i < k → rd a' k = rd a k) ∧ SortedRange lt a' lo i ∧
      (∀ k, lo ≤ k → k ≤ i → ∃ k', lo ≤ k' ∧ k' ≤ i ∧ rd a' k = rd a k') := by
  obtain ⟨ai, hai⟩ := rd_isSome (a := a) (i := i) (by omega) hlen
  obtain ⟨ai1, hai1⟩ := rd_isSome (a := a) (i := i - 1) (by omega) (by omega)
  unfold insertStepZ
  rw [hai, Option.some_bind, hai1, Option.some_bind]
  cases hlt : lt ai ai1 with
  | false =>
    simp only [Bool.false_eq_true, if_false]
    refine ⟨a, rfl, rfl, List.Perm.refl _, fun _ _ => rfl, ?_, fun k h1 h2 => ⟨k, h1, h2, rfl⟩⟩
    intro k1 k2 x y h1 h12 h2 hx hy
    by_cases hk2 : k2 = i
    · subst hk2
      rw [hai] at hy
      cases hy
      by_cases hk1 : k1 = k2 - 1
      · subst hk1
        rw [hai1] at hx
        cases hx
        exact hlt
      · have := hs k1 (k2 - 1) x ai1 h1 (by omega) (le_refl _) hx hai1
        exact sw.negTrans _ _ _ hlt this
    · exact hs k1 k2 x y h1 h12 (by omega) hx hy
  | true =>
    simp only [if_true]
    obtain ⟨a1, j, hw, hj0, hji, hl1, hsh, hfr, hperm, hstop⟩ :=
      insertWhile_spec lt ai a i hai (a.length + 1) a i (by omega) (by omega) (le_refl _) rfl
        (fun k h1 h2 => by omega) (fun _ _ => rfl)
        (fun b hb' => by rw [wr_self hai] at hb'; cases hb'; exact List.Perm.refl _)
    rw [hw, Option.some_bind]
    have hjlo : lo ≤ j := by
      by_contra hcon
      obtain ⟨x, hx0, _, hxl⟩ := hsh lo (by omega) (by omega)
      have := hb i ai x (by omega) (le_refl _) hai hx0
      rw [hxl] at this
      cases this
    have hwb := wr_isSome (a := a1) (i := j) ai hj0 (by omega)
    refine ⟨_, hwb, ?_, hperm _ hwb, ?_, ?_, ?_⟩
    · rw [List.length_set]; exact hl1
    · intro k hk
      rw [rd_wr_ne hwb (by omega)]
      exact hfr k (by omega)
    · intro k1 k2 x y h1 h12 h2 hx hy
      rw [rd_wr hwb] at hx hy
      by_cases c2 : k2 = j
      · subst c2
        rw [if_pos rfl] at hy
        cases hy
        rw [if_neg (by omega), hfr k1 (Or.inl (by omega))] at hx
        rcases hstop with h0 | ⟨z, hz, hzl⟩
        · omega
        · by_cases hk1 : k1 = k2 - 1
          · subst hk1
            rw [hz] at hx
            cases hx
            exact hzl
          · have := hs k1 (k2 - 1) x z h1 (by omega) (by omega) hx hz
            exact sw.negTrans _ _ _ hzl this
      · rw [if_neg c2] at hy
        by_cases c3 : k2 < j
        · rw [hfr k2 (Or.inl (by omega))] at hy
          rw [if_neg (by omega), hfr k1 (Or.inl (by omega))] at hx
          exact hs k1 k2 x y h1 h12 (by omega) hx hy
        · obtain ⟨w, hw0, hw1, hwl⟩ := hsh k2 (by omega) h2
          rw [hw1] at hy
          cases hy
          by_cases d1 : k1 = j
          · subst d1
            rw [if_pos rfl] at hx
            cases hx
            exact sw.asymm hwl
          · rw [if_neg d1] at hx
            by_cases d2 : k1 < j
            · rw [hfr k1 (Or.inl (by omega))] at hx
              exact hs k1 (k2 - 1) x y h1 (by omega) (by omega) hx hw0
            · obtain ⟨v, hv0, hv1, _⟩ := hsh k1 (by omega) (by omega)
              rw [hv1] at hx
              cases hx
              exact hs (k1 - 1) (k2 - 1) x y (by omega) (by omega) (by omega) hv0 hw0
    · intro k h1 h2
      rw [rd_wr hwb]
      by_cases c1 : k = j
      · exact ⟨i, by omega, le_refl _, by rw [if_pos c1, hai]⟩
      · rw [if_neg c1]
        by_cases c2 : k < j
        · exact ⟨k, h1, h2, hfr k (Or.inl (by omega))⟩
        · obtain ⟨w, hw0, hw1, _⟩ := hsh k (by omega) h2
          exact ⟨k - 1, by omega, by omega, by rw [hw1, hw0]⟩

/-- The insertion loop over `a[lo..hi]`: when nothing in the range is less than
`a[lo-1]`, the loop sorts the range and changes nothing outside it. -/
theorem insertRange_spec_of {lt : α → α → Bool} (sw : StrictWeak lt)
    (body : Int → List α → Option (List α)) (a0 : List α) (lo hi : Int)
    (hbody : ∀ i a, 1 ≤ i → i < a.length → i ≤ hi → body i a = insertStepZ lt i a)
    (hlo : 0 ≤ lo) (hhi : hi < a0.length)
    (hb : ∀ k x y, lo ≤ k → k ≤ hi → rd a0 k = some x → rd a0 (lo - 1) = some y →
      lt x y = false) :
    ∃ a', forUp body (hi - lo).toNat (lo + 1) a0 = some a' ∧
      a'.length = a0.length ∧ a'.Perm a0 ∧
      (∀ k, k < lo ∨ hi < k → rd a' k = rd a0 k) ∧ SortedRange lt a' lo hi ∧
      (∀ k, lo ≤ k → k ≤ hi → ∃ k', lo ≤ k' ∧ k' ≤ hi ∧ rd a' k = rd a0 k') := by
  obtain ⟨a', hf, hl, hp, hfr, hs, hm⟩ := forUp_inv body
    (fun i a => a.length = a0.length ∧ a.Perm a0 ∧
      (∀ k, k < lo ∨ hi < k → rd a k = rd a0 k) ∧ SortedRange lt a lo (i - 1) ∧
      (∀ k, lo ≤ k → k ≤ hi → ∃ k', lo ≤ k' ∧ k' ≤ hi ∧ rd a k = rd a0 k'))
    (hi - lo).toNat (lo + 1) a0
    ⟨rfl, List.Perm.refl _, fun _ _ => rfl,
      fun k1 k2 _ _ _ _ _ => by omega, fun k h1 h2 => ⟨k, h1, h2, rfl⟩⟩
    (by
      intro i a hi1 hi2 ⟨hl, hp, hfr, hs, hm⟩
      obtain ⟨a', he, hl', hp', hfr', hs', hm'⟩ := insertStep_spec sw a lo i hlo (by omega)
        (by omega) hs (by
          intro k x y h1 h2 hx hy
          obtain ⟨k', g1, g2, g3⟩ := hm k h1 (by omega)
          rw [g3] at hx
          rw [hfr (lo - 1) (Or.inl (by omega))] at hy
          exact hb k' x y g1 g2 hx hy)
      rw [← hbody i a (by omega) (by omega) (by omega)] at he
      refine ⟨a', he, hl'.trans hl, hp'.trans hp, ?_, ?_, ?_⟩
      · intro k hk
        rw [hfr' k (by omega)]
        exact hfr k hk
      · simpa using hs'
      · intro k h1 h2
        by_cases hki : k ≤ i
        · obtain ⟨k', g1, g2, g3⟩ := hm' k h1 hki
          obtain ⟨k'', e1, e2, e3⟩ := hm k' g1 (by omega)
          exact ⟨k'', e1, e2, by rw [g3, e3]⟩
        · rw [hfr' k (Or.inr (by omega))]
          exact hm k h1 h2)
  exact ⟨a', hf, hl, hp, hfr, sortedRange_mono hs (le_refl _) (by omega), hm⟩

/-- With an element type that holds the indices below `n` exactly, the shifting loop
with `j` of the element type is the loop with `j` an integer. -/
theorem insertWhile_eq (cv : Conv α) (lt : α → α → Bool) (tmp : α) (n : Int)
    (hx : cv.Exact n) :
    ∀ (fuel : Nat) (a : List α) (j : α) (m : Int), cv.toInt j = m → m < n →
      (insertWhile cv lt tmp fuel a j).map (fun r => (r.1, cv.toInt r.2)) =
        insertWhileZ lt tmp fuel a m := by
  intro fuel
  induction fuel with
  | zero => intro a j m _ _; rfl
  | succ fuel ih =>
    intro a j m hj hm
    unfold insertWhile insertWhileZ
    rw [hj]
    by_cases h1 : m ≥ 1
    · rw [if_pos h1, if_pos h1]
      cases hr : rd a (m - 1) with
      | none => rfl
      | some x =>
        simp only [Option.some_bind]
        cases hlt : lt tmp x with
        | false => simp [hj]
        | true =>
          simp only [if_true]
          cases hw : wr a m x with
          | none => rfl
          | some a2 =>
            simp only [Option.some_bind]
            exact ih a2 (cv.ofInt (m - 1)) (m - 1) (hx (m - 1) (by omega) (by omega))
              (by omega)
    · rw [if_neg h1, if_neg h1]
      simp [hj]

/-- With an element type that holds the indices up to `i` exactly, the body of the
insertion loop for this `i` is the body with `j` an integer. -/
theorem insertStep_eq (cv : Conv α) (lt : α → α → Bool) (i : Int) (a : List α)
    (hx : cv.Exact (i + 1)) : insertStep cv lt i a = insertStepZ lt i a := by
  unfold insertStep insertStepZ
  cases hai : rd a i with
  | none => rfl
  | some ai =>
    have hb := rd_bounds hai
    simp only [Option.some_bind]
    cases hai1 : rd a (i - 1) with
    | none => rfl
    | some ai1 =>
      simp only [Option.some_bind]
      cases hlt : lt ai ai1 with
      | false => rfl
      | true =>
        simp only [if_true]
        rw [← insertWhile_eq cv lt ai (i + 1) hx (a.length + 1) a (cv.ofInt i) i
          (hx i hb.1 (by omega)) (by omega)]
        cases insertWhile cv lt ai (a.length + 1) a (cv.ofInt i) with
        | none => rfl
        | some r => rfl

theorem insertRange_spec {lt : α → α → Bool} (sw : StrictWeak lt) (cv : Conv α)
    (a0 : List α) (lo hi : Int) (hx : cv.Exact (hi + 1))
    (hlo : 0 ≤ lo) (hhi : hi < a0.length)
    (hb : ∀ k x y, lo ≤ k → k ≤ hi → rd a0 k = some x → rd a0 (lo - 1) = some y →
      lt x y = false) :
    ∃ a', forUp (insertStep cv lt) (hi - lo).toNat (lo + 1) a0 = some a' ∧
      a'.length = a0.length ∧ a'.Perm a0 ∧
      (∀ k, k < lo ∨ hi < k → rd a' k = rd a0 k) ∧ SortedRange lt a' lo hi ∧
      (∀ k, lo ≤ k → k ≤ hi → ∃ k', lo ≤ k' ∧ k' ≤ hi ∧ rd a' k = rd a0 k') :=
  insertRange_spec_of sw (insertStep cv lt) a0 lo hi
    (fun i a _ _ hi1 => insertStep_eq cv lt i a (hx.of_le (by omega))) hlo hhi hb

/-- Insertion sort returns, and its result is a sorted permutation of the input, when
the element type holds the indices of the vector exactly. -/
theorem insertionSort_spec {lt : α → α → Bool} (sw : StrictWeak lt) (cv : Conv α)
    (arr : List α) (hx : cv.Exact arr.length) :
    ∃ out, insertionSort cv lt arr = some out ∧ NonDesc lt out ∧ out.Perm arr := by
  obtain ⟨a', hf, hl, hp, _, hs, _⟩ := insertRange_spec sw cv arr 0
    ((arr.length : Int) - 1) (hx.of_le (by omega)) (le_refl _) (by omega) (by
      intro k x y _ _ _ hy
      have := rd_bounds hy
      omega)
  refine ⟨a', ?_, ?_, hp⟩
  · unfold insertionSort
    simpa using hf
  · apply nonDesc_of_sortedRange
    rw [hl]; exact hs

/-! ## Selection sort -/

/-- The scan for the minimum of `a[i..n-1]` returns an index `min` of the range whose
element is not greater than any element of the range. -/
theorem selectMin_spec {lt : α → α → Bool} (sw : StrictWeak lt) (a : List α) (i : Int)
    (hi0 : 0 ≤ i) (hi1 : i < a.length) :
    ∃ min, forUp (selectMin lt a) ((a.length : Int) - i).toNat i i = some min ∧
      i ≤ min ∧ min < a.length ∧
      ∀ k x y, i ≤ k → rd a k = some x → rd a min = some y → lt x y = false := by
  obtain ⟨m, hf, h1, h2, h3⟩ := forUp_inv (selectMin lt a)
    (fun k min => i ≤ min ∧ min < a.length ∧
      ∀ k' x y, i ≤ k' → k' < k → rd a k' = some x → rd a min = some y → lt x y = false)
    ((a.length : Int) - i).toNat i i ⟨le_refl _, hi1, fun k' x y h1 h2 => by omega⟩
    (by
      intro k min hk1 hk2 ⟨hm1, hm2, hm3⟩
      obtain ⟨ak, hak⟩ := rd_isSome (a := a) (i := k) (by omega) (by omega)
      obtain ⟨am, ham⟩ := rd_isSome (a := a) (i := min) (by omega) hm2
      unfold selectMin
      rw [hak, Option.some_bind, ham, Option.some_bind]
      cases hlt : lt ak am with
      | true =>
        refine ⟨k, by simp, hk1, by omega, ?_⟩
        intro k' x y g1 g2 hx hy
        rw [hak] at hy
        cases hy
        by_cases e : k' = k
        · subst e
          rw [hak] at hx
          cases hx
          exact sw.irrefl _
        · have h := hm3 k' x am g1 (by omega) hx ham
          cases hxy : lt x ak with
          | false => rfl
          | true =>
            rw [sw.trans _ _ _ hxy hlt] at h
            cases h
      | false =>
        refine ⟨min, by simp, hm1, hm2, ?_⟩
        intro k' x y g1 g2 hx hy
        rw [ham] at hy
        cases hy
        by_cases e : k' = k
        · subst e
          rw [hak] at hx
          cases hx
          exact hlt
        · exact hm3 k' x am g1 (by omega) hx ham)
  refine ⟨m, hf, h1, h2, ?_⟩
  intro k x y g1 hx hy
  exact h3 k x y g1 (by have := rd_bounds hx; omega) hx hy

/-- Effect of one iteration of the outer loop of the selection sort: the elements at
`i` and at the index `min` of a minimum of `a[i..n-1]` are exchanged. -/
theorem selectStep_spec {lt : α → α → Bool} (sw : StrictWeak lt) (a : List α) (i : Int)
    (hi0 : 0 ≤ i) (hi1 : i < a.length) :
    ∃ a' min, selectStep lt a.length i a = some a' ∧ i ≤ min ∧ min < a.length ∧
      a'.length = a.length ∧ a'.Perm a ∧
      (∀ k, rd a' k = if k = min then rd a i else if k = i then rd a min else rd a k) ∧
      (∀ k x y, i ≤ k → rd a k = some x → rd a min = some y → lt x y = false) := by
  obtain ⟨min, hf, h1, h2, h3⟩ := selectMin_spec sw a i hi0 hi1
  unfold selectStep
  rw [hf, Option.some_bind]
  by_cases hm : min = i
  · subst hm
    refine ⟨a, min, by simp, h1, h2, rfl, List.Perm.refl _, ?_, h3⟩
    intro k
    split
    · next e => rw [e]
    · rfl
  · rw [if_pos hm]
    obtain ⟨a', hs⟩ := swap_isSome (a := a) hi0 hi1 (by omega : 0 ≤ min) h2
    exact ⟨a', min, hs, h1, h2, swap_length hs, swap_perm hs, rd_swap hs, h3⟩

/-- Selection sort returns, and its result is a sorted permutation of the input. -/
theorem selectionSort_spec {lt : α → α → Bool} (sw : StrictWeak lt) (arr : List α) :
    ∃ out, selectionSort lt arr = some out ∧ NonDesc lt out ∧ out.Perm arr := by
  obtain ⟨a', hf, hl, hp, hs, hps⟩ := forUp_inv (selectStep lt arr.length)
    (fun i a => a.length = arr.length ∧ a.Perm arr ∧ SortedRange lt a 0 (i - 1) ∧
      (∀ k1 k2 x y, k1 < i → i ≤ k2 → rd a k1 = some x → rd a k2 = some y →
        lt y x = false))
    ((arr.length : Int) - 1 - 0).toNat 0 arr
    ⟨rfl, List.Perm.refl _, fun k1 k2 _ _ _ _ _ => by omega,
      fun k1 k2 x y h1 _ hx _ => by have := rd_bounds hx; omega⟩
    (by
      intro i a hi1 hi2 ⟨hl, hp, hs, hps⟩
      have hil : i < a.length := by rw [hl]; omega
      obtain ⟨a', min, he, hm1, hm2, hl', hp', hch, hmin⟩ := selectStep_spec sw a i hi1 hil
      rw [hl] at he
      refine ⟨a', he, hl'.trans hl, hp'.trans hp, ?_, ?_⟩
      · intro k1 k2 x y g1 g12 g2 hx hy
        have g2' : k2 ≤ i := by omega
        rw [hch, if_neg (by omega), if_neg (by omega)] at hx
        rw [hch] at hy
        by_cases e : k2 = i
        · subst e
          by_cases e2 : k2 = min
          · rw [if_pos e2] at hy
            exact hps k1 k2 x y (by omega) (le_refl _) hx hy
          · rw [if_neg e2, if_pos rfl] at hy
            exact hps k1 min x y (by omega) hm1 hx hy
        · rw [if_neg (by omega), if_neg e] at hy
          exact hs k1 k2 x y g1 g12 (by omega) hx hy
      · intro k1 k2 x y g1 g2 hx hy
        rw [hch] at hx hy
        -- the element now at `k2` was in `a[i..]`
        have hy' : ∃ k', i ≤ k' ∧ rd a k' = some y := by
          by_cases e2 : k2 = min
          · rw [if_pos e2] at hy; exact ⟨i, le_refl _, hy⟩
          · rw [if_neg e2, if_neg (by omega)] at hy; exact ⟨k2, by omega, hy⟩
        obtain ⟨k', gk, hk'⟩ := hy'
        by_cases e1 : k1 = i
        · subst e1
          by_cases e3 : k1 = min
          · rw [if_pos e3] at hx
            rw [e3] at hx
            exact hmin k' y x gk hk' hx
          · rw [if_neg e3, if_pos rfl] at hx
            exact hmin k' y x gk hk' hx
        · rw [if_neg (by omega), if_neg e1] at hx
          exact hps k1 k' x y (by omega) gk hx hk')
  refine ⟨a', ?_, ?_, hp⟩
  · unfold selectionSort
    exact hf
  · apply nonDesc_of_sortedRange
    intro k1 k2 x y g1 g12 g2 hx hy
    by_cases hn : (arr.length : Int) - 1 - 0 < 0
    · have := rd_bounds hy
      have := rd_bounds hx
      omega
    · have e : (0 : Int) + (((arr.length : Int) - 1 - 0).toNat : Int) = arr.length - 1 := by
        omega
      rw [e] at hs hps
      by_cases c : k2 = (a'.length : Int) - 1
      · exact hps k1 k2 x y (by omega) (by omega) hx hy
      · exact hs k1 k2 x y g1 g12 (by omega) hx hy

/-! ## Shell sort -/

/-- The gapped shifting loop returns, keeps the length, and with `tmp` put back into
the hole the vector is a permutation of the one it started from. -/
theorem shellInner_spec (lt : α → α → Bool) (tmp : α) (inc : Int) (hinc : 1 ≤ inc)
    (a0 : List α) :
    ∀ (fuel : Nat) (a : List α) (j : Int), j.toNat < fuel → 0 ≤ j → j < a.length →
      a.length = a0.length →
      (∀ b, wr a j tmp = some b → b.Perm a0) →
      ∃ a' j', shellInner lt tmp inc fuel a j = some (a', j') ∧ 0 ≤ j' ∧ j' < a'.length ∧
        a'.length = a0.length ∧ (∀ b, wr a' j' tmp = some b → b.Perm a0) := by
  intro fuel
  induction fuel with
  | zero => intro a j hf; omega
  | succ fuel ih =>
    intro a j hf hj0 hj1 hlen hperm
    unfold shellInner
    by_cases hji : j ≥ inc
    · rw [if_pos hji]
      obtain ⟨x, hx⟩ := rd_isSome (a := a) (i := j - inc) (by omega) (by omega)
      rw [hx, Option.some_bind]
      cases hlt : lt tmp x with
      | false =>
        simp only [Bool.false_eq_true, if_false]
        exact ⟨a, j, rfl, hj0, hj1, hlen, hperm⟩
      | true =>
        simp only [if_true]
        have hw := wr_isSome (a := a) (i := j) x hj0 hj1
        rw [hw, Option.some_bind]
        have hl1 : (a.set j.toNat x).length = a.length := List.length_set _ _ _
        apply ih (a.set j.toNat x) (j - inc) (by omega) (by omega) (by rw [hl1]; omega)
          (by rw [hl1]; exact hlen)
        intro b1 hb1
        have hwb := wr_isSome (a := a) (i := j) tmp hj0 hj1
        have hpb := hperm _ hwb
        have hbl : (a.set j.toNat tmp).length = a.length := List.length_set _ _ _
        have hwc := wr_isSome (a := a.set j.toNat tmp) (i := j) x hj0 (by omega)
        have hc := wr_wr hwb hwc
        rw [hw] at hc
        rw [Option.some.inj hc] at hb1
        have hsw : swap (a.set j.toNat tmp) j (j - inc) = some b1 := by
          apply swap_of (x := tmp) (y := x) (rd_wr_self hwb) _ hwc hb1
          rw [rd_wr_ne hwb (by omega)]; exact hx
        exact (swap_perm hsw).trans hpb
    · rw [if_neg hji]
      exact ⟨a, j, rfl, hj0, hj1, hlen, hperm⟩

/-- One iteration of the middle loop of the shell sort returns a permutation. -/
theorem shellStep_spec (lt : α → α → Bool) (inc : Int) (hinc : 1 ≤ inc) (a : List α)
    (i : Int) (hi0 : 0 ≤ i) (hi1 : i < a.length) :
    ∃ a', shellStep lt inc i a = some a' ∧ a'.length = a.length ∧ a'.Perm a := by
  obtain ⟨tmp, htmp⟩ := rd_isSome (a := a) hi0 hi1
  obtain ⟨a1, j, hw, hj0, hj1, hl1, hperm⟩ :=
    shellInner_spec lt tmp inc hinc a (a.length + 1) a i (by omega) hi0 hi1 rfl
      (fun b hb' => by rw [wr_self htmp] at hb'; cases hb'; exact List.Perm.refl _)
  have hwb := wr_isSome (a := a1) (i := j) tmp hj0 hj1
  refine ⟨_, ?_, ?_, hperm _ hwb⟩
  · unfold shellStep
    rw [htmp, Option.some_bind, hw, Option.some_bind]
    exact hwb
  · rw [List.length_set]; exact hl1

/-- One pass of the shell sort with a gap `inc ≥ 1` returns a permutation. -/
theorem shellPass_spec (lt : α → α → Bool) (inc : Int) (hinc : 1 ≤ inc) (a : List α) :
    ∃ a', forUp (shellStep lt inc) ((a.length : Int) - inc).toNat inc a = some a' ∧
      a'.length = a.length ∧ a'.Perm a := by
  obtain ⟨a', hf, hl, hp⟩ := forUp_inv (shellStep lt inc)
    (fun _ b => b.length = a.length ∧ b.Perm a)
    ((a.length : Int) - inc).toNat inc a ⟨rfl, List.Perm.refl _⟩
    (by
      intro i b hi1 hi2 ⟨hl, hp⟩
      obtain ⟨b', he, hl', hp'⟩ := shellStep_spec lt inc hinc b i (by omega) (by omega)
      exact ⟨b', he, hl'.trans hl, hp'.trans hp⟩)
  exact ⟨a', hf, hl, hp⟩

/-- With gap 1 the shifting loop of the shell sort is that of the insertion sort. -/
theorem shellInner_one (lt : α → α → Bool) (tmp : α) :
    ∀ (fuel : Nat) (a : List α) (j : Int),
      shellInner lt tmp 1 fuel a j = insertWhileZ lt tmp fuel a j := by
  intro fuel
  induction fuel with
  | zero => intro a j; rfl
  | succ fuel ih =>
    intro a j
    unfold shellInner insertWhileZ
    simp only [ih]

/-- With gap 1 an iteration of the shell sort is an iteration of the insertion sort. -/
theorem shellStep_one (lt : α → α → Bool) (i : Int) (a : List α) (hi0 : 1 ≤ i)
    (hi1 : i < a.length) : shellStep lt 1 i a = insertStepZ lt i a := by
  obtain ⟨ai, hai⟩ := rd_isSome (a := a) (i := i) (by omega) hi1
  obtain ⟨ai1, hai1⟩ := rd_isSome (a := a) (i := i - 1) (by omega) (by omega)
  unfold shellStep insertStepZ
  rw [hai, Option.some_bind, Option.some_bind, hai1, Option.some_bind, shellInner_one]
  cases hlt : lt ai ai1 with
  | true => simp
  | false =>
    simp only [Bool.false_eq_true, if_false]
    unfold insertWhileZ
    rw [if_pos (by omega), hai1, Option.some_bind, hlt]
    simp only [Bool.false_eq_true, if_false, Option.some_bind]
    exact wr_self hai

theorem nonDesc_of_length_le_one (lt : α → α → Bool) (a : List α) (h : a.length ≤ 1) :
    NonDesc lt a := by
  unfold NonDesc
  match a, h with
  | [], _ => exact List.Pairwise.nil
  | [x], _ => exact List.pairwise_singleton _ _

theorem shellOuter_spec {lt : α → α → Bool} (sw : StrictWeak lt) (n : Nat) :
    ∀ (fuel : Nat) (a : List α) (inc : Int), inc.toNat < fuel → 1 ≤ inc → a.length = n →
      ∃ a', shellOuter lt n fuel a inc = some a' ∧ NonDesc lt a' ∧ a'.Perm a := by
  intro fuel
  induction fuel with
  | zero => intro a inc hf; omega
  | succ fuel ih =>
    intro a inc hf hinc hlen
    unfold shellOuter
    rw [if_pos hinc]
    have hdiv : Int.tdiv inc 2 = inc / 2 := Int.tdiv_eq_ediv (by omega) (by omega)
    by_cases h1 : inc = 1
    · subst h1
      obtain ⟨a1, hf1, hl1, hp1, _, hs1, _⟩ := insertRange_spec_of sw (shellStep lt 1) a 0 ((a.length : Int) - 1)
        (fun i b g1 g2 _ => shellStep_one lt i b g1 g2)
        (le_refl _) (by omega) (by
          intro k x y _ _ _ hy
          have := rd_bounds hy
          omega)
      have e : ((n : Int) - 1).toNat = ((a.length : Int) - 1 - 0).toNat := by
        rw [hlen]; simp
      rw [e]
      simp only [zero_add] at hf1
      rw [hf1, Option.some_bind]
      obtain ⟨f', rfl⟩ : ∃ f', fuel = f' + 1 := ⟨fuel - 1, by omega⟩
      refine ⟨a1, ?_, ?_, hp1⟩
      · unfold shellOuter
        rw [if_neg (by decide)]
      · apply nonDesc_of_sortedRange
        rw [hl1]; exact hs1
    · obtain ⟨a1, hf1, hl1, hp1⟩ := shellPass_spec lt inc hinc a
      rw [hlen] at hf1
      rw [hf1, Option.some_bind, hdiv]
      obtain ⟨a2, hf2, hs2, hp2⟩ := ih a1 (inc / 2) (by omega) (by omega) (hl1.trans hlen)
      exact ⟨a2, hf2, hs2, hp2.trans hp1⟩

/-- Shell sort returns, and its result is a sorted permutation of the input. -/
theorem shellSort_spec {lt : α → α → Bool} (sw : StrictWeak lt) (arr : List α) :
    ∃ out, shellSort lt arr = some out ∧ NonDesc lt out ∧ out.Perm arr := by
  unfold shellSort
  have hdiv : Int.tdiv (arr.length : Int) 2 = (arr.length : Int) / 2 :=
    Int.tdiv_eq_ediv (by omega) (by omega)
  simp only [hdiv]
  by_cases h : 2 ≤ arr.length
  · exact shellOuter_spec sw arr.length (arr.length + 1) arr _ (by omega) (by omega) rfl
  · refine ⟨arr, ?_, nonDesc_of_length_le_one lt arr (by omega), List.Perm.refl _⟩
    unfold shellOuter
    rw [if_neg (by omega)]

/-! ## Slices of a vector -/

theorem getElem?_slice (a : List α) (lo hi : Int) (hlo : 0 ≤ lo) (n : Nat) :
    (slice a lo hi)[n]? = if (n : Int) ≤ hi - lo then rd a (lo + n) else none := by
  unfold slice
  rw [List.getElem?_take]
  by_cases h : (n : Int) ≤ hi - lo
  · rw [if_pos (by omega), if_pos h, List.getElem?_drop]
    unfold rd
    rw [if_neg (by omega)]
    congr 1
    omega
  · rw [if_neg (by omega), if_neg h]

theorem slice_congr {a b : List α} {lo hi : Int} (hlo : 0 ≤ lo)
    (h : ∀ k, lo ≤ k → k ≤ hi → rd a k = rd b k) : slice a lo hi = slice b lo hi := by
  apply List.ext_getElem?
  intro n
  rw [getElem?_slice a lo hi hlo, getElem?_slice b lo hi hlo]
  split
  · exact h _ (by omega) (by omega)
  · rfl

theorem length_slice (a : List α) (lo hi : Int) (hlo : 0 ≤ lo) (hhi : hi < a.length) :
    (slice a lo hi).length = (hi + 1 - lo).toNat := by
  unfold slice
  rw [List.length_take, List.length_drop]
  omega

theorem slice_nil (a : List α) (lo hi : Int) (h : hi < lo) : slice a lo hi = [] := by
  unfold slice
  have : (hi + 1 - lo).toNat = 0 := by omega
  rw [this, List.take_zero]

theorem slice_cons {a : List α} {lo hi : Int} {x : α} (hlo : 0 ≤ lo) (h : lo ≤ hi)
    (hx : rd a lo = some x) : slice a lo hi = x :: slice a (lo + 1) hi := by
  apply List.ext_getElem?
  intro n
  rw [getElem?_slice a lo hi hlo]
  cases n with
  | zero =>
    simp only [List.getElem?_cons_zero]
    rw [if_pos (by omega)]
    simpa using hx
  | succ n =>
    simp only [List.getElem?_cons_succ]
    rw [getElem?_slice a (lo + 1) hi (by omega)]
    by_cases c : ((n + 1 : Nat) : Int) ≤ hi - lo
    · rw [if_pos c, if_pos (by omega)]
      congr 1
      push_cast
      omega
    · rw [if_neg c, if_neg (by omega)]

theorem slice_append (a : List α) (lo mid hi : Int) (hlo : 0 ≤ lo) (h1 : lo ≤ mid + 1)
    (h2 : mid ≤ hi) (hhi : hi < a.length) :
    slice a lo hi = slice a lo mid ++ slice a (mid + 1) hi := by
  apply List.ext_getElem?
  intro n
  rw [List.getElem?_append, length_slice a lo mid hlo (by omega),
    getElem?_slice a lo hi hlo, getElem?_slice a lo mid hlo,
    getElem?_slice a (mid + 1) hi (by omega)]
  by_cases c : n < (mid + 1 - lo).toNat
  · rw [if_pos c, if_pos (by omega), if_pos (by omega)]
  · rw [if_neg c]
    by_cases d : (n : Int) ≤ hi - lo
    · rw [if_pos d, if_pos (by omega)]
      congr 1
      omega
    · rw [if_neg d, if_neg (by omega)]

theorem slice_snoc {a : List α} {lo hi : Int} {x : α} (hlo : 0 ≤ lo) (h : lo ≤ hi + 1)
    (hx : rd a (hi + 1) = some x) : slice a lo (hi + 1) = slice a lo hi ++ [x] := by
  have hb := rd_bounds hx
  rw [slice_append a lo hi (hi + 1) hlo h (by omega) hb.2,
    slice_cons (by omega) (le_refl _) hx, slice_nil a (hi + 1 + 1) (hi + 1) (by omega)]

theorem slice_whole (a : List α) : slice a 0 ((a.length : Int) - 1) = a := by
  unfold slice
  simp

theorem mem_slice {a : List α} {lo hi : Int} (hlo : 0 ≤ lo) {x : α}
    (h : x ∈ slice a lo hi) : ∃ k, lo ≤ k ∧ k ≤ hi ∧ rd a k = some x := by
  obtain ⟨n, hn, hx⟩ := List.mem_iff_getElem.mp h
  have e : (slice a lo hi)[n]? = some x := by
    rw [List.getElem?_eq_getElem hn, hx]
  rw [getElem?_slice a lo hi hlo] at e
  split at e
  · exact ⟨lo + n, by omega, by omega, e⟩
  · cases e

theorem rd_mem_slice {a : List α} {lo hi k : Int} (hlo : 0 ≤ lo) {x : α} (h1 : lo ≤ k)
    (h2 : k ≤ hi) (hx : rd a k = some x) : x ∈ slice a lo hi := by
  have e : (slice a lo hi)[(k - lo).toNat]? = some x := by
    rw [getElem?_slice a lo hi hlo, if_pos (by omega)]
    have : lo + ((k - lo).toNat : Int) = k := by omega
    rw [this]; exact hx
  obtain ⟨hn, hx'⟩ := List.getElem?_eq_some_iff.mp e
  rw [← hx']
  exact List.getElem_mem hn

/-! ## The merge rule and the reference sort -/

theorem orderedInsert_nil' (lt : α → α → Bool) (b : α) :
    List.orderedInsert (fun a b => lt b a = false) b [] = [b] := rfl

theorem orderedInsert_cons' (lt : α → α → Bool) (b y : α) (ys : List α) :
    List.orderedInsert (fun a b => lt b a = false) b (y :: ys) =
      if lt y b = false then b :: y :: ys
      else y :: List.orderedInsert (fun a b => lt b a = false) b ys := rfl

/-- Inserting into a merge is merging with the insertion into the right run: the merge
rule of the source puts right-run elements before left-run elements they tie with. -/
theorem orderedInsert_merge {lt : α → α → Bool} (sw : StrictWeak lt) (b : α) :
    ∀ X Y : List α,
      List.orderedInsert (fun a b => lt b a = false) b (X.merge Y lt) =
        X.merge (List.orderedInsert (fun a b => lt b a = false) b Y) lt := by
  intro X
  induction X with
  | nil => intro Y; rw [List.nil_merge, List.nil_merge]
  | cons x xs ihx =>
    intro Y
    induction Y with
    | nil =>
      rw [List.merge_right, orderedInsert_nil', orderedInsert_cons', List.cons_merge_cons]
      cases hxb : lt x b with
      | true =>
        have := ihx []
        rw [List.merge_right, orderedInsert_nil'] at this
        simp [this]
      | false => simp [List.merge_right]
    | cons y ys ihy =>
      rw [List.cons_merge_cons, orderedInsert_cons']
      cases hyb : lt y b with
      | false =>
        simp only [if_true]
        rw [List.cons_merge_cons]
        cases hxy : lt x y with
        | true =>
          simp only [if_true]
          rw [orderedInsert_cons']
          cases hxb : lt x b with
          | true =>
            simp only [Bool.true_eq_false, if_false, if_true]
            rw [ihx (y :: ys), orderedInsert_cons', hyb]
            simp
          | false =>
            simp only [if_true, Bool.false_eq_true, if_false]
            rw [List.cons_merge_cons, hxy]
            simp
        | false =>
          simp only [Bool.false_eq_true, if_false]
          rw [orderedInsert_cons', hyb]
          simp only [if_true]
          rw [sw.negTrans x y b hxy hyb]
          simp only [Bool.false_eq_true, if_false]
          rw [List.cons_merge_cons, hxy]
          simp
      | true =>
        simp only [Bool.true_eq_false, if_false]
        rw [List.cons_merge_cons]
        cases hxy : lt x y with
        | true =>
          simp only [if_true]
          rw [orderedInsert_cons', sw.trans x y b hxy hyb]
          simp only [Bool.true_eq_false, if_false]
          rw [ihx (y :: ys), orderedInsert_cons', hyb]
          simp
        | false =>
          simp only [Bool.false_eq_true, if_false]
          rw [orderedInsert_cons', hyb]
          simp only [Bool.true_eq_false, if_false]
          rw [ihy]

/-- Merging the reference sorts of two runs by the rule of the source gives the
reference sort of their concatenation. -/
theorem merge_refSort {lt : α → α → Bool} (sw : StrictWeak lt) (L R : List α) :
    (refSort lt L).merge (refSort lt R) lt = refSort lt (L ++ R) := by
  unfold refSort
  rw [List.reverse_append]
  generalize L.reverse = A
  generalize R.reverse = B
  induction B with
  | nil => rw [List.nil_append]; exact List.merge_right _
  | cons b B ih =>
    show List.merge _ (List.orderedInsert _ b (List.insertionSort _ B)) lt =
      List.orderedInsert _ b (List.insertionSort _ (B ++ A))
    rw [← ih, orderedInsert_merge sw]

theorem refSort_perm (lt : α → α → Bool) (l : List α) : (refSort lt l).Perm l :=
  (List.perm_insertionSort _ _).trans (List.reverse_perm l)

theorem refSort_nonDesc {lt : α → α → Bool} (sw : StrictWeak lt) (l : List α) :
    NonDesc lt (refSort lt l) := by
  haveI : IsTotal α (fun a b => lt b a = false) := ⟨fun a b => by
    cases h : lt b a with
    | false => exact Or.inl rfl
    | true => exact Or.inr (sw.asymm h)⟩
  haveI : IsTrans α (fun a b => lt b a = false) := ⟨fun a b c h1 h2 =>
    sw.negTrans c b a h2 h1⟩
  exact List.sorted_insertionSort (fun a b => lt b a = false) l.reverse

theorem refSort_singleton (lt : α → α → Bool) (x : α) : refSort lt [x] = [x] := rfl

theorem refSort_nil (lt : α → α → Bool) : refSort lt ([] : List α) = [] := rfl

/-! ## The merge loops of `mergeSortArray` -/

theorem slice_wr_snoc {tmp t : List α} {left ti : Int} {x : α} (h0 : 0 ≤ left)
    (h1 : left ≤ ti) (hw : wr tmp ti x = some t) :
    slice t left (ti + 1 - 1) = slice tmp left (ti - 1) ++ [x] := by
  have e : ti + 1 - 1 = ti - 1 + 1 := by omega
  rw [e, slice_snoc h0 (by omega) (by rw [← e]; simpa using rd_wr_self hw)]
  congr 1
  apply slice_congr h0
  intro k _ hk
  exact rd_wr_ne hw (by omega)

/-- Invariant of the three merge loops: what has been written to `tmpArr[left..]`,
followed by the merge of what is left of the two runs, is the merge `M` of the runs. -/
theorem mergeLoop_spec (lt : α → α → Bool) (arr : List α) (left mid right : Int)
    (h0 : 0 ≤ left) (hr : right < arr.length) (M : List α) :
    ∀ (fuel : Nat) (s : MergeState α),
      ((mid + 1 - s.leftPos) + (right + 1 - s.rightPos)).toNat < fuel →
      left ≤ s.leftPos → s.leftPos ≤ mid + 1 → mid + 1 ≤ s.rightPos →
      s.rightPos ≤ right + 1 → s.tmpArr.length = arr.length →
      s.tmpIndex = s.leftPos + (s.rightPos - (mid + 1)) →
      slice s.tmpArr left (s.tmpIndex - 1) ++
        (slice arr s.leftPos mid).merge (slice arr s.rightPos right) lt = M →
      ∃ s', mergeLoop lt arr mid right fuel s = some s' ∧
        left ≤ s'.leftPos ∧ s'.leftPos ≤ mid + 1 ∧ mid + 1 ≤ s'.rightPos ∧
        s'.rightPos ≤ right + 1 ∧ s'.tmpArr.length = arr.length ∧
        s'.tmpIndex = s'.leftPos + (s'.rightPos - (mid + 1)) ∧
        slice s'.tmpArr left (s'.tmpIndex - 1) ++
          (slice arr s'.leftPos mid).merge (slice arr s'.rightPos right) lt = M ∧
        (s'.leftPos = mid + 1 ∨ s'.rightPos = right + 1) := by
  intro fuel
  induction fuel with
  | zero => intro s hf; omega
  | succ fuel ih =>
    intro s hf g1 g2 g3 g4 hl hti hM
    unfold mergeLoop
    by_cases c : s.leftPos ≤ mid ∧ s.rightPos ≤ right
    · rw [if_pos c]
      obtain ⟨x, hx⟩ := rd_isSome (a := arr) (i := s.leftPos) (by omega) (by omega)
      obtain ⟨y, hy⟩ := rd_isSome (a := arr) (i := s.rightPos) (by omega) (by omega)
      rw [hx, Option.some_bind, hy, Option.some_bind]
      rw [slice_cons (by omega) c.1 hx, slice_cons (by omega) c.2 hy,
        List.cons_merge_cons] at hM
      cases hlt : lt x y with
      | true =>
        rw [hlt] at hM
        simp only [if_true] at hM ⊢
        have hw := wr_isSome (a := s.tmpArr) (i := s.tmpIndex) x (by omega) (by omega)
        rw [hw, Option.some_bind]
        apply ih _ (by simp only; omega) (by simp only; omega) (by simp only; omega)
          (by simp only; omega) (by simp only; omega)
          (by simp only; rw [List.length_set]; exact hl) (by simp only; omega)
        simp only
        rw [slice_wr_snoc h0 (by omega) hw, slice_cons (by omega) c.2 hy, ← hM]
        simp
      | false =>
        rw [hlt] at hM
        simp only [Bool.false_eq_true, if_false] at hM ⊢
        have hw := wr_isSome (a := s.tmpArr) (i := s.tmpIndex) y (by omega) (by omega)
        rw [hw, Option.some_bind]
        apply ih _ (by simp only; omega) (by simp only; omega) (by simp only; omega)
          (by simp only; omega) (by simp only; omega)
          (by simp only; rw [List.length_set]; exact hl) (by simp only; omega)
        simp only
        rw [slice_wr_snoc h0 (by omega) hw, slice_cons (by omega) c.1 hx, ← hM]
        simp
    · rw [if_neg c]
      exact ⟨s, rfl, g1, g2, g3, g4, hl, hti, hM, by omega⟩

theorem copyLeft_spec (lt : α → α → Bool) (arr : List α) (left mid right : Int)
    (h0 : 0 ≤ left) (hr : right < arr.length) (M : List α) :
    ∀ (fuel : Nat) (s : MergeState α),
      ((mid + 1 - s.leftPos) + (right + 1 - s.rightPos)).toNat < fuel →
      left ≤ s.leftPos → s.leftPos ≤ mid + 1 → mid + 1 ≤ s.rightPos →
      s.rightPos ≤ right + 1 → s.tmpArr.length = arr.length →
      s.tmpIndex = s.leftPos + (s.rightPos - (mid + 1)) →
      slice s.tmpArr left (s.tmpIndex - 1) ++
        (slice arr s.leftPos mid).merge (slice arr s.rightPos right) lt = M →
      (s.leftPos = mid + 1 ∨ s.rightPos = right + 1) →
      ∃ s', copyLeft arr mid fuel s = some s' ∧
        s'.leftPos = mid + 1 ∧ mid + 1 ≤ s'.rightPos ∧
        s'.rightPos ≤ right + 1 ∧ s'.tmpArr.length = arr.length ∧
        s'.tmpIndex = s'.leftPos + (s'.rightPos - (mid + 1)) ∧
        slice s'.tmpArr left (s'.tmpIndex - 1) ++
          (slice arr s'.leftPos mid).merge (slice arr s'.rightPos right) lt = M := by
  intro fuel
  induction fuel with
  | zero => intro s hf; omega
  | succ fuel ih =>
    intro s hf g1 g2 g3 g4 hl hti hM hor
    unfold copyLeft
    by_cases c : s.leftPos ≤ mid
    · rw [if_pos c]
      have hrp : s.rightPos = right + 1 := by omega
      obtain ⟨x, hx⟩ := rd_isSome (a := arr) (i := s.leftPos) (by omega) (by omega)
      rw [hx, Option.some_bind]
      have hw := wr_isSome (a := s.tmpArr) (i := s.tmpIndex) x (by omega) (by omega)
      rw [hw, Option.some_bind]
      rw [slice_nil arr s.rightPos right (by omega), List.merge_right,
        slice_cons (by omega) c hx] at hM
      apply ih _ (by simp only; omega) (by simp only; omega) (by simp only; omega)
        (by simp only; omega) (by simp only; omega)
        (by simp only; rw [List.length_set]; exact hl) (by simp only; omega) _
          (by simp only; omega)
      simp only
      rw [slice_wr_snoc h0 (by omega) hw, slice_nil arr s.rightPos right (by omega),
        List.merge_right, ← hM]
      simp
    · rw [if_neg c]
      exact ⟨s, rfl, by omega, g3, g4, hl, hti, hM⟩

theorem copyRight_spec (lt : α → α → Bool) (arr : List α) (left mid right : Int)
    (h0 : 0 ≤ left) (hlm : left ≤ mid + 1) (hr : right < arr.length) (M : List α) :
    ∀ (fuel : Nat) (s : MergeState α),
      ((mid + 1 - s.leftPos) + (right + 1 - s.rightPos)).toNat < fuel →
      s.leftPos = mid + 1 → mid + 1 ≤ s.rightPos →
      s.rightPos ≤ right + 1 → s.tmpArr.length = arr.length →
      s.tmpIndex = s.leftPos + (s.rightPos - (mid + 1)) →
      slice s.tmpArr left (s.tmpIndex - 1) ++
        (slice arr s.leftPos mid).merge (slice arr s.rightPos right) lt = M →
      ∃ s', copyRight arr right fuel s = some s' ∧ s'.tmpArr.length = arr.length ∧
        slice s'.tmpArr left right = M := by
  intro fuel
  induction fuel with
  | zero => intro s hf; omega
  | succ fuel ih =>
    intro s hf g2 g3 g4 hl hti hM
    unfold copyRight
    rw [slice_nil arr s.leftPos mid (by omega), List.nil_merge] at hM
    by_cases c : s.rightPos ≤ right
    · rw [if_pos c]
      obtain ⟨y, hy⟩ := rd_isSome (a := arr) (i := s.rightPos) (by omega) (by omega)
      rw [hy, Option.some_bind]
      have hw := wr_isSome (a := s.tmpArr) (i := s.tmpIndex) y (by omega) (by omega)
      rw [hw, Option.some_bind]
      rw [slice_cons (by omega) c hy] at hM
      apply ih _ (by simp only; omega) (by simp only; omega) (by simp only; omega)
        (by simp only; omega)
        (by simp only; rw [List.length_set]; exact hl) (by simp only; omega)
      simp only
      rw [slice_wr_snoc h0 (by omega) hw, slice_nil arr s.leftPos mid (by omega),
        List.nil_merge, ← hM]
      simp
    · rw [if_neg c]
      refine ⟨s, rfl, hl, ?_⟩
      rw [slice_nil arr s.rightPos right (by omega), List.append_nil] at hM
      have e : s.tmpIndex - 1 = right := by omega
      rw [e] at hM
      exact hM

/-- The copy-back loop copies `tmpArr[left..right]` into `arr[left..right]`. -/
theorem copyBack_spec (arr T : List α) (left right : Int) (h0 : 0 ≤ left)
    (hlr : left ≤ right + 1) (hr : right < arr.length) (hT : T.length = arr.length) :
    ∃ r, forUp (copyBack T) (right - left + 1).toNat 0 (arr, right) = some r ∧
      r.1.length = arr.length ∧
      ∀ k, rd r.1 k = if left ≤ k ∧ k ≤ right then rd T k else rd arr k := by
  obtain ⟨r, hf, _, hl, hk⟩ := forUp_inv (copyBack T)
    (fun i (s : List α × Int) => s.2 = right - i ∧ s.1.length = arr.length ∧
      ∀ k, rd s.1 k = if s.2 < k ∧ k ≤ right then rd T k else rd arr k)
    (right - left + 1).toNat 0 (arr, right)
    ⟨by simp, rfl, fun k => by rw [if_neg (by simp only; omega)]⟩
    (by
      intro i s hi1 hi2 ⟨e, hl, hk⟩
      obtain ⟨v, hv⟩ := rd_isSome (a := T) (i := s.2) (by omega) (by omega)
      have hw := wr_isSome (a := s.1) (i := s.2) v (by omega) (by omega)
      refine ⟨(s.1.set s.2.toNat v, s.2 - 1), ?_, by simp only; omega,
        by simp only; rw [List.length_set]; exact hl, ?_⟩
      · unfold copyBack
        rw [hv, Option.some_bind, hw, Option.some_bind]
      · intro k
        simp only
        rw [rd_wr hw, hk]
        by_cases c : k = s.2
        · rw [if_pos c, if_pos (by omega), c, hv]
        · rw [if_neg c]
          by_cases d : s.2 < k ∧ k ≤ right
          · rw [if_pos d, if_pos (by omega)]
          · rw [if_neg d, if_neg (by omega)])
  refine ⟨r, hf, hl, ?_⟩
  intro k
  rw [hk]
  have e : r.2 = left - 1 := by omega
  rw [e]
  by_cases c : left ≤ k ∧ k ≤ right
  · rw [if_pos c, if_pos (by omega)]
  · rw [if_neg c, if_neg (by omega)]

/-! ## Merge sort on vectors -/

/-- `mergeSortArray` on an in-bounds range returns, leaves in `arr[left..right]` the
reference sort of what was there, and changes nothing else in `arr`. -/
theorem mergeSortArray_spec {lt : α → α → Bool} (sw : StrictWeak lt) :
    ∀ (fuel : Nat) (arr : List α) (left right : Int) (tmp : List α),
      (right - left).toNat < fuel → 0 ≤ left → right < arr.length →
      tmp.length = arr.length →
      ∃ arr' tmp', mergeSortArray lt fuel arr left right tmp = some (arr', tmp') ∧
        arr'.length = arr.length ∧ tmp'.length = arr.length ∧
        (∀ k, k < left ∨ right < k → rd arr' k = rd arr k) ∧
        slice arr' left right = refSort lt (slice arr left right) := by
  intro fuel
  induction fuel with
  | zero => intro arr left right tmp hf; omega
  | succ fuel ih =>
    intro arr left right tmp hf h0 hr ht
    unfold mergeSortArray
    by_cases c : left < right
    · rw [if_pos c]
      have hdiv : Int.tdiv (left + right) 2 = (left + right) / 2 :=
        Int.tdiv_eq_ediv (by omega) (by omega)
      simp only [hdiv]
      generalize hmid : (left + right) / 2 = mid
      have hm1 : left ≤ mid := by omega
      have hm2 : mid < right := by omega
      obtain ⟨a1, t1, e1, l1, lt1, f1, s1⟩ := ih arr left mid tmp (by omega) h0 (by omega) ht
      rw [e1, Option.some_bind]
      simp only
      obtain ⟨a2, t2, e2, l2, lt2, f2, s2⟩ := ih a1 (mid + 1) right t1 (by omega) (by omega)
        (by rw [l1]; exact hr) (by rw [l1]; exact lt1)
      rw [e2, Option.some_bind]
      simp only
      have hl2 : a2.length = arr.length := l2.trans l1
      have hr2 : right < (a2.length : Int) := by rw [hl2]; exact hr
      -- the two sorted runs
      have run1 : slice a2 left mid = refSort lt (slice arr left mid) := by
        rw [← s1]
        exact slice_congr h0 (fun k _ hk => f2 k (Or.inl (by omega)))
      have run2 : slice a2 (mid + 1) right = refSort lt (slice arr (mid + 1) right) := by
        rw [s2]
        congr 1
        exact slice_congr (by omega) (fun k hk _ => f1 k (Or.inr (by omega)))
      obtain ⟨m1, em1, g1, g2, g3, g4, gl, gti, gM, gor⟩ :=
        mergeLoop_spec lt a2 left mid right h0 hr2
          ((slice a2 left mid).merge (slice a2 (mid + 1) right) lt) (a2.length + 1)
          ⟨t2, left, left, mid + 1⟩ (by simp only; omega) (le_refl _) (by simp only; omega)
          (le_refl _) (by simp only; omega) (by simp only; rw [lt2, l2])
          (by simp only; omega)
          (by simp only; rw [slice_nil t2 left (left - 1) (by omega), List.nil_append])
      rw [em1, Option.some_bind]
      obtain ⟨m2, em2, i1, i3, i4, il, iti, iM⟩ :=
        copyLeft_spec lt a2 left mid right h0 hr2 _ (a2.length + 1) m1 (by omega) g1 g2 g3 g4
          gl gti gM gor
      rw [em2, Option.some_bind]
      obtain ⟨m3, em3, jl, jM⟩ :=
        copyRight_spec lt a2 left mid right h0 (by omega) hr2 _ (a2.length + 1) m2 (by omega)
          i1 i3 i4 il iti iM
      rw [em3, Option.some_bind]
      obtain ⟨r, er, rl, rk⟩ := copyBack_spec a2 m3.tmpArr left right h0 (by omega) hr2 jl
      rw [er, Option.some_bind]
      refine ⟨r.1, m3.tmpArr, rfl, rl.trans hl2, jl.trans hl2, ?_, ?_⟩
      · intro k hk
        rw [rk, if_neg (by omega), f2 k (by omega), f1 k (by omega)]
      · have e : slice r.1 left right = slice m3.tmpArr left right :=
          slice_congr h0 (fun k g1 g2 => by rw [rk, if_pos ⟨g1, g2⟩])
        rw [e, jM, run1, run2, merge_refSort sw,
          ← slice_append arr left mid right h0 (by omega) (by omega) hr]
    · rw [if_neg c]
      refine ⟨arr, tmp, rfl, rfl, ht, fun _ _ => rfl, ?_⟩
      by_cases d : left = right
      · subst d
        obtain ⟨x, hx⟩ := rd_isSome (a := arr) (i := left) h0 hr
        rw [slice_cons h0 (le_refl _) hx, slice_nil arr (left + 1) left (by omega)]
        rfl
      · rw [slice_nil arr left right (by omega)]
        rfl

/-- Merge sort returns the reference sort of its input. -/
theorem mergeSort_eq_refSort {lt : α → α → Bool} (sw : StrictWeak lt) (dflt : α)
    (arr : List α) : mergeSort lt dflt arr = some (refSort lt arr) := by
  obtain ⟨a', t', e, l, _, _, s⟩ := mergeSortArray_spec sw (arr.length + 1) arr 0
    ((arr.length : Int) - 1) (List.replicate arr.length dflt) (by omega) (le_refl _)
    (by omega) (by simp)
  unfold mergeSort
  simp only [e, Option.map_some']
  rw [slice_whole] at s
  rw [← l, slice_whole] at s
  rw [s]

/-! ## Rearrangements within a range -/

theorem Rearr.refl (lo hi : Int) (a : List α) : Rearr lo hi a a :=
  ⟨rfl, List.Perm.refl _, fun _ _ => rfl, fun k h1 h2 => ⟨k, h1, h2, rfl⟩⟩

theorem Rearr.trans {lo hi : Int} {a b c : List α} (h1 : Rearr lo hi a b)
    (h2 : Rearr lo hi b c) : Rearr lo hi a c := by
  refine ⟨h2.len.trans h1.len, h2.perm.trans h1.perm, ?_, ?_⟩
  · intro k hk
    rw [h2.frame k hk, h1.frame k hk]
  · intro k g1 g2
    obtain ⟨k', e1, e2, e3⟩ := h2.src k g1 g2
    obtain ⟨k'', d1, d2, d3⟩ := h1.src k' e1 e2
    exact ⟨k'', d1, d2, by rw [e3, d3]⟩

theorem Rearr.mono {lo hi lo' hi' : Int} {a b : List α} (h : Rearr lo hi a b)
    (h1 : lo' ≤ lo) (h2 : hi ≤ hi') : Rearr lo' hi' a b := by
  refine ⟨h.len, h.perm, fun k hk => h.frame k (by omega), ?_⟩
  intro k g1 g2
  by_cases c : lo ≤ k ∧ k ≤ hi
  · obtain ⟨k', e1, e2, e3⟩ := h.src k c.1 c.2
    exact ⟨k', by omega, by omega, e3⟩
  · exact ⟨k, g1, g2, h.frame k (by omega)⟩

theorem Rearr.of_swap {lo hi i j : Int} {a a' : List α} (h : swap a i j = some a')
    (hi1 : lo ≤ i) (hi2 : i ≤ hi) (hj1 : lo ≤ j) (hj2 : j ≤ hi) : Rearr lo hi a a' := by
  refine ⟨swap_length h, swap_perm h, ?_, ?_⟩
  · intro k hk
    rw [rd_swap h, if_neg (by omega), if_neg (by omega)]
  · intro k g1 g2
    rw [rd_swap h]
    by_cases c : k = j
    · exact ⟨i, hi1, hi2, by rw [if_pos c]⟩
    · by_cases d : k = i
      · exact ⟨j, hj1, hj2, by rw [if_neg c, if_pos d]⟩
      · exact ⟨k, g1, g2, by rw [if_neg c, if_neg d]⟩

/-- A property of all elements of the range survives a rearrangement of the range. -/
theorem Rearr.forall_range {lo hi : Int} {a a' : List α} (h : Rearr lo hi a a')
    {P : α → Prop} (hP : ∀ k x, lo ≤ k → k ≤ hi → rd a k = some x → P x) :
    ∀ k x, lo ≤ k → k ≤ hi → rd a' k = some x → P x := by
  intro k x g1 g2 hx
  obtain ⟨k', e1, e2, e3⟩ := h.src k g1 g2
  rw [e3] at hx
  exact hP k' x e1 e2 hx

/-! ## Pivot selection -/

/-- A conditional swap `if (c) swap(a[i], a[j]);` of two in-bounds positions. -/
theorem condSwap_spec (a : List α) (i j : Int) (c : Bool) (hi0 : 0 ≤ i) (hi1 : i < a.length)
    (hj0 : 0 ≤ j) (hj1 : j < a.length) :
    ∃ a', (if c then swap a i j else some a) = some a' ∧ a'.length = a.length ∧
      a'.Perm a ∧
      (∀ k, k ≠ i → k ≠ j → rd a' k = rd a k) ∧
      rd a' i = (if c then rd a j else rd a i) ∧
      rd a' j = (if c then rd a i else rd a j) := by
  cases c with
  | false => exact ⟨a, by simp, rfl, List.Perm.refl _, fun _ _ _ => rfl, by simp, by simp⟩
  | true =>
    obtain ⟨a', h⟩ := swap_isSome (a := a) hi0 hi1 hj0 hj1
    refine ⟨a', by simpa using h, swap_length h, swap_perm h, ?_, ?_, ?_⟩
    · intro k h1 h2
      rw [rd_swap h, if_neg h2, if_neg h1]
    · rw [rd_swap h]
      by_cases e : i = j
      · rw [if_pos e, e]; simp
      · rw [if_neg e, if_pos rfl]; simp
    · rw [rd_swap h, if_pos rfl]; simp

theorem perm3_12 (a b c : α) : [b, a, c].Perm [a, b, c] := List.Perm.swap a b [c]

theorem perm3_23 (a b c : α) : [a, c, b].Perm [a, b, c] := (List.Perm.swap b c []).cons a

theorem perm3_13 (a b c : α) : [c, b, a].Perm [a, b, c] :=
  ((perm3_12 b c a).trans (perm3_23 b a c)).trans (perm3_12 a b c)

/-- Pivot selection on a range of at least 11 elements: the pivot is stored at
`right - 1`, `a[left]` is not greater and `a[right]` not less than the pivot, and only
the positions `left`, `mid`, `right - 1`, `right` can change. -/
theorem choosePivot_spec {lt : α → α → Bool} (sw : StrictWeak lt) (a : List α)
    (left right : Int) (h0 : 0 ≤ left) (hr : right < a.length) (hlr : left + 10 ≤ right) :
    ∃ a' p, choosePivot lt a left right = some (a', p) ∧ a'.length = a.length ∧
      a'.Perm a ∧
      (∀ k, k ≠ left → k ≠ (left + right) / 2 → k ≠ right - 1 → k ≠ right →
        rd a' k = rd a k) ∧
      rd a' (right - 1) = some p ∧
      (∃ x, rd a' left = some x ∧ lt p x = false) ∧
      (∃ y, rd a' right = some y ∧ lt y p = false) ∧
      (∀ k, left ≤ k → k ≤ right → ∃ k', left ≤ k' ∧ k' ≤ right ∧ rd a' k = rd a k') ∧
      rd a' ((left + right) / 2) = rd a (right - 1) ∧
      (∃ vl vm vr x z, rd a left = some vl ∧ rd a ((left + right) / 2) = some vm ∧
        rd a right = some vr ∧ rd a' left = some x ∧ rd a' right = some z ∧
        [x, p, z].Perm [vl, vm, vr]) := by
  have hdiv : Int.tdiv (left + right) 2 = (left + right) / 2 :=
    Int.tdiv_eq_ediv (by omega) (by omega)
  unfold choosePivot
  simp only [hdiv]
  generalize hmid : (left + right) / 2 = mid
  have hm1 : left + 5 ≤ mid := by omega
  have hm2 : mid + 5 ≤ right := by omega
  -- first comparison
  obtain ⟨vm, hvm⟩ := rd_isSome (a := a) (i := mid) (by omega) (by omega)
  obtain ⟨vl, hvl⟩ := rd_isSome (a := a) (i := left) (by omega) (by omega)
  obtain ⟨vr, hvr⟩ := rd_isSome (a := a) (i := right) (by omega) (by omega)
  rw [hvm, Option.some_bind, hvl, Option.some_bind]
  obtain ⟨a1, e1, l1, p1, f1, i1, j1⟩ := condSwap_spec a left mid (lt vm vl) h0 (by omega)
    (by omega) (by omega)
  rw [e1, Option.some_bind]
  -- second comparison
  obtain ⟨wl, hwl⟩ := rd_isSome (a := a1) (i := left) (by omega) (by omega)
  obtain ⟨wm, hwm⟩ := rd_isSome (a := a1) (i := mid) (by omega) (by omega)
  have hwr : rd a1 right = some vr := by rw [f1 right (by omega) (by omega)]; exact hvr
  have o1' : lt wm wl = false ∧ [wl, wm, vr].Perm [vl, vm, vr] := by
    rw [hwl, hvl, hvm] at i1
    rw [hwm, hvl, hvm] at j1
    cases c : lt vm vl with
    | true =>
      rw [c] at i1 j1
      simp only [if_true, Option.some.injEq] at i1 j1
      rw [i1, j1]; exact ⟨sw.asymm c, perm3_12 vl vm vr⟩
    | false =>
      rw [c] at i1 j1
      simp only [Bool.false_eq_true, if_false, Option.some.injEq] at i1 j1
      rw [i1, j1]; exact ⟨c, List.Perm.refl _⟩
  have o1 := o1'.1
  rw [hwr, Option.some_bind, hwl, Option.some_bind]
  obtain ⟨a2, e2, l2, p2, f2, i2, j2⟩ := condSwap_spec a1 left right (lt vr wl) h0 (by omega)
    (by omega) (by omega)
  rw [e2, Option.some_bind]
  -- third comparison
  obtain ⟨ul, hul⟩ := rd_isSome (a := a2) (i := left) (by omega) (by omega)
  obtain ⟨ur, hur⟩ := rd_isSome (a := a2) (i := right) (by omega) (by omega)
  have hum : rd a2 mid = some wm := by rw [f2 mid (by omega) (by omega)]; exact hwm
  have o2' : (lt wm ul = false ∧ lt ur ul = false) ∧ [ul, wm, ur].Perm [wl, wm, vr] := by
    rw [hul, hwl, hwr] at i2
    rw [hur, hwl, hwr] at j2
    cases c : lt vr wl with
    | true =>
      rw [c] at i2 j2
      simp only [if_true, Option.some.injEq] at i2 j2
      rw [i2, j2]
      refine ⟨⟨?_, sw.asymm c⟩, perm3_13 wl wm vr⟩
      cases d : lt wm vr with
      | false => rfl
      | true =>
        rw [sw.trans _ _ _ d c] at o1
        cases o1
    | false =>
      rw [c] at i2 j2
      simp only [Bool.false_eq_true, if_false, Option.some.injEq] at i2 j2
      rw [i2, j2]
      exact ⟨⟨o1, c⟩, List.Perm.refl _⟩
  have o2 := o2'.1
  rw [hur, Option.some_bind, hum, Option.some_bind]
  obtain ⟨a3, e3, l3, p3, f3, i3, j3⟩ := condSwap_spec a2 mid right (lt ur wm) (by omega)
    (by omega) (by omega) (by omega)
  rw [e3, Option.some_bind]
  obtain ⟨tm, htm⟩ := rd_isSome (a := a3) (i := mid) (by omega) (by omega)
  obtain ⟨tr, htr⟩ := rd_isSome (a := a3) (i := right) (by omega) (by omega)
  have htl : rd a3 left = some ul := by rw [f3 left (by omega) (by omega)]; exact hul
  have o3' : (lt tm ul = false ∧ lt tr tm = false) ∧ [ul, tm, tr].Perm [ul, wm, ur] := by
    rw [htm, hum, hur] at i3
    rw [htr, hum, hur] at j3
    cases c : lt ur wm with
    | true =>
      rw [c] at i3 j3
      simp only [if_true, Option.some.injEq] at i3 j3
      rw [i3, j3]
      exact ⟨⟨o2.2, sw.asymm c⟩, perm3_23 ul wm ur⟩
    | false =>
      rw [c] at i3 j3
      simp only [Bool.false_eq_true, if_false, Option.some.injEq] at i3 j3
      rw [i3, j3]
      exact ⟨⟨o2.1, c⟩, List.Perm.refl _⟩
  have o3 := o3'.1
  -- store the pivot at `right - 1`
  obtain ⟨a4, e4⟩ := swap_isSome (a := a3) (i := mid) (j := right - 1) (by omega) (by omega)
    (by omega) (by omega)
  rw [e4, Option.some_bind]
  have hp : rd a4 (right - 1) = some tm := by
    rw [rd_swap e4, if_pos rfl]; exact htm
  rw [hp, Option.some_bind]
  have frameAll : ∀ k, k ≠ left → k ≠ mid → k ≠ right - 1 → k ≠ right → rd a4 k = rd a k := by
    intro k k1 k2 k3 k4
    rw [rd_swap e4, if_neg k3, if_neg k2, f3 k k2 k4, f2 k k1 k4, f1 k k1 k2]
  have hl4 : rd a4 left = some ul := by
    rw [rd_swap e4, if_neg (by omega), if_neg (by omega)]; exact htl
  have hr4 : rd a4 right = some tr := by
    rw [rd_swap e4, if_neg (by omega), if_neg (by omega)]; exact htr
  refine ⟨a4, tm, rfl, ?_, ?_, frameAll, hp, ⟨ul, hl4, o3.1⟩, ⟨tr, hr4, o3.2⟩, ?_, ?_,
    ⟨vl, vm, vr, ul, tr, rfl, rfl, hvr, hl4, hr4, (o3'.2.trans o2'.2).trans o1'.2⟩⟩
  · rw [swap_length e4, l3, l2, l1]
  · exact (swap_perm e4).trans (p3.trans (p2.trans p1))
  rotate_left
  · rw [rd_swap e4, if_neg (by omega), if_pos rfl, f3 _ (by omega) (by omega),
      f2 _ (by omega) (by omega), f1 _ (by omega) (by omega)]
  · have r1 : Rearr left right a a1 := by
      refine ⟨l1, p1, fun k hk => f1 k (by omega) (by omega), ?_⟩
      intro k g1 g2
      by_cases c1 : k = left
      · subst c1
        rw [i1]
        split
        · exact ⟨mid, by omega, by omega, rfl⟩
        · exact ⟨k, g1, g2, rfl⟩
      · by_cases c2 : k = mid
        · subst c2
          rw [j1]
          split
          · exact ⟨left, by omega, by omega, rfl⟩
          · exact ⟨k, g1, g2, rfl⟩
        · exact ⟨k, g1, g2, f1 k c1 c2⟩
    have r2 : Rearr left right a1 a2 := by
      refine ⟨l2, p2, fun k hk => f2 k (by omega) (by omega), ?_⟩
      intro k g1 g2
      by_cases c1 : k = left
      · subst c1
        rw [i2]
        split
        · exact ⟨right, by omega, by omega, rfl⟩
        · exact ⟨k, g1, g2, rfl⟩
      · by_cases c2 : k = right
        · subst c2
          rw [j2]
          split
          · exact ⟨left, by omega, by omega, rfl⟩
          · exact ⟨k, g1, g2, rfl⟩
        · exact ⟨k, g1, g2, f2 k c1 c2⟩
    have r3 : Rearr left right a2 a3 := by
      refine ⟨l3, p3, fun k hk => f3 k (by omega) (by omega), ?_⟩
      intro k g1 g2
      by_cases c1 : k = mid
      · subst c1
        rw [i3]
        split
        · exact ⟨right, by omega, by omega, rfl⟩
        · exact ⟨k, g1, g2, rfl⟩
      · by_cases c2 : k = right
        · subst c2
          rw [j3]
          split
          · exact ⟨mid, by omega, by omega, rfl⟩
          · exact ⟨k, g1, g2, rfl⟩
        · exact ⟨k, g1, g2, f3 k c1 c2⟩
    have r4 : Rearr left right a3 a4 :=
      Rearr.of_swap e4 (by omega) (by omega) (by omega) (by omega)
    exact (((r1.trans r2).trans r3).trans r4).src

/-! ## The partition scans -/

/-- The upward scan stops at or before any later position whose element is not less
than the pivot. -/
theorem scanUp_spec (lt : α → α → Bool) (a : List α) (p : α) (j : Int)
    (hj : ∃ y, rd a j = some y ∧ lt y p = false) :
    ∀ (fuel : Nat) (i : Int), (j - i).toNat < fuel → 0 ≤ i + 1 → i < j →
      ∃ i', scanUp lt a p fuel i = some i' ∧ i < i' ∧ i' ≤ j ∧
        (∀ k x, i < k → k < i' → rd a k = some x → lt x p = true) ∧
        (∃ x, rd a i' = some x ∧ lt x p = false) := by
  obtain ⟨y, hy, hyp⟩ := hj
  have hjb := rd_bounds hy
  intro fuel
  induction fuel with
  | zero => intro i hf; omega
  | succ fuel ih =>
    intro i hf hi0 hij
    unfold scanUp
    obtain ⟨x, hx⟩ := rd_isSome (a := a) (i := i + 1) hi0 (by omega)
    rw [hx, Option.some_bind]
    cases hlt : lt x p with
    | false =>
      simp only [Bool.false_eq_true, if_false]
      exact ⟨i + 1, rfl, by omega, by omega, fun k x h1 h2 => by omega, ⟨x, hx, hlt⟩⟩
    | true =>
      simp only [if_true]
      have hne : i + 1 ≠ j := by
        intro e
        rw [e, hy] at hx
        cases hx
        rw [hlt] at hyp
        cases hyp
      obtain ⟨i', e, g1, g2, g3, g4⟩ := ih (i + 1) (by omega) (by omega) (by omega)
      refine ⟨i', e, by omega, g2, ?_, g4⟩
      intro k z h1 h2 hz
      by_cases c : k = i + 1
      · subst c
        rw [hx] at hz
        cases hz
        exact hlt
      · exact g3 k z (by omega) h2 hz

/-- The downward scan stops at or after any earlier position whose element is not
greater than the pivot. -/
theorem scanDown_spec (lt : α → α → Bool) (a : List α) (p : α) (i : Int)
    (hi : ∃ x, rd a i = some x ∧ lt p x = false) :
    ∀ (fuel : Nat) (j : Int), (j - i).toNat < fuel → j ≤ a.length → i < j →
      ∃ j', scanDown lt a p fuel j = some j' ∧ i ≤ j' ∧ j' < j ∧
        (∀ k x, j' < k → k < j → rd a k = some x → lt p x = true) ∧
        (∃ x, rd a j' = some x ∧ lt p x = false) := by
  obtain ⟨y, hy, hyp⟩ := hi
  have hib := rd_bounds hy
  intro fuel
  induction fuel with
  | zero => intro j hf; omega
  | succ fuel ih =>
    intro j hf hj1 hij
    unfold scanDown
    obtain ⟨x, hx⟩ := rd_isSome (a := a) (i := j - 1) (by omega) (by omega)
    rw [hx, Option.some_bind]
    cases hlt : lt p x with
    | false =>
      simp only [Bool.false_eq_true, if_false]
      exact ⟨j - 1, rfl, by omega, by omega, fun k x h1 h2 => by omega, ⟨x, hx, hlt⟩⟩
    | true =>
      simp only [if_true]
      have hne : j - 1 ≠ i := by
        intro e
        rw [e, hy] at hx
        cases hx
        rw [hlt] at hyp
        cases hyp
      obtain ⟨j', e, g1, g2, g3, g4⟩ := ih (j - 1) (by omega) (by omega) (by omega)
      refine ⟨j', e, g1, by omega, ?_, g4⟩
      intro k z h1 h2 hz
      by_cases c : k = j - 1
      · subst c
        rw [hx] at hz
        cases hz
        exact hlt
      · exact g3 k z h1 (by omega) hz

/-! ## The partition loop -/

/-- The scan-and-swap loop: started with everything in `a[left..i]` not greater and
everything in `a[j..right]` not less than the pivot, it returns a crossing index with
everything before it not greater and everything from it on not less than the pivot. -/
theorem partitionLoop_spec {lt : α → α → Bool} (sw : StrictWeak lt) (p : α)
    (a0 : List α) (left right : Int) (h0 : 0 ≤ left) (hr : right < a0.length) :
    ∀ (fuel : Nat) (a : List α) (i j : Int), (j - i).toNat < fuel →
      left ≤ i → i < j → j ≤ right - 1 → Rearr left right a0 a →
      rd a (right - 1) = some p →
      (∀ k x, left ≤ k → k ≤ i → rd a k = some x → lt p x = false) →
      (∀ k x, j ≤ k → k ≤ right → rd a k = some x → lt x p = false) →
      ∃ a' i', partitionLoop lt p fuel a i j = some (a', i') ∧ left < i' ∧ i' ≤ right - 1 ∧
        Rearr left right a0 a' ∧ rd a' (right - 1) = some p ∧
        (∀ k x, left ≤ k → k < i' → rd a' k = some x → lt p x = false) ∧
        (∀ k x, i' ≤ k → k ≤ right → rd a' k = some x → lt x p = false) := by
  intro fuel
  induction fuel with
  | zero => intro a i j hf; omega
  | succ fuel ih =>
    intro a i j hf hli hij hjr hre hp hlo hhi
    have hlen : a.length = a0.length := hre.len
    unfold partitionLoop
    obtain ⟨yj, hyj⟩ := rd_isSome (a := a) (i := j) (by omega) (by omega)
    obtain ⟨xi, hxi⟩ := rd_isSome (a := a) (i := i) (by omega) (by omega)
    obtain ⟨i', ei, gi1, gi2, gi3, xi', hxi', gi4⟩ :=
      scanUp_spec lt a p j ⟨yj, hyj, hhi j yj (le_refl _) (by omega) hyj⟩ (a.length + 1) i
        (by omega) (by omega) hij
    obtain ⟨j', ej, gj1, gj2, gj3, yj', hyj', gj4⟩ :=
      scanDown_spec lt a p i ⟨xi, hxi, hlo i xi hli (le_refl _) hxi⟩ (a.length + 1) j
        (by omega) (by omega) hij
    rw [ei, Option.some_bind, ej, Option.some_bind]
    by_cases c : i' < j'
    · rw [if_pos c]
      obtain ⟨a1, es⟩ := swap_isSome (a := a) (i := i') (j := j') (by omega) (by omega)
        (by omega) (by omega)
      rw [es, Option.some_bind]
      apply ih a1 i' j' (by omega) (by omega) c (by omega)
        (hre.trans (Rearr.of_swap es (by omega) (by omega) (by omega) (by omega)))
      · rw [rd_swap es, if_neg (by omega), if_neg (by omega)]; exact hp
      · intro k x g1 g2 hx
        rw [rd_swap es, if_neg (by omega)] at hx
        by_cases d : k = i'
        · rw [if_pos d, hyj'] at hx
          cases hx
          exact gj4
        · rw [if_neg d] at hx
          by_cases d2 : k ≤ i
          · exact hlo k x g1 d2 hx
          · exact sw.asymm (gi3 k x (by omega) (by omega) hx)
      · intro k x g1 g2 hx
        rw [rd_swap es] at hx
        by_cases d : k = j'
        · rw [if_pos d, hxi'] at hx
          cases hx
          exact gi4
        · rw [if_neg d, if_neg (by omega)] at hx
          by_cases d2 : j ≤ k
          · exact hhi k x d2 g2 hx
          · exact sw.asymm (gj3 k x (by omega) (by omega) hx)
    · rw [if_neg c]
      refine ⟨a, i', rfl, by omega, by omega, hre, hp, ?_, ?_⟩
      · intro k x g1 g2 hx
        by_cases d2 : k ≤ i
        · exact hlo k x g1 d2 hx
        · exact sw.asymm (gi3 k x (by omega) g2 hx)
      · intro k x g1 g2 hx
        by_cases d : k = i'
        · subst d
          rw [hxi'] at hx
          cases hx
          exact gi4
        · by_cases d2 : j ≤ k
          · exact hhi k x d2 g2 hx
          · exact sw.asymm (gj3 k x (by omega) (by omega) hx)

/-- Partition postcondition: on a range of at least 11 elements the partition returns
a crossing index `i` strictly inside the range with the pivot at `i`, nothing greater
than the pivot before `i`, nothing less than the pivot after `i`, and the range
rearranged within itself. -/
theorem partition_spec {lt : α → α → Bool} (sw : StrictWeak lt) (a : List α)
    (left right : Int) (h0 : 0 ≤ left) (hr : right < a.length) (hlr : left + 10 ≤ right) :
    ∃ a' i p, partition lt a left right = some (a', i) ∧ left < i ∧ i < right ∧
      Rearr left right a a' ∧ rd a' i = some p ∧
      (∀ k x, left ≤ k → k < i → rd a' k = some x → lt p x = false) ∧
      (∀ k x, i < k → k ≤ right → rd a' k = some x → lt x p = false) ∧
      (∃ a1, choosePivot lt a left right = some (a1, p)) := by
  obtain ⟨a1, p, e1, l1, p1, f1, hp1, ⟨xl, hxl, oxl⟩, ⟨yr, hyr, oyr⟩, s1, _, _⟩ :=
    choosePivot_spec sw a left right h0 hr hlr
  have r1 : Rearr left right a a1 :=
    ⟨l1, p1, fun k hk => f1 k (by omega) (by omega) (by omega) (by omega), s1⟩
  obtain ⟨a2, i, e2, g1, g2, r2, hp2, lo2, hi2⟩ :=
    partitionLoop_spec sw p a left right h0 hr (a.length + 1) a1 left (right - 1)
      (by omega) (le_refl _) (by omega) (le_refl _) r1 hp1
      (by
        intro k x k1 k2 hx
        have : k = left := by omega
        subst this
        rw [hxl] at hx
        cases hx
        exact oxl)
      (by
        intro k x k1 k2 hx
        by_cases c : k = right
        · subst c
          rw [hyr] at hx
          cases hx
          exact oyr
        · have : k = right - 1 := by omega
          subst this
          rw [hp1] at hx
          cases hx
          exact sw.irrefl _)
  have hl2 : a2.length = a.length := r2.len
  obtain ⟨a3, e3⟩ := swap_isSome (a := a2) (i := i) (j := right - 1) (by omega) (by omega)
    (by omega) (by omega)
  obtain ⟨vi, hvi⟩ := rd_isSome (a := a2) (i := i) (by omega) (by omega)
  refine ⟨a3, i, p, ?_, g1, by omega,
    r2.trans (Rearr.of_swap e3 (by omega) (by omega) (by omega) (by omega)), ?_, ?_, ?_,
    ⟨a1, e1⟩⟩
  · unfold partition
    rw [e1, Option.some_bind]
    simp only
    rw [e2, Option.some_bind]
    simp only
    rw [e3, Option.some_bind]
  · rw [rd_swap e3]
    by_cases c : i = right - 1
    · rw [if_pos c, c]; exact hp2
    · rw [if_neg c, if_pos rfl]; exact hp2
  · intro k x k1 k2 hx
    rw [rd_swap e3, if_neg (by omega), if_neg (by omega)] at hx
    exact lo2 k x k1 k2 hx
  · intro k x k1 k2 hx
    rw [rd_swap e3] at hx
    by_cases c : k = right - 1
    · rw [if_pos c] at hx
      exact hi2 i x (le_refl _) (by omega) hx
    · rw [if_neg c, if_neg (by omega)] at hx
      exact hi2 k x (by omega) k2 hx

/-! ## Quick sort -/

/-- The private `quickSort(a, left, right)` on an in-bounds range none of whose elements
is less than `a[left - 1]`, for an element type that holds the indices up to `right`
exactly: it returns, sorts the range, and rearranges only the range. -/
theorem quickSortRange_spec {lt : α → α → Bool} (sw : StrictWeak lt) (cv : Conv α) :
    ∀ (fuel : Nat) (a : List α) (left right : Int), (right - left + 1).toNat < fuel →
      0 ≤ left → right < a.length → cv.Exact (right + 1) →
      (∀ k x y, left ≤ k → k ≤ right → rd a k = some x → rd a (left - 1) = some y →
        lt x y = false) →
      ∃ a', quickSortRange cv lt fuel a left right = some a' ∧ Rearr left right a a' ∧
        SortedRange lt a' left right := by
  intro fuel
  induction fuel with
  | zero => intro a left right hf; omega
  | succ fuel ih =>
    intro a left right hf h0 hr hx hb
    unfold quickSortRange
    by_cases c : left + 10 ≤ right
    · rw [if_pos c]
      obtain ⟨a1, i, p, e1, g1, g2, r1, hp, lo1, hi1, _⟩ :=
        partition_spec sw a left right h0 hr c
      rw [e1, Option.some_bind]
      simp only
      have hl1 : a1.length = a.length := r1.len
      -- left part
      obtain ⟨a2, e2, r2, s2⟩ := ih a1 left (i - 1) (by omega) h0 (by omega)
        (hx.of_le (by omega)) (by
        intro k x y k1 k2 hx hy
        rw [r1.frame (left - 1) (Or.inl (by omega))] at hy
        exact r1.forall_range (P := fun x => lt x y = false)
          (fun k' x' j1 j2 hx' => hb k' x' y j1 j2 hx' hy) k x k1 (by omega) hx)
      rw [e2, Option.some_bind]
      have hl2 : a2.length = a1.length := r2.len
      have hp2 : rd a2 i = some p := by rw [r2.frame i (Or.inr (by omega))]; exact hp
      have lo2 : ∀ k x, left ≤ k → k < i → rd a2 k = some x → lt p x = false := by
        intro k x k1 k2 hx
        exact r2.forall_range (P := fun x => lt p x = false)
          (fun k' x' j1 j2 hx' => lo1 k' x' j1 (by omega) hx') k x k1 (by omega) hx
      have hi2 : ∀ k x, i < k → k ≤ right → rd a2 k = some x → lt x p = false := by
        intro k x k1 k2 hx
        rw [r2.frame k (Or.inr (by omega))] at hx
        exact hi1 k x k1 k2 hx
      -- right part
      obtain ⟨a3, e3, r3, s3⟩ := ih a2 (i + 1) right (by omega) (by omega) (by omega)
        hx (by
        intro k x y k1 k2 hx hy
        have e : i + 1 - 1 = i := by omega
        rw [e, hp2] at hy
        cases hy
        exact hi2 k x (by omega) k2 hx)
      refine ⟨a3, e3, ?_, ?_⟩
      · exact (r1.trans (r2.mono (le_refl _) (by omega))).trans (r3.mono (by omega) (le_refl _))
      · have hp3 : rd a3 i = some p := by rw [r3.frame i (Or.inl (by omega))]; exact hp2
        have lo3 : ∀ k x, left ≤ k → k < i → rd a3 k = some x → lt p x = false := by
          intro k x k1 k2 hx
          rw [r3.frame k (Or.inl (by omega))] at hx
          exact lo2 k x k1 k2 hx
        have hi3 : ∀ k x, i < k → k ≤ right → rd a3 k = some x → lt x p = false := by
          intro k x k1 k2 hx
          exact r3.forall_range (P := fun x => lt x p = false)
            (fun k' x' j1 j2 hx' => hi2 k' x' (by omega) j2 hx') k x (by omega) k2 hx
        intro k1 k2 x y q1 q12 q2 hx hy
        by_cases c2 : k2 < i
        · rw [r3.frame k1 (Or.inl (by omega))] at hx
          rw [r3.frame k2 (Or.inl (by omega))] at hy
          exact s2 k1 k2 x y q1 q12 (by omega) hx hy
        · by_cases c3 : k2 = i
          · subst c3
            rw [hp3] at hy
            cases hy
            exact lo3 k1 x q1 q12 hx
          · have hy' := hi3 k2 y (by omega) q2 hy
            by_cases d1 : k1 < i
            · exact sw.negTrans y p x hy' (lo3 k1 x q1 d1 hx)
            · by_cases d2 : k1 = i
              · subst d2
                rw [hp3] at hx
                cases hx
                exact hy'
              · exact s3 k1 k2 x y (by omega) q12 q2 hx hy
    · rw [if_neg c]
      obtain ⟨a', hf', hl, hp, hfr, hs, hm⟩ := insertRange_spec sw cv a left right hx h0 hr hb
      exact ⟨a', hf', ⟨hl, hp, hfr, hm⟩, hs⟩

/-- Quick sort returns, and its result is a sorted permutation of the input, when the
element type holds the indices of the vector exactly. -/
theorem quickSort_spec {lt : α → α → Bool} (sw : StrictWeak lt) (cv : Conv α)
    (arr : List α) (hx : cv.Exact arr.length) :
    ∃ out, quickSort cv lt arr = some out ∧ NonDesc lt out ∧ out.Perm arr := by
  obtain ⟨a', e, r, s⟩ := quickSortRange_spec sw cv (arr.length + 1) arr 0
    ((arr.length : Int) - 1) (by omega) (le_refl _) (by omega) (hx.of_le (by omega)) (by
      intro k x y _ _ _ hy
      have := rd_bounds hy
      omega)
  refine ⟨a', e, ?_, r.perm⟩
  apply nonDesc_of_sortedRange
  rw [r.len]; exact s

/-! ## Linked lists in the arena -/

theorem deref_some (heap : Heap α) (q : Nat) : deref heap (some q) = heap[q]? := rfl

theorem setNext_some {heap : Heap α} {q : Nat} {node : ListNode α} (nx : Ptr)
    (h : heap[q]? = some node) :
    setNext heap (some q) nx = some (heap.set q ⟨node.val, nx⟩) := by
  simp [setNext, h]

theorem getElem?_set_next (heap : Heap α) (q : Nat) (node : ListNode α) (nx : Ptr)
    (h : heap[q]? = some node) (r : Nat) :
    (heap.set q ⟨node.val, nx⟩)[r]? = if r = q then some ⟨node.val, nx⟩ else heap[r]? := by
  rw [List.getElem?_set]
  have hq := (List.getElem?_eq_some_iff.mp h).1
  by_cases c : q = r
  · subst c; simp [hq]
  · rw [if_neg c, if_neg (fun e => c e.symm)]

theorem val_set_next (heap : Heap α) (q : Nat) (node : ListNode α) (nx : Ptr)
    (h : heap[q]? = some node) (r : Nat) :
    ((heap.set q ⟨node.val, nx⟩)[r]?).map ListNode.val = (heap[r]?).map ListNode.val := by
  rw [getElem?_set_next heap q node nx h]
  split
  · next e => subst e; rw [h]; rfl
  · rfl

theorem isList_nil {heap : Heap α} {h : Ptr} : IsList heap h [] ↔ h = none := Iff.rfl

theorem isList_cons {heap : Heap α} {h : Ptr} {p : Nat} {ps : List Nat} :
    IsList heap h (p :: ps) ↔
      h = some p ∧ ∃ node, heap[p]? = some node ∧ IsList heap node.next ps := Iff.rfl

/-- A list is not affected by changes to nodes that are not its own. -/
theorem IsList.frame {heap heap' : Heap α} :
    ∀ {ps : List Nat} {h : Ptr}, IsList heap h ps → (∀ p ∈ ps, heap'[p]? = heap[p]?) →
      IsList heap' h ps := by
  intro ps
  induction ps with
  | nil => intro h hl _; exact hl
  | cons p ps ih =>
    intro h hl hf
    obtain ⟨e, node, hn, hrest⟩ := hl
    refine ⟨e, node, ?_, ih hrest (fun q hq => hf q (List.mem_cons_of_mem _ hq))⟩
    rw [hf p (List.mem_cons_self _ _)]; exact hn

/-- The chain from a given head is unique. -/
theorem IsList.unique {heap : Heap α} :
    ∀ {ps qs : List Nat} {h : Ptr}, IsList heap h ps → IsList heap h qs → ps = qs := by
  intro ps
  induction ps with
  | nil =>
    intro qs h h1 h2
    cases qs with
    | nil => rfl
    | cons q qs =>
      rw [isList_nil] at h1
      rw [isList_cons, h1] at h2
      cases h2.1
  | cons p ps ih =>
    intro qs h h1 h2
    cases qs with
    | nil =>
      rw [isList_nil] at h2
      rw [isList_cons, h2] at h1
      cases h1.1
    | cons q qs =>
      obtain ⟨e1, n1, hn1, r1⟩ := h1
      obtain ⟨e2, n2, hn2, r2⟩ := h2
      rw [e1] at e2
      cases e2
      rw [hn1] at hn2
      cases hn2
      rw [ih r1 r2]

/-- The list from any node of a chain is a suffix of the chain. -/
theorem IsList.drop {heap : Heap α} :
    ∀ {ps : List Nat} {h : Ptr} (i : Nat), IsList heap h ps →
      IsList heap (ps[i]?) (ps.drop i) := by
  intro ps
  induction ps with
  | nil => intro h i _; simp [IsList]
  | cons p ps ih =>
    intro h i hl
    cases i with
    | zero => simpa using (hl.1 ▸ hl : IsList heap (some p) (p :: ps))
    | succ i =>
      obtain ⟨_, node, _, hrest⟩ := hl
      simpa using ih i hrest

theorem IsList.head {heap : Heap α} {ps : List Nat} {h : Ptr} (hl : IsList heap h ps) :
    h = ps[0]? := by
  cases ps with
  | nil => simpa [IsList] using hl
  | cons p ps => simpa using hl.1

/-- The node at position `i` of a chain links to the node at position `i + 1`. -/
theorem IsList.next_at {heap : Heap α} :
    ∀ {ps : List Nat} {h : Ptr}, IsList heap h ps → ∀ (i p : Nat), ps[i]? = some p →
      ∃ node, heap[p]? = some node ∧ node.next = ps[i + 1]? := by
  intro ps
  induction ps with
  | nil => intro h _ i p hp; simp at hp
  | cons q ps ih =>
    intro h hl i p hp
    obtain ⟨_, node, hn, hrest⟩ := hl
    cases i with
    | zero =>
      simp only [List.getElem?_cons_zero, Option.some.injEq] at hp
      subst hp
      exact ⟨node, hn, by simpa using hrest.head⟩
    | succ i =>
      simp only [List.getElem?_cons_succ] at hp
      simpa using ih hrest i p hp

theorem IsList.of_index {heap : Heap α} :
    ∀ {ps : List Nat} {h : Ptr}, h = ps[0]? →
      (∀ (i p : Nat), ps[i]? = some p → ∃ node, heap[p]? = some node ∧ node.next = ps[i + 1]?) →
      IsList heap h ps := by
  intro ps
  induction ps with
  | nil => intro h e _; simpa [IsList] using e
  | cons q ps ih =>
    intro h e hi
    obtain ⟨node, hn, hnx⟩ := hi 0 q (by simp)
    refine ⟨by simpa using e, node, hn, ih (by simpa using hnx) ?_⟩
    intro i p hp
    simpa using hi (i + 1) p (by simpa using hp)

theorem IsList.mem_lt {heap : Heap α} {ps : List Nat} {h : Ptr} (hl : IsList heap h ps)
    {p : Nat} (hp : p ∈ ps) : p < heap.length := by
  obtain ⟨i, hi, e⟩ := List.mem_iff_getElem.mp hp
  obtain ⟨node, hn, _⟩ := hl.next_at i p (by rw [List.getElem?_eq_getElem hi, e])
  exact (List.getElem?_eq_some_iff.mp hn).1

/-- A chain that ends visits no node twice. -/
theorem IsList.nodup {heap : Heap α} :
    ∀ {ps : List Nat} {h : Ptr}, IsList heap h ps → ps.Nodup := by
  intro ps
  induction ps with
  | nil => intro _ _; exact List.nodup_nil
  | cons p ps ih =>
    intro h hl
    obtain ⟨e, node, hn, hrest⟩ := hl
    refine List.nodup_cons.mpr ⟨?_, ih hrest⟩
    intro hp
    obtain ⟨i, hi, ei⟩ := List.mem_iff_getElem.mp hp
    -- the chain from `p` is both `p :: ps` and a strict suffix of `ps`
    have h1 : IsList heap (some p) (p :: ps) := ⟨rfl, node, hn, hrest⟩
    have h2 : IsList heap (some p) (ps.drop i) := by
      have := hrest.drop i
      rwa [List.getElem?_eq_getElem hi, ei] at this
    have := congrArg List.length (h1.unique h2)
    simp only [List.length_cons, List.length_drop] at this
    omega

theorem IsList.length_le {heap : Heap α} {ps : List Nat} {h : Ptr} (hl : IsList heap h ps) :
    ps.length ≤ heap.length := by
  have hsub : ps ⊆ List.range heap.length := fun p hp => List.mem_range.mpr (hl.mem_lt hp)
  have := (List.subperm_of_subset hl.nodup hsub).length_le
  simpa using this

/-! ## Values along a chain -/

theorem vals_congr {heap heap' : Heap α} {ps : List Nat}
    (h : ∀ p ∈ ps, (heap'[p]?).map ListNode.val = (heap[p]?).map ListNode.val) :
    vals heap' ps = vals heap ps := by
  unfold vals
  induction ps with
  | nil => rfl
  | cons p ps ih =>
    simp only [List.filterMap_cons]
    rw [h p (List.mem_cons_self _ _), ih (fun q hq => h q (List.mem_cons_of_mem _ hq))]

theorem vals_cons {heap : Heap α} {p : Nat} {node : ListNode α} (ps : List Nat)
    (h : heap[p]? = some node) : vals heap (p :: ps) = node.val :: vals heap ps := by
  unfold vals
  simp [List.filterMap_cons, h]

theorem vals_append (heap : Heap α) (ps qs : List Nat) :
    vals heap (ps ++ qs) = vals heap ps ++ vals heap qs := by
  unfold vals
  exact List.filterMap_append _ _ _

theorem vals_nil (heap : Heap α) : vals heap [] = [] := rfl

/-! ## Merging two lists -/

theorem vals_eq_of_val {heap heap' : Heap α}
    (h : ∀ q : Nat, (heap'[q]?).map ListNode.val = (heap[q]?).map ListNode.val) (ps : List Nat) :
    vals heap' ps = vals heap ps :=
  vals_congr (fun p _ => h p)

/-- `mergeTwoList` on two disjoint lists returns one list made of the nodes of both,
changes no value and no other node, and its values are the merge of the two value
sequences by the rule of the source. -/
theorem mergeTwoList_spec (lt : α → α → Bool) :
    ∀ (fuel : Nat) (heap : Heap α) (a b : Ptr) (as bs : List Nat),
      as.length + bs.length < fuel → IsList heap a as → IsList heap b bs →
      (∀ p ∈ as, p ∉ bs) →
      ∃ heap' r rs, mergeTwoList lt fuel heap a b = some (heap', r) ∧ IsList heap' r rs ∧
        rs.Perm (as ++ bs) ∧ heap'.length = heap.length ∧
        (∀ q : Nat, (heap'[q]?).map ListNode.val = (heap[q]?).map ListNode.val) ∧
        (∀ q : Nat, q ∉ as → q ∉ bs → heap'[q]? = heap[q]?) ∧
        vals heap' rs = (vals heap as).merge (vals heap bs) lt := by
  intro fuel
  induction fuel with
  | zero => intro heap a b as bs hf; omega
  | succ fuel ih =>
    intro heap a b as bs hf ha hb hdis
    cases as with
    | nil =>
      rw [isList_nil] at ha
      subst ha
      refine ⟨heap, b, bs, by simp [mergeTwoList], hb, by simp, rfl, fun _ => rfl,
        fun _ _ _ => rfl, ?_⟩
      rw [vals_nil, List.nil_merge]
    | cons ap as' =>
      obtain ⟨ea, an, han, hra⟩ := ha
      subst ea
      cases bs with
      | nil =>
        rw [isList_nil] at hb
        subst hb
        refine ⟨heap, some ap, ap :: as', by simp [mergeTwoList], ⟨rfl, an, han, hra⟩, by simp,
          rfl, fun _ => rfl, fun _ _ _ => rfl, ?_⟩
        rw [vals_nil, List.merge_right]
      | cons bp bs' =>
        obtain ⟨eb, bn, hbn, hrb⟩ := hb
        subst eb
        have hA : IsList heap (some ap) (ap :: as') := ⟨rfl, an, han, hra⟩
        have hB : IsList heap (some bp) (bp :: bs') := ⟨rfl, bn, hbn, hrb⟩
        have ndA := hA.nodup
        have ndB := hB.nodup
        have hapbp : ap ≠ bp := fun e =>
          hdis ap (List.mem_cons_self _ _) (e ▸ List.mem_cons_self _ _)
        simp only [List.length_cons] at hf
        unfold mergeTwoList
        simp only [deref_some, han, hbn, Option.some_bind]
        cases hlt : lt an.val bn.val with
        | false =>
          simp only [Bool.not_false, if_true]
          rw [setNext_some (some ap) hbn, Option.some_bind]
          have g1 := getElem?_set_next heap bp bn (some ap) hbn
          rw [g1 bp, if_pos rfl, Option.some_bind]
          simp only
          -- the recursive call merges `as` with the rest of `bs`
          have hbpA : bp ∉ ap :: as' := fun hm => hdis bp hm (List.mem_cons_self _ _)
          have hbpB : bp ∉ bs' := (List.nodup_cons.mp ndB).1
          have hA1 : IsList (heap.set bp ⟨bn.val, some ap⟩) (some ap) (ap :: as') :=
            hA.frame (fun p hp => by
              rw [g1 p, if_neg (fun e : p = bp => hbpA (e ▸ hp))])
          have hB1 : IsList (heap.set bp ⟨bn.val, some ap⟩) bn.next bs' :=
            hrb.frame (fun p hp => by
              rw [g1 p, if_neg (fun e : p = bp => hbpB (e ▸ hp))])
          obtain ⟨h', r, rs, e, hl, hp, hlen, hval, hfr, hv⟩ :=
            ih (heap.set bp ⟨bn.val, some ap⟩) (some ap) bn.next (ap :: as') bs'
              (by simp only [List.length_cons]; omega) hA1 hB1
              (fun p hp hq => hdis p hp (List.mem_cons_of_mem _ hq))
          rw [e, Option.some_bind]
          simp only
          have hb' : h'[bp]? = some ⟨bn.val, some ap⟩ := by
            rw [hfr bp hbpA hbpB, g1 bp, if_pos rfl]
          rw [setNext_some r hb', Option.some_bind]
          have g2 := getElem?_set_next h' bp ⟨bn.val, some ap⟩ r hb'
          have hbprs : bp ∉ rs := fun hm => by
            rcases List.mem_append.mp (hp.mem_iff.mp hm) with h1 | h1
            · exact hbpA h1
            · exact hbpB h1
          have hval2 : ∀ q : Nat, ((h'.set bp ⟨bn.val, r⟩)[q]?).map ListNode.val =
              (heap[q]?).map ListNode.val := by
            intro q
            rw [val_set_next h' bp ⟨bn.val, some ap⟩ r hb' q, hval q,
              val_set_next heap bp bn (some ap) hbn q]
          refine ⟨_, some bp, bp :: rs, rfl, ?_, ?_, ?_, hval2, ?_, ?_⟩
          · refine ⟨rfl, ⟨bn.val, r⟩, by rw [g2 bp, if_pos rfl], ?_⟩
            exact hl.frame (fun p hp' => by rw [g2 p, if_neg (fun e : p = bp => hbprs (e ▸ hp'))])
          · exact ((List.Perm.cons bp hp).trans List.perm_middle.symm)
          · rw [List.length_set, hlen, List.length_set]
          · intro q hqa hqb
            have hqbp : q ≠ bp := fun e => hqb (e ▸ List.mem_cons_self _ _)
            rw [g2 q, if_neg hqbp, hfr q hqa (fun hm => hqb (List.mem_cons_of_mem _ hm)),
              g1 q, if_neg hqbp]
          · have hg : (h'.set bp ⟨bn.val, r⟩)[bp]? = some ⟨bn.val, r⟩ := by
              rw [g2 bp, if_pos rfl]
            rw [vals_cons rs hg, vals_cons as' han, vals_cons bs' hbn, List.cons_merge_cons,
              hlt]
            simp only [Bool.false_eq_true, if_false]
            congr 1
            have e1 : vals (h'.set bp ⟨bn.val, r⟩) rs = vals h' rs :=
              vals_eq_of_val (val_set_next h' bp ⟨bn.val, some ap⟩ r hb') rs
            rw [e1, hv,
              vals_eq_of_val (val_set_next heap bp bn (some ap) hbn) (ap :: as'),
              vals_eq_of_val (val_set_next heap bp bn (some ap) hbn) bs',
              vals_cons as' han]
        | true =>
          simp only [Bool.not_true, Bool.false_eq_true, if_false]
          have hapA : ap ∉ as' := (List.nodup_cons.mp ndA).1
          have hapB : ap ∉ bp :: bs' := hdis ap (List.mem_cons_self _ _)
          obtain ⟨h', r, rs, e, hl, hp, hlen, hval, hfr, hv⟩ :=
            ih heap an.next (some bp) as' (bp :: bs')
              (by simp only [List.length_cons]; omega) hra hB
              (fun p hp hq => hdis p (List.mem_cons_of_mem _ hp) hq)
          rw [e, Option.some_bind]
          simp only
          have ha' : h'[ap]? = some an := by rw [hfr ap hapA hapB]; exact han
          rw [setNext_some r ha', Option.some_bind]
          have g2 := getElem?_set_next h' ap an r ha'
          have haprs : ap ∉ rs := fun hm => by
            rcases List.mem_append.mp (hp.mem_iff.mp hm) with h1 | h1
            · exact hapA h1
            · exact hapB h1
          have hval2 : ∀ q : Nat, ((h'.set ap ⟨an.val, r⟩)[q]?).map ListNode.val =
              (heap[q]?).map ListNode.val := by
            intro q
            rw [val_set_next h' ap an r ha' q, hval q]
          refine ⟨_, some ap, ap :: rs, rfl, ?_, ?_, ?_, hval2, ?_, ?_⟩
          · refine ⟨rfl, ⟨an.val, r⟩, by rw [g2 ap, if_pos rfl], ?_⟩
            exact hl.frame (fun p hp' => by rw [g2 p, if_neg (fun e : p = ap => haprs (e ▸ hp'))])
          · exact List.Perm.cons ap hp
          · rw [List.length_set, hlen]
          · intro q hqa hqb
            have hqap : q ≠ ap := fun e => hqa (e ▸ List.mem_cons_self _ _)
            rw [g2 q, if_neg hqap, hfr q (fun hm => hqa (List.mem_cons_of_mem _ hm)) hqb]
          · have hg : (h'.set ap ⟨an.val, r⟩)[ap]? = some ⟨an.val, r⟩ := by
              rw [g2 ap, if_pos rfl]
            rw [vals_cons rs hg, vals_cons as' han, vals_cons bs' hbn, List.cons_merge_cons,
              hlt]
            simp only [if_true]
            congr 1
            have e1 : vals (h'.set ap ⟨an.val, r⟩) rs = vals h' rs :=
              vals_eq_of_val (val_set_next h' ap an r ha') rs
            rw [e1, hv, vals_cons bs' hbn]

/-! ## Finding the middle of a list -/

/-- The slow/fast pointer loop started at positions `k` and `2k+1` of a chain stops
with `mid` at a position `k'` such that the chain has `2k'+1` or `2k'+2` nodes. -/
theorem splitLoop_spec {heap : Heap α} {h : Ptr} {ps : List Nat} (hl : IsList heap h ps) :
    ∀ (fuel k : Nat) (mid tmp : Ptr), ps.length - (2 * k + 1) < fuel →
      2 * k + 1 ≤ ps.length → mid = ps[k]? → tmp = ps[2 * k + 1]? →
      ∃ k', splitLoop fuel heap mid tmp = some (ps[k']?) ∧ k ≤ k' ∧
        (2 * k' + 1 = ps.length ∨ 2 * k' + 2 = ps.length) := by
  intro fuel
  induction fuel with
  | zero => intro k mid tmp hf; omega
  | succ fuel ih =>
    intro k mid tmp hf hk hmid htmp
    unfold splitLoop
    cases tmp with
    | none =>
      have : ps.length ≤ 2 * k + 1 := List.getElem?_eq_none_iff.mp htmp.symm
      exact ⟨k, by rw [hmid], le_refl _, Or.inl (by omega)⟩
    | some t =>
      obtain ⟨tn, htn, htnx⟩ := hl.next_at (2 * k + 1) t htmp.symm
      simp only [deref_some, htn, Option.some_bind]
      cases hnx : tn.next with
      | none =>
        rw [hnx] at htnx
        have : ps.length ≤ 2 * k + 1 + 1 := List.getElem?_eq_none_iff.mp htnx.symm
        have : 2 * k + 1 < ps.length := (List.getElem?_eq_some_iff.mp htmp.symm).1
        exact ⟨k, by rw [hmid], le_refl _, Or.inr (by omega)⟩
      | some t1 =>
        rw [hnx] at htnx
        have hlt2 : 2 * k + 1 + 1 < ps.length := (List.getElem?_eq_some_iff.mp htnx.symm).1
        have hkl : k < ps.length := by omega
        obtain ⟨mn, hmn, hmnx⟩ := hl.next_at k ps[k] (List.getElem?_eq_getElem hkl)
        obtain ⟨tn1, htn1, htn1x⟩ := hl.next_at (2 * k + 1 + 1) t1 htnx.symm
        simp only
        rw [hmid, List.getElem?_eq_getElem hkl, deref_some, hmn, Option.some_bind, htn1,
          Option.some_bind]
        obtain ⟨k', e, g1, g2⟩ := ih (k + 1) mn.next tn1.next (by omega) (by omega) hmnx
          (by rw [htn1x]; congr 1)
        exact ⟨k', e, by omega, g2⟩

/-! ## Merge sort on linked lists -/

/-- `mergeSortList` on a finite acyclic list returns a list made of the same nodes,
changes no value and no node outside the list, and, when the comparison is a strict
weak order, the values along the new chain are the reference sort of the values along
the old one. Lists of at most one node are
returned untouched. -/
theorem mergeSortList_spec (lt : α → α → Bool) :
    ∀ (fuel : Nat) (heap : Heap α) (h : Ptr) (ps : List Nat), ps.length < fuel →
      IsList heap h ps →
      ∃ heap' h' ps', mergeSortList lt fuel heap h = some (heap', h') ∧
        IsList heap' h' ps' ∧ ps'.Perm ps ∧ heap'.length = heap.length ∧
        (∀ q : Nat, (heap'[q]?).map ListNode.val = (heap[q]?).map ListNode.val) ∧
        (∀ q : Nat, q ∉ ps → heap'[q]? = heap[q]?) ∧
        (StrictWeak lt → vals heap' ps' = refSort lt (vals heap ps)) ∧
        (ps.length ≤ 1 → heap' = heap ∧ h' = h) := by
  intro fuel
  induction fuel with
  | zero => intro heap h ps hf; omega
  | succ fuel ih =>
    intro heap h ps hf hl
    match ps, hl with
    | [], hl =>
      rw [isList_nil] at hl
      subst hl
      exact ⟨heap, none, [], by simp [mergeSortList], rfl, List.Perm.refl _, rfl,
        fun _ => rfl, fun _ _ => rfl, fun _ => rfl, fun _ => ⟨rfl, rfl⟩⟩
    | [p], hl =>
      obtain ⟨e, hn, hhn, hrest⟩ := hl
      rw [isList_nil] at hrest
      subst e
      refine ⟨heap, some p, [p], ?_, ⟨rfl, hn, hhn, hrest⟩, List.Perm.refl _, rfl,
        fun _ => rfl, fun _ _ => rfl, ?_, fun _ => ⟨rfl, rfl⟩⟩
      · unfold mergeSortList
        simp only [deref_some, hhn, Option.some_bind, hrest]
      · intro _
        rw [vals_cons [] hhn, vals_nil, refSort_singleton]
    | p :: p1 :: rest, hl =>
      have hl0 := hl
      obtain ⟨e, hn, hhn, hrest⟩ := hl
      have hnx : hn.next = some p1 := hrest.1
      subst e
      have hlen := hl0.length_le
      have hnd := hl0.nodup
      simp only [List.length_cons] at hf hlen
      obtain ⟨k, esplit, _, hk⟩ := splitLoop_spec hl0 (heap.length + 1) 0 (some p) hn.next
        (by simp only [List.length_cons]; omega) (by simp only [List.length_cons]; omega)
        (by simp) (by rw [hnx]; simp)
      simp only [List.length_cons] at hk
      have hkn : k + 1 < (p :: p1 :: rest).length := by simp only [List.length_cons]; omega
      have hkn' : k < (p :: p1 :: rest).length := by omega
      generalize hps : p :: p1 :: rest = ps at *
      have hmid : ps[k]? = some ps[k] := List.getElem?_eq_getElem hkn'
      obtain ⟨mn, hmn, hmnx⟩ := hl0.next_at k ps[k] hmid
      generalize hm : ps[k] = m at *
      -- the two halves
      have hAB : ps.take (k + 1) ++ ps.drop (k + 1) = ps := List.take_append_drop _ _
      have hndAB := hnd
      rw [← hAB] at hndAB
      have hdisj : ∀ q ∈ ps.take (k + 1), q ∉ ps.drop (k + 1) := fun q h1 h2 =>
        (List.nodup_append.mp hndAB).2.2 h1 h2
      have hmA : m ∈ ps.take (k + 1) := by
        have : (ps.take (k + 1))[k]? = some m := by
          rw [List.getElem?_take_of_lt (by omega), hmid]
        obtain ⟨hk1, hk2⟩ := List.getElem?_eq_some_iff.mp this
        rw [← hk2]
        exact List.getElem_mem hk1
      have g1 := getElem?_set_next heap m mn none hmn
      have hA1 : IsList (heap.set m ⟨mn.val, none⟩) (some p) (ps.take (k + 1)) := by
        apply IsList.of_index
        · rw [List.getElem?_take_of_lt (by omega), ← hps]; rfl
        · intro i q hq
          have hi : i < k + 1 := by
            by_contra hc
            rw [List.getElem?_take, if_neg hc] at hq
            cases hq
          rw [List.getElem?_take_of_lt hi] at hq
          obtain ⟨nd, hndq, hndx⟩ := hl0.next_at i q hq
          by_cases c : q = m
          · subst c
            have hik : i = k := by
              have hi' : i < ps.length := by omega
              have e1 : ps[i] = ps[k] := by
                rw [List.getElem?_eq_getElem hi'] at hq
                rw [Option.some.inj hq, hm]
              exact (List.Nodup.getElem_inj_iff hnd).mp e1
            subst hik
            refine ⟨⟨mn.val, none⟩, by rw [g1 q, if_pos rfl], ?_⟩
            rw [List.getElem?_take, if_neg (by omega)]
          · have hik : i ≠ k := by
              intro e
              subst e
              rw [hmid] at hq
              exact c (Option.some.inj hq).symm
            refine ⟨nd, by rw [g1 q, if_neg c]; exact hndq, ?_⟩
            rw [hndx, List.getElem?_take_of_lt (by omega)]
      have hB0 : IsList heap (ps[k + 1]?) (ps.drop (k + 1)) := hl0.drop (k + 1)
      have hB1 : IsList (heap.set m ⟨mn.val, none⟩) (ps[k + 1]?) (ps.drop (k + 1)) :=
        hB0.frame (fun q hq => by
          rw [g1 q, if_neg (fun e : q = m => hdisj m hmA (e ▸ hq))])
      have lenA : (ps.take (k + 1)).length = k + 1 := by
        rw [List.length_take]; omega
      have lenB : (ps.drop (k + 1)).length = ps.length - (k + 1) := List.length_drop _ _
      have hpsl : ps.length = rest.length + 1 + 1 := by rw [← hps]; rfl
      -- first recursive call
      obtain ⟨H1, h1, A', e1, l1, p1', n1, v1, f1, s1, _⟩ :=
        ih (heap.set m ⟨mn.val, none⟩) (some p) (ps.take (k + 1)) (by omega) hA1
      -- second recursive call
      have hB2 : IsList H1 (ps[k + 1]?) (ps.drop (k + 1)) :=
        hB1.frame (fun q hq => f1 q (fun hqa => hdisj q hqa hq))
      obtain ⟨H2, h2, B', e2, l2, p2', n2, v2, f2, s2, _⟩ :=
        ih H1 (ps[k + 1]?) (ps.drop (k + 1)) (by omega) hB2
      -- the merge
      have l1' : IsList H2 h1 A' :=
        l1.frame (fun q hq => f2 q (fun hqb => hdisj q (p1'.mem_iff.mp hq) hqb))
      have hdis' : ∀ q ∈ A', q ∉ B' := fun q hqa hqb =>
        hdisj q (p1'.mem_iff.mp hqa) (p2'.mem_iff.mp hqb)
      have hlenAB : A'.length + B'.length < heap.length + 1 := by
        rw [p1'.length_eq, p2'.length_eq, lenA, lenB]
        omega
      obtain ⟨H3, r, rs, e3, l3, p3, n3, v3, f3, s3⟩ :=
        mergeTwoList_spec lt (heap.length + 1) H2 h1 h2 A' B' hlenAB l1' l2 hdis'
      have hv0 := val_set_next heap m mn none hmn
      refine ⟨H3, r, rs, ?_, l3, ?_, ?_, ?_, ?_, ?_, ?_⟩
      · unfold mergeSortList
        simp only [deref_some, hhn, Option.some_bind, hnx]
        rw [← hps] at esplit
        rw [← hnx, esplit, Option.some_bind, hps, hmid, deref_some, hmn, Option.some_bind]
        rw [setNext_some none hmn, Option.some_bind, e1, Option.some_bind]
        rw [hmnx, e2, Option.some_bind]
        exact e3
      · exact p3.trans ((p1'.append p2').trans (by rw [hAB]))
      · rw [n3, n2, n1, List.length_set]
      · intro q
        rw [v3 q, v2 q, v1 q, hv0 q]
      · intro q hq
        have hqA : q ∉ ps.take (k + 1) := fun hm => hq (List.mem_of_mem_take hm)
        have hqB : q ∉ ps.drop (k + 1) := fun hm => hq (List.mem_of_mem_drop hm)
        have hqm : q ≠ m := fun e => hqA (e ▸ hmA)
        rw [f3 q (fun hm => hqA (p1'.mem_iff.mp hm)) (fun hm => hqB (p2'.mem_iff.mp hm)),
          f2 q hqB, f1 q hqA, g1 q, if_neg hqm]
      · intro sw
        have w1 : vals H2 A' = refSort lt (vals heap (ps.take (k + 1))) := by
          rw [vals_eq_of_val v2 A', s1 sw, vals_eq_of_val hv0]
        have w2 : vals H2 B' = refSort lt (vals heap (ps.drop (k + 1))) := by
          rw [s2 sw, vals_eq_of_val v1, vals_eq_of_val hv0]
        rw [s3, w1, w2, merge_refSort sw, ← vals_append, hAB]
      · intro hle
        rw [hpsl] at hle
        omega

/-- The list merge sort returns the reference sort of the values of its input. -/
theorem mergeSortL_spec (lt : α → α → Bool) (heap : Heap α) (h : Ptr)
    (ps : List Nat) (hl : IsList heap h ps) :
    ∃ heap' h' ps', mergeSortL lt heap h = some (heap', h') ∧
      IsList heap' h' ps' ∧ ps'.Perm ps ∧ heap'.length = heap.length ∧
      (∀ q : Nat, (heap'[q]?).map ListNode.val = (heap[q]?).map ListNode.val) ∧
      (∀ q : Nat, q ∉ ps → heap'[q]? = heap[q]?) ∧
      (StrictWeak lt → vals heap' ps' = refSort lt (vals heap ps)) ∧
      (ps.length ≤ 1 → heap' = heap ∧ h' = h) :=
  mergeSortList_spec lt (heap.length + 1) heap h ps (by have := hl.length_le; omega) hl

/-! ## Orders -/

theorem strictWeak_ltInt : StrictWeak ltInt := by
  refine ⟨?_, ?_, ?_⟩
  · intro a; simp [ltInt]
  · intro a b c h1 h2
    simp only [ltInt, decide_eq_true_eq] at *
    omega
  · intro a b c h1 h2
    simp only [ltInt, decide_eq_false_iff_not] at *
    omega

theorem strictWeak_keyLt {κ τ : Type} [LinearOrder κ] :
    StrictWeak (keyLt : κ × τ → κ × τ → Bool) := by
  refine ⟨?_, ?_, ?_⟩
  · intro a; simp [keyLt]
  · intro a b c h1 h2
    simp only [keyLt, decide_eq_true_eq] at *
    exact lt_trans h1 h2
  · intro a b c h1 h2
    simp only [keyLt, decide_eq_false_iff_not, not_lt] at *
    exact le_trans h2 h1

theorem ltInt_antisymm (a b : Int) (h1 : ltInt a b = false) (h2 : ltInt b a = false) :
    a = b := by
  simp only [ltInt, decide_eq_false_iff_not] at *
  omega

/-- Under an order for which elements that compare as equal are equal, a sequence has
only one sorted rearrangement. -/
theorem eq_of_nonDesc_perm {lt : α → α → Bool}
    (hanti : ∀ a b, lt a b = false → lt b a = false → a = b) {out arr : List α}
    (h1 : NonDesc lt out) (h2 : NonDesc lt arr) (hp : out.Perm arr) : out = arr := by
  haveI : IsAntisymm α (fun x y => lt y x = false) := ⟨fun a b h h' => hanti a b h' h⟩
  exact List.eq_of_perm_of_sorted hp h1 h2

/-! ## Sorted input -/

theorem insertionSort_of_nonDesc (cv : Conv α) (lt : α → α → Bool) (arr : List α)
    (hs : NonDesc lt arr) : insertionSort cv lt arr = some arr := by
  have hsr := sortedRange_of_nonDesc hs 0 ((arr.length : Int) - 1)
  obtain ⟨out, hf, ho⟩ := forUp_inv (insertStep cv lt) (fun _ s => s = arr)
    ((arr.length : Int) - 1).toNat 1 arr rfl (by
      intro i s h1 h2 hI
      subst hI
      obtain ⟨ai, hai⟩ := rd_isSome (a := s) (i := i) (by omega) (by omega)
      obtain ⟨ai1, hai1⟩ := rd_isSome (a := s) (i := i - 1) (by omega) (by omega)
      refine ⟨s, ?_, rfl⟩
      unfold insertStep
      rw [hai, Option.some_bind, hai1, Option.some_bind,
        hsr (i - 1) i ai1 ai (by omega) (by omega) (by omega) hai1 hai]
      simp)
  unfold insertionSort
  rw [ho] at hf
  simpa using hf

theorem selectionSort_of_nonDesc {lt : α → α → Bool} (sw : StrictWeak lt) (arr : List α)
    (hs : NonDesc lt arr) : selectionSort lt arr = some arr := by
  have hsr := sortedRange_of_nonDesc hs 0 ((arr.length : Int) - 1)
  obtain ⟨out, hf, ho⟩ := forUp_inv (selectStep lt arr.length) (fun _ s => s = arr)
    ((arr.length : Int) - 1 - 0).toNat 0 arr rfl (by
      intro i s h1 h2 hI
      subst hI
      refine ⟨s, ?_, rfl⟩
      obtain ⟨m, hm, hmi⟩ := forUp_inv (selectMin lt s) (fun _ min => min = i)
        ((s.length : Int) - i).toNat i i rfl (by
          intro k min g1 g2 hmin
          subst hmin
          obtain ⟨ak, hak⟩ := rd_isSome (a := s) (i := k) (by omega) (by omega)
          obtain ⟨am, ham⟩ := rd_isSome (a := s) (i := min) (by omega) (by omega)
          refine ⟨min, ?_, rfl⟩
          unfold selectMin
          rw [hak, Option.some_bind, ham, Option.some_bind]
          have : lt ak am = false := by
            by_cases e : k = min
            · subst e
              rw [hak] at ham
              cases ham
              exact sw.irrefl _
            · exact hsr min k am ak (by omega) (by omega) (by omega) ham hak
          rw [this]
          simp)
      unfold selectStep
      rw [hm, Option.some_bind, hmi]
      simp)
  unfold selectionSort
  rw [ho] at hf
  exact hf

theorem shellStep_of_nonDesc (lt : α → α → Bool) (arr : List α) (hs : NonDesc lt arr)
    (inc i : Int) (hinc : 1 ≤ inc) (hi0 : inc ≤ i) (hi1 : i < arr.length) :
    shellStep lt inc i arr = some arr := by
  have hsr := sortedRange_of_nonDesc hs 0 ((arr.length : Int) - 1)
  obtain ⟨tmp, htmp⟩ := rd_isSome (a := arr) (i := i) (by omega) hi1
  obtain ⟨x, hx⟩ := rd_isSome (a := arr) (i := i - inc) (by omega) (by omega)
  unfold shellStep
  rw [htmp, Option.some_bind]
  unfold shellInner
  rw [if_pos hi0, hx, Option.some_bind,
    hsr (i - inc) i x tmp (by omega) (by omega) (by omega) hx htmp]
  simp only [Bool.false_eq_true, if_false, Option.some_bind]
  exact wr_self htmp

theorem shellOuter_of_nonDesc (lt : α → α → Bool) (arr : List α) (hs : NonDesc lt arr) :
    ∀ (fuel : Nat) (inc : Int), inc.toNat < fuel →
      shellOuter lt arr.length fuel arr inc = some arr := by
  intro fuel
  induction fuel with
  | zero => intro inc hf; omega
  | succ fuel ih =>
    intro inc hf
    unfold shellOuter
    by_cases c : inc ≥ 1
    · rw [if_pos c]
      obtain ⟨out, hfo, ho⟩ := forUp_inv (shellStep lt inc) (fun _ s => s = arr)
        ((arr.length : Int) - inc).toNat inc arr rfl (by
          intro i s h1 h2 hI
          subst hI
          exact ⟨s, shellStep_of_nonDesc lt s hs inc i c h1 (by omega), rfl⟩)
      rw [hfo, Option.some_bind, ho, Int.tdiv_eq_ediv (by omega) (by omega)]
      exact ih (inc / 2) (by omega)
    · rw [if_neg c]

theorem shellSort_of_nonDesc (lt : α → α → Bool) (arr : List α) (hs : NonDesc lt arr) :
    shellSort lt arr = some arr := by
  unfold shellSort
  simp only [Int.tdiv_eq_ediv (Int.ofNat_nonneg arr.length) (by omega : (0 : Int) ≤ 2)]
  exact shellOuter_of_nonDesc lt arr hs (arr.length + 1) _ (by omega)

/-! ## Order of tied elements under the reference sort -/

theorem filter_orderedInsert {lt : α → α → Bool} (P : α → Bool)
    (hP : ∀ a b, lt b a = true → P a = true → P b = true → False) (a : α) :
    ∀ s : List α, (List.orderedInsert (fun a b => lt b a = false) a s).filter P =
      (a :: s).filter P := by
  intro s
  induction s with
  | nil => rfl
  | cons b s ih =>
    rw [orderedInsert_cons']
    cases hba : lt b a with
    | false => simp
    | true =>
      simp only [Bool.true_eq_false, if_false]
      rw [List.filter_cons, ih]
      cases ha : P a <;> cases hb : P b
      · simp [List.filter_cons, ha, hb]
      · simp [List.filter_cons, ha, hb]
      · simp [List.filter_cons, ha, hb]
      · exact (hP a b hba ha hb).elim

/-- Among elements that the order cannot tell apart (here: selected by a predicate `P`
no two of whose members are strictly ordered), the reference sort reverses the input
order. -/
theorem filter_refSort {lt : α → α → Bool} (P : α → Bool)
    (hP : ∀ a b, lt b a = true → P a = true → P b = true → False) (l : List α) :
    (refSort lt l).filter P = (l.filter P).reverse := by
  unfold refSort
  rw [← List.filter_reverse]
  generalize l.reverse = m
  induction m with
  | nil => rfl
  | cons a m ih =>
    show (List.orderedInsert _ a (List.insertionSort _ m)).filter P = _
    rw [filter_orderedInsert P hP, List.filter_cons, List.filter_cons, ih]

/-! ## The recorded partition loop -/

theorem scanUpT_fst (lt : α → α → Bool) (a : List α) (p : α) :
    ∀ (fuel : Nat) (i : Int),
      (scanUpT lt a p fuel i).map Prod.fst = scanUp lt a p fuel i := by
  intro fuel
  induction fuel with
  | zero => intro i; rfl
  | succ fuel ih =>
    intro i
    unfold scanUpT scanUp
    cases hx : rd a (i + 1) with
    | none => rfl
    | some x =>
      simp only [Option.some_bind]
      cases hlt : lt x p with
      | false => rfl
      | true =>
        simp only [if_true, Option.map_map]
        rw [← ih (i + 1)]
        rfl

theorem scanDownT_fst (lt : α → α → Bool) (a : List α) (p : α) :
    ∀ (fuel : Nat) (j : Int),
      (scanDownT lt a p fuel j).map Prod.fst = scanDown lt a p fuel j := by
  intro fuel
  induction fuel with
  | zero => intro j; rfl
  | succ fuel ih =>
    intro j
    unfold scanDownT scanDown
    cases hx : rd a (j - 1) with
    | none => rfl
    | some x =>
      simp only [Option.some_bind]
      cases hlt : lt p x with
      | false => rfl
      | true =>
        simp only [if_true, Option.map_map]
        rw [← ih (j - 1)]
        rfl

/-- The values recorded by the upward scan lie after its start, up to its result. -/
theorem scanUpT_trace (lt : α → α → Bool) (a : List α) (p : α) :
    ∀ (fuel : Nat) (i i' : Int) (tr : List Int), scanUpT lt a p fuel i = some (i', tr) →
      ∀ c ∈ tr, i < c ∧ c ≤ i' := by
  intro fuel
  induction fuel with
  | zero => intro i i' tr h; cases h
  | succ fuel ih =>
    intro i i' tr h
    unfold scanUpT at h
    cases hx : rd a (i + 1) with
    | none => rw [hx] at h; cases h
    | some x =>
      rw [hx, Option.some_bind] at h
      cases hlt : lt x p with
      | false =>
        rw [hlt] at h
        simp only [Bool.false_eq_true, if_false, Option.some.injEq, Prod.mk.injEq] at h
        obtain ⟨rfl, rfl⟩ := h
        intro c hc
        simp only [List.mem_singleton] at hc
        omega
      | true =>
        rw [hlt] at h
        simp only [if_true, Option.map_eq_some'] at h
        obtain ⟨⟨i1, tr1⟩, h1, h2⟩ := h
        simp only [Prod.mk.injEq] at h2
        obtain ⟨rfl, rfl⟩ := h2
        have hb := ih (i + 1) i1 tr1 h1
        have hfst : scanUp lt a p fuel (i + 1) = some i1 := by
          rw [← scanUpT_fst, h1]; rfl
        intro c hc
        rcases List.mem_cons.mp hc with e | e
        · subst e
          cases tr1 with
          | nil =>
            -- the scan records at least its result
            cases fuel with
            | zero => cases h1
            | succ f =>
              unfold scanUpT at h1
              cases hy : rd a (i + 1 + 1) with
              | none => rw [hy] at h1; cases h1
              | some y =>
                rw [hy, Option.some_bind] at h1
                split at h1
                · simp only [Option.map_eq_some'] at h1
                  obtain ⟨r, _, hr⟩ := h1
                  simp at hr
                · simp at h1
          | cons d tr2 =>
            have := hb d (List.mem_cons_self _ _)
            omega
        · have := hb c e
          omega

/-- The values recorded by the downward scan lie before its start, down to its result. -/
theorem scanDownT_trace (lt : α → α → Bool) (a : List α) (p : α) :
    ∀ (fuel : Nat) (j j' : Int) (tr : List Int), scanDownT lt a p fuel j = some (j', tr) →
      tr ≠ [] ∧ ∀ c ∈ tr, j' ≤ c ∧ c < j := by
  intro fuel
  induction fuel with
  | zero => intro j j' tr h; cases h
  | succ fuel ih =>
    intro j j' tr h
    unfold scanDownT at h
    cases hx : rd a (j - 1) with
    | none => rw [hx] at h; cases h
    | some x =>
      rw [hx, Option.some_bind] at h
      cases hlt : lt p x with
      | false =>
        rw [hlt] at h
        simp only [Bool.false_eq_true, if_false, Option.some.injEq, Prod.mk.injEq] at h
        obtain ⟨rfl, rfl⟩ := h
        refine ⟨by simp, ?_⟩
        intro c hc
        simp only [List.mem_singleton] at hc
        omega
      | true =>
        rw [hlt] at h
        simp only [if_true, Option.map_eq_some'] at h
        obtain ⟨⟨j1, tr1⟩, h1, h2⟩ := h
        simp only [Prod.mk.injEq] at h2
        obtain ⟨rfl, rfl⟩ := h2
        obtain ⟨hne, hb⟩ := ih (j - 1) j1 tr1 h1
        refine ⟨by simp, ?_⟩
        intro c hc
        rcases List.mem_cons.mp hc with e | e
        · subst e
          obtain ⟨d, tr2, rfl⟩ := List.exists_cons_of_ne_nil hne
          have := hb d (List.mem_cons_self _ _)
          omega
        · have := hb c e
          omega

theorem scanUpT_of_scanUp {lt : α → α → Bool} {a : List α} {p : α} {fuel : Nat} {i i' : Int}
    (h : scanUp lt a p fuel i = some i') :
    ∃ tr, scanUpT lt a p fuel i = some (i', tr) := by
  rw [← scanUpT_fst] at h
  obtain ⟨⟨i1, tr⟩, h1, h2⟩ := Option.map_eq_some'.mp h
  simp only at h2
  subst h2
  exact ⟨tr, h1⟩

theorem scanDownT_of_scanDown {lt : α → α → Bool} {a : List α} {p : α} {fuel : Nat}
    {j j' : Int} (h : scanDown lt a p fuel j = some j') :
    ∃ tr, scanDownT lt a p fuel j = some (j', tr) := by
  rw [← scanDownT_fst] at h
  obtain ⟨⟨j1, tr⟩, h1, h2⟩ := Option.map_eq_some'.mp h
  simp only at h2
  subst h2
  exact ⟨tr, h1⟩

/-- Forgetting the record of the cursors gives the partition loop. -/
theorem partitionLoopT_erase (lt : α → α → Bool) (p : α) :
    ∀ (fuel : Nat) (a : List α) (i j : Int),
      (partitionLoopT lt p fuel a i j).map (fun r => (r.1, r.2.1)) =
        partitionLoop lt p fuel a i j := by
  intro fuel
  induction fuel with
  | zero => intro a i j; rfl
  | succ fuel ih =>
    intro a i j
    unfold partitionLoopT partitionLoop
    rw [← scanUpT_fst, ← scanDownT_fst]
    cases h1 : scanUpT lt a p (a.length + 1) i with
    | none => rfl
    | some ri =>
      cases h2 : scanDownT lt a p (a.length + 1) j with
      | none => rfl
      | some rj =>
        simp only [Option.map_some', Option.some_bind]
        by_cases c : ri.1 < rj.1
        · rw [if_pos c, if_pos c]
          cases h3 : swap a ri.1 rj.1 with
          | none => rfl
          | some a1 =>
            simp only [Option.some_bind, Option.map_map]
            rw [← ih a1 ri.1 rj.1]
            rfl
        · rw [if_neg c, if_neg c]
          rfl

/-- The cursors of the partition loop stay inside the range: started as in
`partitionLoop_spec`, the loop returns, the left cursor never exceeds `right - 1` and
the right cursor never goes below `left`. -/
theorem partitionLoopT_spec {lt : α → α → Bool} (sw : StrictWeak lt) (p : α)
    (a0 : List α) (left right : Int) (h0 : 0 ≤ left) (hr : right < a0.length) :
    ∀ (fuel : Nat) (a : List α) (i j : Int), (j - i).toNat < fuel →
      left ≤ i → i < j → j ≤ right - 1 → Rearr left right a0 a →
      rd a (right - 1) = some p →
      (∀ k x, left ≤ k → k ≤ i → rd a k = some x → lt p x = false) →
      (∀ k x, j ≤ k → k ≤ right → rd a k = some x → lt x p = false) →
      ∃ r, partitionLoopT lt p fuel a i j = some r ∧
        (∀ c ∈ r.2.2.1, i < c ∧ c ≤ right - 1) ∧ (∀ c ∈ r.2.2.2, left ≤ c ∧ c < j) := by
  intro fuel
  induction fuel with
  | zero => intro a i j hf; omega
  | succ fuel ih =>
    intro a i j hf hli hij hjr hre hp hlo hhi
    have hlen : a.length = a0.length := hre.len
    unfold partitionLoopT
    obtain ⟨yj, hyj⟩ := rd_isSome (a := a) (i := j) (by omega) (by omega)
    obtain ⟨xi, hxi⟩ := rd_isSome (a := a) (i := i) (by omega) (by omega)
    obtain ⟨i', ei, gi1, gi2, gi3, xi', hxi', gi4⟩ :=
      scanUp_spec lt a p j ⟨yj, hyj, hhi j yj (le_refl _) (by omega) hyj⟩ (a.length + 1) i
        (by omega) (by omega) hij
    obtain ⟨j', ej, gj1, gj2, gj3, yj', hyj', gj4⟩ :=
      scanDown_spec lt a p i ⟨xi, hxi, hlo i xi hli (le_refl _) hxi⟩ (a.length + 1) j
        (by omega) (by omega) hij
    obtain ⟨tri, eti⟩ := scanUpT_of_scanUp ei
    obtain ⟨trj, etj⟩ := scanDownT_of_scanDown ej
    have bi := scanUpT_trace lt a p _ i i' tri eti
    have bj := (scanDownT_trace lt a p _ j j' trj etj).2
    rw [eti, Option.some_bind, etj, Option.some_bind]
    simp only
    by_cases c : i' < j'
    · rw [if_pos c]
      obtain ⟨a1, es⟩ := swap_isSome (a := a) (i := i') (j := j') (by omega) (by omega)
        (by omega) (by omega)
      rw [es, Option.some_bind]
      obtain ⟨r, er, b1, b2⟩ := ih a1 i' j' (by omega) (by omega) c (by omega)
        (hre.trans (Rearr.of_swap es (by omega) (by omega) (by omega) (by omega)))
        (by rw [rd_swap es, if_neg (by omega), if_neg (by omega)]; exact hp)
        (by
          intro k x g1 g2 hx
          rw [rd_swap es, if_neg (by omega)] at hx
          by_cases d : k = i'
          · rw [if_pos d, hyj'] at hx
            cases hx
            exact gj4
          · rw [if_neg d] at hx
            by_cases d2 : k ≤ i
            · exact hlo k x g1 d2 hx
            · exact sw.asymm (gi3 k x (by omega) (by omega) hx))
        (by
          intro k x g1 g2 hx
          rw [rd_swap es] at hx
          by_cases d : k = j'
          · rw [if_pos d, hxi'] at hx
            cases hx
            exact gi4
          · rw [if_neg d, if_neg (by omega)] at hx
            by_cases d2 : j ≤ k
            · exact hhi k x d2 g2 hx
            · exact sw.asymm (gj3 k x (by omega) (by omega) hx))
      rw [er]
      refine ⟨_, rfl, ?_, ?_⟩
      · intro c' hc
        rcases List.mem_append.mp hc with h1 | h1
        · have := bi c' h1; omega
        · have := b1 c' h1; omega
      · intro c' hc
        rcases List.mem_append.mp hc with h1 | h1
        · have := bj c' h1; omega
        · have := b2 c' h1; omega
    · rw [if_neg c]
      refine ⟨_, rfl, ?_, ?_⟩
      · intro c' hc
        have := bi c' hc; omega
      · intro c' hc
        have := bj c' hc; omega

/-- The unguarded scans stay in bounds: on a range of at least 11 elements the recorded
partition returns what `partition` returns, every value taken by the left cursor lies
in `[left + 1, right - 1]` and every value taken by the right cursor in
`[left, right - 2]`. -/
theorem partitionT_spec {lt : α → α → Bool} (sw : StrictWeak lt) (a : List α)
    (left right : Int) (h0 : 0 ≤ left) (hr : right < a.length) (hlr : left + 10 ≤ right) :
    ∃ a' i is js, partitionT lt a left right = some (a', i, is, js) ∧
      partition lt a left right = some (a', i) ∧
      (∀ c ∈ is, left < c ∧ c ≤ right - 1) ∧ (∀ c ∈ js, left ≤ c ∧ c < right - 1) := by
  obtain ⟨a1, p, e1, l1, p1, f1, hp1, ⟨xl, hxl, oxl⟩, ⟨yr, hyr, oyr⟩, s1, _, _⟩ :=
    choosePivot_spec sw a left right h0 hr hlr
  have r1 : Rearr left right a a1 :=
    ⟨l1, p1, fun k hk => f1 k (by omega) (by omega) (by omega) (by omega), s1⟩
  obtain ⟨r, er, b1, b2⟩ :=
    partitionLoopT_spec sw p a left right h0 hr (a.length + 1) a1 left (right - 1)
      (by omega) (le_refl _) (by omega) (le_refl _) r1 hp1
      (by
        intro k x k1 k2 hx
        have : k = left := by omega
        subst this
        rw [hxl] at hx
        cases hx
        exact oxl)
      (by
        intro k x k1 k2 hx
        by_cases c : k = right
        · subst c
          rw [hyr] at hx
          cases hx
          exact oyr
        · have : k = right - 1 := by omega
          subst this
          rw [hp1] at hx
          cases hx
          exact sw.irrefl _)
  obtain ⟨a3, i, p', e3, g1, g2, _, _, _, _, _⟩ := partition_spec sw a left right h0 hr hlr
  have hloop : partitionLoop lt p (a.length + 1) a1 left (right - 1) = some (r.1, r.2.1) := by
    rw [← partitionLoopT_erase, er]; rfl
  have e3' := e3
  unfold partition at e3'
  rw [e1, Option.some_bind] at e3'
  simp only at e3'
  rw [hloop, Option.some_bind] at e3'
  simp only at e3'
  obtain ⟨a4, e4, e5⟩ := Option.bind_eq_some.mp e3'
  simp only [Option.some.injEq, Prod.mk.injEq] at e5
  obtain ⟨rfl, rfl⟩ := e5
  refine ⟨a4, r.2.1, r.2.2.1, r.2.2.2, ?_, e3, b1, b2⟩
  unfold partitionT
  rw [e1, Option.some_bind]
  simp only
  rw [er, Option.some_bind, e4, Option.some_bind]

/-! ## The multiset of a rearranged range -/

theorem slice_three (a : List α) (lo hi : Int) (h0 : 0 ≤ lo) (h1 : lo ≤ hi + 1)
    (h2 : hi < a.length) :
    a = slice a 0 (lo - 1) ++ (slice a lo hi ++ slice a (hi + 1) ((a.length : Int) - 1)) := by
  have e1 := slice_append a 0 (lo - 1) ((a.length : Int) - 1) (le_refl _) (by omega)
    (by omega) (by omega)
  have e2 := slice_append a lo hi ((a.length : Int) - 1) h0 h1 (by omega) (by omega)
  have e3 : lo - 1 + 1 = lo := by omega
  rw [e3, e2, slice_whole] at e1
  exact e1

/-- A rearrangement within `[lo, hi]` leaves in the range the multiset it held. -/
theorem Rearr.slice_perm {lo hi : Int} {a a' : List α} (h : Rearr lo hi a a') (h0 : 0 ≤ lo)
    (h1 : lo ≤ hi + 1) (h2 : hi < a.length) : (slice a' lo hi).Perm (slice a lo hi) := by
  have ea := slice_three a lo hi h0 h1 h2
  have ea' := slice_three a' lo hi h0 h1 (by rw [h.len]; exact h2)
  have c1 : slice a' 0 (lo - 1) = slice a 0 (lo - 1) :=
    slice_congr (le_refl _) (fun k _ hk => h.frame k (Or.inl (by omega)))
  have c2 : slice a' (hi + 1) ((a'.length : Int) - 1) = slice a (hi + 1) ((a.length : Int) - 1) := by
    rw [h.len]
    exact slice_congr (by omega) (fun k hk _ => h.frame k (Or.inr (by omega)))
  have hp := h.perm
  rw [ea', ea, c1, c2] at hp
  exact (List.perm_append_right_iff _).mp ((List.perm_append_left_iff _).mp hp)

/-! ## Quick select -/

theorem insertionSort_le_eq {out arr : List Int} (hs : out.Sorted (· ≤ ·))
    (hp : out.Perm arr) : out = arr.insertionSort (· ≤ ·) :=
  List.eq_of_perm_of_sorted (hp.trans (List.perm_insertionSort _ arr).symm) hs
    (List.sorted_insertionSort _ arr)

theorem nonDesc_ltInt_of_sorted {l : List Int} (h : l.Sorted (· ≤ ·)) : NonDesc ltInt l := by
  unfold NonDesc
  refine List.Pairwise.imp ?_ h
  intro a b hab
  simp only [ltInt, decide_eq_false_iff_not]
  omega

/-- On at most ten integers `quickSelect` is the insertion sort of the whole vector. -/
theorem quickSelect_small (arr : List Int) (k : Int) (hlen : arr.length ≤ 10) :
    ∃ out, quickSelect arr k = some out ∧ NonDesc ltInt out ∧ out.Perm arr := by
  obtain ⟨a', hf, hl, hp, _, hs, _⟩ :=
    insertRange_spec strictWeak_ltInt convInt arr 0
      ((arr.length : Int) - 1) (exact_convInt _) (le_refl _) (by omega)
      (by
        intro j x y _ _ _ hy
        have := rd_bounds hy
        omega)
  refine ⟨a', ?_, ?_, hp⟩
  · unfold quickSelect quickSelectRange
    rw [if_neg (by omega)]
    simpa using hf
  · apply nonDesc_of_sortedRange
    rw [hl]; exact hs

/-! ## Building and traversing lists -/

theorem getElem?_buildList (xs : List α) (i : Nat) :
    (buildList xs).1[i]? =
      (xs[i]?).map fun v => ⟨v, if i + 1 < xs.length then some (i + 1) else none⟩ := by
  unfold buildList
  simp only [List.getElem?_map, List.getElem?_enum, Option.map_map]
  rfl

/-- The arena built from `xs` holds a list whose nodes are `0, 1, ..., n - 1`. -/
theorem isList_buildList (xs : List α) :
    IsList (buildList xs).1 (buildList xs).2 (List.range xs.length) := by
  apply IsList.of_index
  · cases xs with
    | nil => rfl
    | cons x xs =>
      simp only [buildList, List.length_cons]
      rw [List.getElem?_range (by omega)]
      simp
  · intro i p hp
    obtain ⟨hi, e⟩ := List.getElem?_eq_some_iff.mp hp
    rw [List.length_range] at hi
    rw [List.getElem_range] at e
    subst e
    refine ⟨⟨xs[i], if i + 1 < xs.length then some (i + 1) else none⟩, ?_, ?_⟩
    · rw [getElem?_buildList, List.getElem?_eq_getElem hi]
      rfl
    · simp only
      by_cases c : i + 1 < xs.length
      · rw [if_pos c, List.getElem?_range c]
      · rw [if_neg c]
        exact (List.getElem?_eq_none (by rw [List.length_range]; omega)).symm

theorem filterMap_range_getElem? (xs : List α) :
    (List.range xs.length).filterMap (fun i => xs[i]?) = xs := by
  induction xs with
  | nil => rfl
  | cons x xs ih =>
    rw [List.length_cons, List.range_succ_eq_map, List.filterMap_cons]
    simp only [List.getElem?_cons_zero, List.filterMap_map]
    congr 1
    have e : ((fun i => (x :: xs)[i]?) ∘ Nat.succ) = fun i => xs[i]? := by
      funext i
      simp
    rw [e, ih]

/-- The values along the list built from `xs` are `xs`. -/
theorem vals_buildList (xs : List α) :
    vals (buildList xs).1 (List.range xs.length) = xs := by
  unfold vals
  have : (fun p : Nat => ((buildList xs).1[p]?).map ListNode.val) = fun i : Nat => xs[i]? := by
    funext i
    rw [getElem?_buildList, Option.map_map]
    cases xs[i]? <;> rfl
  rw [this, filterMap_range_getElem?]

/-- Traversing a finite acyclic list with enough fuel returns its chain. -/
theorem traverse_of_isList {heap : Heap α} :
    ∀ {ps : List Nat} {h : Ptr} (fuel : Nat), IsList heap h ps → ps.length ≤ fuel →
      traverse heap fuel h = some ps := by
  intro ps
  induction ps with
  | nil =>
    intro h fuel hl _
    rw [isList_nil] at hl
    subst hl
    cases fuel <;> rfl
  | cons p ps ih =>
    intro h fuel hl hf
    obtain ⟨e, node, hn, hrest⟩ := hl
    subst e
    cases fuel with
    | zero => simp at hf
    | succ fuel =>
      unfold traverse
      rw [hn, Option.some_bind, ih fuel hrest (by simpa using hf)]
      rfl

/-! ## Runs with an inexact element type -/

theorem rd_mem {a : List α} {k : Int} {x : α} (h : rd a k = some x) : x ∈ a := by
  obtain ⟨_, _, h2⟩ := rd_eq_some h
  obtain ⟨hk, e⟩ := List.getElem?_eq_some_iff.mp h2
  rw [← e]
  exact List.getElem_mem _

theorem rd_replicate_append {n : Nat} {v x : α} {l : List α} {k : Int}
    (h : rd (List.replicate n v ++ l) k = some x) (hk : k < n) : x = v := by
  obtain ⟨h0, _, h2⟩ := rd_eq_some h
  rw [List.getElem?_append_left (by simp; omega)] at h2
  obtain ⟨_, e⟩ := List.getElem?_eq_some_iff.mp h2
  rw [← e]
  simp

/-- When every element below index `j` is greater than the pivot, the downward scan
`while (pivot < a[--j]) {}` does not stop inside the vector: it goes on to read `a[-1]`,
whatever the fuel. -/
theorem scanDown_below (lt : α → α → Bool) (a : List α) (p : α) :
    ∀ (fuel : Nat) (j : Int), (∀ k x, k < j → rd a k = some x → lt p x = true) →
      scanDown lt a p fuel j = none := by
  intro fuel
  induction fuel with
  | zero => intro j _; rfl
  | succ fuel ih =>
    intro j H
    unfold scanDown
    cases hx : rd a (j - 1) with
    | none => rfl
    | some x =>
      rw [Option.some_bind, H (j - 1) x (by omega) hx]
      simp only [if_true]
      exact ih (j - 1) (fun k y hk hy => H k y (by omega) hy)

/-- On a range whose elements are all the same the private `quickSort(a, left, right)`
returns the vector unchanged, when the element type holds the indices up to `right`
exactly. -/
theorem quickSortRange_const {lt : α → α → Bool} (sw : StrictWeak lt) (cv : Conv α) (v : α)
    (fuel : Nat) (a : List α) (left right : Int) (hf : (right - left + 1).toNat < fuel)
    (h0 : 0 ≤ left) (hr : right < a.length) (hx : cv.Exact (right + 1))
    (hb : ∀ k x y, left ≤ k → k ≤ right → rd a k = some x → rd a (left - 1) = some y →
      lt x y = false)
    (hc : ∀ k x, left ≤ k → k ≤ right → rd a k = some x → x = v) :
    quickSortRange cv lt fuel a left right = some a := by
  obtain ⟨a', e, r, _⟩ := quickSortRange_spec sw cv fuel a left right hf h0 hr hx hb
  rw [e]
  congr 1
  apply ext_rd
  intro k
  by_cases c : left ≤ k ∧ k ≤ right
  · obtain ⟨k', e1, e2, e3⟩ := r.src k c.1 c.2
    obtain ⟨x, hx1⟩ := rd_isSome (a := a) (i := k) (by omega) (by omega)
    obtain ⟨y, hy1⟩ := rd_isSome (a := a) (i := k') (by omega) (by omega)
    rw [e3, hx1, hy1, hc k x c.1 c.2 hx1, hc k' y e1 e2 hy1]
  · exact r.frame k (by omega)

set_option maxRecDepth 1000000 in
/-- The first partition of `quickSort` on 259 elements: 129 ones, 2, 126 ones, 4, 1, 3. -/
theorem partition_uchar_run :
    partition ltInt (List.replicate 129 1 ++ [2] ++ List.replicate 126 1 ++ [4, 1, 3]) 0 258 =
      some (List.replicate 256 1 ++ [2, 4, 3], 256) := by
  decide

set_option maxRecDepth 1000000 in
/-- The small-range branch of `quickSort` for `T = unsigned char` on the range
`[257, 258]` of 256 ones followed by `2, 4, 3`: the range is left as it was and index 2
is overwritten. -/
theorem cutoff_uchar_run (fuel : Nat) :
    quickSortRange convUChar ltInt (fuel + 1) (List.replicate 256 1 ++ [2, 4, 3]) 257 258 =
      some (1 :: 1 :: 3 :: List.replicate 253 1 ++ [2, 4, 3]) := by
  rw [quickSortRange, if_neg (by decide)]
  decide

set_option maxRecDepth 1000000 in
/-- The private `quickSort(a, 0, 255)` for `T = unsigned char` on 256 ones followed by
`2, 4, 3` returns the vector unchanged: every index of the range fits the element type. -/
theorem left_uchar_run :
    quickSortRange convUChar ltInt 259 (List.replicate 256 1 ++ [2, 4, 3]) 0 255 =
      some (List.replicate 256 1 ++ [2, 4, 3]) := by
  have hlenA : (List.replicate 256 (1 : Int) ++ [2, 4, 3]).length = 259 := rfl
  apply quickSortRange_const strictWeak_ltInt convUChar 1
  · decide
  · decide
  · rw [hlenA]
    decide
  · exact exact_convUChar _ (by decide)
  · intro k x y _ _ _ hy
    have := rd_bounds hy
    omega
  · intro k x _ h2 hx
    exact rd_replicate_append hx (by omega)

set_option maxRecDepth 1000000 in
/-- The run of `quickSort` for `T = unsigned char` on 129 ones, 2, 126 ones, 4, 1, 3:
the first partition puts the pivot 2 at index 256, the left range of 256 ones is left
alone, and the small-range branch on `[257, 258]` overwrites index 2. -/
theorem quickSort_uchar_run :
    quickSort convUChar ltInt
        (List.replicate 129 1 ++ [2] ++ List.replicate 126 1 ++ [4, 1, 3]) =
      some (1 :: 1 :: 3 :: List.replicate 253 1 ++ [2, 4, 3]) := by
  have hlen : (List.replicate 129 (1 : Int) ++ [2] ++ List.replicate 126 1 ++
      [4, 1, 3]).length = 259 := rfl
  have e258 : ((259 : Nat) : Int) - 1 = 258 := rfl
  have hl : quickSortRange convUChar ltInt 259 (List.replicate 256 1 ++ [2, 4, 3]) 0
      (256 - 1) = some (List.replicate 256 1 ++ [2, 4, 3]) := left_uchar_run
  unfold quickSort
  rw [hlen, e258, quickSortRange, if_pos (by decide), partition_uchar_run,
    Option.some_bind]
  simp only
  rw [hl, Option.some_bind]
  exact cutoff_uchar_run 258

/-- The first step of `quickSelect` for `T = long long` on the sample with `2^32` added
to every element: `choosePivot` returns `2^32 + 8`. -/
theorem choosePivot_longlong_run :
    choosePivot ltInt [4294967304, 4294967375, 4294967302, 4294967352, 4294967298,
        4294967296, 4294967301, 4294967340, 4294967325, 4294967327, 4294967453] 0 10 =
      some ([4294967296, 4294967375, 4294967302, 4294967352, 4294967298, 4294967327,
        4294967301, 4294967340, 4294967325, 4294967304, 4294967453], 4294967304) := by
  decide

/-- With the pivot truncated to 8, the downward scan of `quickSelect` finds no element
that is not greater than the pivot and leaves the vector at index `-1`. -/
theorem scanDown_longlong_run (fuel : Nat) :
    scanDown ltInt [4294967296, 4294967375, 4294967302, 4294967352, 4294967298,
      4294967327, 4294967301, 4294967340, 4294967325, 4294967304, 4294967453] 8 fuel 9 =
      none := by
  apply scanDown_below
  intro k x _ hx
  have hm := rd_mem hx
  clear hx
  revert x
  decide

/-! ## The claims -/

theorem sorted_of_nonDesc_ltInt {l : List Int} (h : NonDesc ltInt l) : l.Sorted (· ≤ ·) := by
  unfold NonDesc at h
  refine List.Pairwise.imp ?_ h
  intro a b hab
  simp only [ltInt, decide_eq_false_iff_not] at hab
  omega

/-- C1 (the code at the failing input): for `T = unsigned char`, `quickSort(arr)` on the
vector of 129 ones, 2, 126 ones, 4, 1, 3 returns 259 elements that are not in order and
are not the elements of the input: index 2 holds 3, a one is lost, and the last three
elements are `2, 4, 3`. The insertion index of the small-range branch is declared with
the element type and wraps at 256. For `T = int` the claim holds: every vector of
integers comes back sorted for `≤` and a permutation of the input, and the sample
`[8, 79, 6, 56, 2, 0, 5, 44, 29, 31, 157]` becomes
`[0, 2, 5, 6, 8, 29, 31, 44, 56, 79, 157]`. -/
theorem quickSort_narrow_index :
    quickSort convUChar ltInt
        (List.replicate 129 1 ++ [2] ++ List.replicate 126 1 ++ [4, 1, 3]) =
      some (1 :: 1 :: 3 :: List.replicate 253 1 ++ [2, 4, 3]) ∧
    (∀ ints : List Int, ∃ out, quickSort convInt ltInt ints = some out ∧
      out.Sorted (· ≤ ·) ∧ out.Perm ints) ∧
    quickSort convInt ltInt [8, 79, 6, 56, 2, 0, 5, 44, 29, 31, 157] =
      some [0, 2, 5, 6, 8, 29, 31, 44, 56, 79, 157] := by
  refine ⟨quickSort_uchar_run, ?_, by decide⟩
  intro ints
  obtain ⟨out, h1, h2, h3⟩ := quickSort_spec strictWeak_ltInt convInt ints (exact_convInt _)
  exact ⟨out, h1, sorted_of_nonDesc_ltInt h2, h3⟩

/-- C2 (the code at the failing input): on the sample
`[8, 79, 6, 56, 2, 0, 5, 44, 29, 31, 157]` with `k = 5`, `quickSelect` returns with 31 at
index 5, while the element at index 5 of the sorted sample is 29. -/
theorem quickSelect_sample_rank5 :
    quickSelect [8, 79, 6, 56, 2, 0, 5, 44, 29, 31, 157] 5 =
      some [0, 5, 6, 2, 8, 31, 79, 44, 29, 56, 157] ∧
    rd [0, 5, 6, 2, 8, 31, 79, 44, 29, 56, 157] 5 = some (31 : Int) ∧
    insertionSort convInt ltInt [8, 79, 6, 56, 2, 0, 5, 44, 29, 31, 157] =
      some [0, 2, 5, 6, 8, 29, 31, 44, 56, 79, 157] ∧
    rd [0, 2, 5, 6, 8, 29, 31, 44, 56, 79, 157] 5 = some (29 : Int) := by
  decide

/-- C3: for every strict weak order, every value `dflt` filling the scratch buffer and
every finite sequence, the array `mergeSort(arr)` returns, touching no index outside
the vectors, and leaves a sequence in non-descending order that is a permutation of the
input. -/
theorem mergeSort_sorts (lt : α → α → Bool) (sw : StrictWeak lt) (dflt : α) (arr : List α) :
    ∃ out, mergeSort lt dflt arr = some out ∧ NonDesc lt out ∧ out.Perm arr :=
  ⟨refSort lt arr, mergeSort_eq_refSort sw dflt arr, refSort_nonDesc sw arr,
    refSort_perm lt arr⟩

theorem mergeSort_sorts_witness :
    StrictWeak ltInt ∧
      ∃ out, mergeSort ltInt 0 [3, 1, 2] = some out ∧ NonDesc ltInt out ∧
        out.Perm [3, 1, 2] :=
  ⟨strictWeak_ltInt, mergeSort_sorts ltInt strictWeak_ltInt 0 [3, 1, 2]⟩

/-- C4: for every finite acyclic singly-linked list (`IsList heap h ps`, the empty list
included) the list `mergeSort(h)` returns a head `h'` whose chain `ps'` ends, has as
many nodes as the original chain, and carries values in non-descending order that are a
permutation of the original values; the list built from `[3, 1, 2]` traverses as
`[1, 2, 3]` with 3 nodes. -/
theorem mergeSortL_sorts (lt : α → α → Bool) (sw : StrictWeak lt) (heap : Heap α) (h : Ptr)
    (ps : List Nat) (hl : IsList heap h ps) :
    (∃ heap' h' ps', mergeSortL lt heap h = some (heap', h') ∧ IsList heap' h' ps' ∧
      NonDesc lt (vals heap' ps') ∧ (vals heap' ps').Perm (vals heap ps) ∧
      ps'.length = ps.length) ∧
    ((mergeSortL ltInt (buildList [3, 1, 2]).1 (buildList [3, 1, 2]).2).bind fun s =>
      (traverse s.1 3 s.2).map fun qs => (qs.length, vals s.1 qs)) = some (3, [1, 2, 3]) := by
  refine ⟨?_, by decide⟩
  obtain ⟨heap', h', ps', e, l, p, _, _, _, s, _⟩ := mergeSortL_spec lt heap h ps hl
  refine ⟨heap', h', ps', e, l, ?_, ?_, p.length_eq⟩
  · rw [s sw]; exact refSort_nonDesc sw _
  · rw [s sw]; exact refSort_perm lt _

theorem mergeSortL_sorts_witness :
    StrictWeak ltInt ∧ IsList (buildList [3, 1, 2]).1 (buildList [3, 1, 2]).2 [0, 1, 2] ∧
      ∃ heap' h' ps', mergeSortL ltInt (buildList [3, 1, 2]).1 (buildList [3, 1, 2]).2 =
          some (heap', h') ∧ IsList heap' h' ps' ∧
        NonDesc ltInt (vals heap' ps') ∧
        (vals heap' ps').Perm (vals (buildList [3, 1, 2]).1 [0, 1, 2]) ∧
        ps'.length = [0, 1, 2].length :=
  ⟨strictWeak_ltInt,
    ⟨rfl, ⟨3, some 1⟩, rfl, rfl, ⟨1, some 2⟩, rfl, rfl, ⟨2, none⟩, rfl, rfl⟩,
    (mergeSortL_sorts ltInt strictWeak_ltInt (buildList [3, 1, 2]).1 (buildList [3, 1, 2]).2
      [0, 1, 2]
      ⟨rfl, ⟨3, some 1⟩, rfl, rfl, ⟨1, some 2⟩, rfl, rfl, ⟨2, none⟩, rfl, rfl⟩).1⟩

/-- C5: for every strict weak order and every finite sequence, `shellSort(arr)` (gapped
insertion passes with gaps `n/2`, `n/4`, ... by integer halving, the last one with gap
1) returns, touching no index outside the vector, and leaves a sequence in
non-descending order that is a permutation of the input. -/
theorem shellSort_sorts (lt : α → α → Bool) (sw : StrictWeak lt) (arr : List α) :
    ∃ out, shellSort lt arr = some out ∧ NonDesc lt out ∧ out.Perm arr :=
  shellSort_spec sw arr

theorem shellSort_sorts_witness :
    StrictWeak ltInt ∧
      ∃ out, shellSort ltInt [3, 1, 2] = some out ∧ NonDesc ltInt out ∧ out.Perm [3, 1, 2] :=
  ⟨strictWeak_ltInt, shellSort_sorts ltInt strictWeak_ltInt [3, 1, 2]⟩

set_option maxRecDepth 1000000 in
/-- The run of `insertionSort` for `T = unsigned char` on 256 ones followed by 0. -/
theorem insertionSort_uchar_run :
    insertionSort convUChar ltInt (List.replicate 256 1 ++ [0]) =
      some (0 :: List.replicate 255 1 ++ [0]) := by
  decide

/-- C6 (the code at the failing input): for `T = unsigned char`, `insertionSort(arr)` on
the vector of 256 ones followed by 0 returns 0, then 255 ones, then 0: not in order, and
a one has been lost. At `i = 256` the insertion index `j`, declared with the element
type, is 0, so the loop is skipped and `arr[0]` is overwritten. For `T = int` the claim
holds: every vector of integers comes back sorted for `≤` and a permutation of the
input. -/
theorem insertionSort_narrow_index :
    insertionSort convUChar ltInt (List.replicate 256 1 ++ [0]) =
      some (0 :: List.replicate 255 1 ++ [0]) ∧
    (∀ ints : List Int, ∃ out, insertionSort convInt ltInt ints = some out ∧
      out.Sorted (· ≤ ·) ∧ out.Perm ints) := by
  refine ⟨insertionSort_uchar_run, ?_⟩
  intro ints
  obtain ⟨out, h1, h2, h3⟩ :=
    insertionSort_spec strictWeak_ltInt convInt ints (exact_convInt _)
  exact ⟨out, h1, sorted_of_nonDesc_ltInt h2, h3⟩

/-- C7: for every strict weak order and every finite sequence, `selectionSort(arr)`
returns, touching no index outside the vector, and leaves a sequence in non-descending
order that is a permutation of the input. -/
theorem selectionSort_sorts (lt : α → α → Bool) (sw : StrictWeak lt) (arr : List α) :
    ∃ out, selectionSort lt arr = some out ∧ NonDesc lt out ∧ out.Perm arr :=
  selectionSort_spec sw arr

theorem selectionSort_sorts_witness :
    StrictWeak ltInt ∧
      ∃ out, selectionSort ltInt [3, 1, 2] = some out ∧ NonDesc ltInt out ∧
        out.Perm [3, 1, 2] :=
  ⟨strictWeak_ltInt, selectionSort_sorts ltInt strictWeak_ltInt [3, 1, 2]⟩

/-- C8: right-preferred tie-break of the array merge sort. For elements that are pairs
of a key and a tag compared by key only, `mergeSort` returns the stable sort of the
reversed input (`refSort`): the output is ordered by key, is a permutation of the
input, and for every key the elements with this key appear in the reverse of their
input order. The input `[2, 1, 2]` tagged `0, 1, 2` gives `[1@1, 2@2, 2@0]`. -/
theorem mergeSort_tieBreak {κ τ : Type} [LinearOrder κ] (dflt : κ × τ)
    (arr : List (κ × τ)) :
    mergeSort keyLt dflt arr = some (refSort keyLt arr) ∧
    (refSort keyLt arr).Pairwise (fun a b => a.1 ≤ b.1) ∧
    (refSort keyLt arr).Perm arr ∧
    (∀ k : κ, (refSort keyLt arr).filter (fun e => decide (e.1 = k)) =
      (arr.filter (fun e => decide (e.1 = k))).reverse) ∧
    mergeSort keyLt ((0 : Int), 0) [(2, 0), (1, 1), (2, 2)] =
      some [(1, 1), (2, 2), (2, 0)] := by
  refine ⟨mergeSort_eq_refSort strictWeak_keyLt dflt arr, ?_, refSort_perm _ arr, ?_,
    by decide⟩
  · have h := refSort_nonDesc (strictWeak_keyLt (κ := κ) (τ := τ)) arr
    unfold NonDesc at h
    refine List.Pairwise.imp ?_ h
    intro a b hab
    simpa [keyLt] using hab
  · intro k
    apply filter_refSort
    intro a b hba ha hb
    simp only [decide_eq_true_eq] at ha hb
    simp only [keyLt, decide_eq_true_eq] at hba
    rw [ha, hb] at hba
    exact lt_irrefl _ hba

/-- C9 (counterexample): under comparison by key only, a strict weak order, the sorted
input `[1@0, 1@1]` is not returned unchanged by the array `mergeSort`, and the sorted
input of eleven elements with key 1 tagged `0..10` is not returned unchanged by
`quickSort`. -/
theorem sorted_input_reordered :
    StrictWeak (keyLt : Int × Nat → Int × Nat → Bool) ∧
    NonDesc keyLt [((1 : Int), 0), (1, 1)] ∧
    mergeSort keyLt ((0 : Int), 0) [(1, 0), (1, 1)] ≠ some [(1, 0), (1, 1)] ∧
    NonDesc keyLt [((1 : Int), 0), (1, 1), (1, 2), (1, 3), (1, 4), (1, 5), (1, 6), (1, 7),
      (1, 8), (1, 9), (1, 10)] ∧
    quickSort (convKey 0) keyLt [((1 : Int), 0), (1, 1), (1, 2), (1, 3), (1, 4), (1, 5),
      (1, 6), (1, 7), (1, 8), (1, 9), (1, 10)] ≠
      some [(1, 0), (1, 1), (1, 2), (1, 3), (1, 4), (1, 5), (1, 6), (1, 7), (1, 8), (1, 9),
        (1, 10)] := by
  refine ⟨strictWeak_keyLt, ?_, by decide, ?_, by decide⟩
  · unfold NonDesc; decide
  · unfold NonDesc; decide

/-- C9 (amended): on a sequence already in non-descending order under a strict weak
order, `insertionSort`, `selectionSort` and `shellSort` return the input unchanged,
position by position, also when distinct elements compare as equal; the array
`mergeSort` returns the input unchanged when elements that compare as equal are equal
(a strict total order), and so does `quickSort` when moreover the element type holds
every index of the vector exactly, as `int` does; in these cases `mergeSort` and
`quickSort` always return a sequence in non-descending order that is a permutation of
the input. -/
theorem sorted_input_fixed (cv : Conv α) (lt : α → α → Bool) (sw : StrictWeak lt) (dflt : α)
    (arr : List α) (hs : NonDesc lt arr) :
    insertionSort cv lt arr = some arr ∧ selectionSort lt arr = some arr ∧
    shellSort lt arr = some arr ∧
    ((∀ a b, lt a b = false → lt b a = false → a = b) →
      mergeSort lt dflt arr = some arr ∧
      (cv.Exact arr.length → quickSort cv lt arr = some arr)) ∧
    (∃ out, mergeSort lt dflt arr = some out ∧ NonDesc lt out ∧ out.Perm arr) ∧
    (cv.Exact arr.length →
      ∃ out, quickSort cv lt arr = some out ∧ NonDesc lt out ∧ out.Perm arr) := by
  refine ⟨insertionSort_of_nonDesc cv lt arr hs, selectionSort_of_nonDesc sw arr hs,
    shellSort_of_nonDesc lt arr hs, ?_,
    ⟨refSort lt arr, mergeSort_eq_refSort sw dflt arr, refSort_nonDesc sw arr,
      refSort_perm lt arr⟩, quickSort_spec sw cv arr⟩
  intro hanti
  constructor
  · rw [mergeSort_eq_refSort sw dflt arr,
      eq_of_nonDesc_perm hanti (refSort_nonDesc sw arr) hs (refSort_perm lt arr)]
  · intro hx
    obtain ⟨out, e, h1, h2⟩ := quickSort_spec sw cv arr hx
    rw [e, eq_of_nonDesc_perm hanti h1 hs h2]

theorem sorted_input_fixed_witness :
    StrictWeak ltInt ∧ NonDesc ltInt [1, 2, 2, 3] ∧
      insertionSort convInt ltInt [1, 2, 2, 3] = some [1, 2, 2, 3] ∧
      selectionSort ltInt [1, 2, 2, 3] = some [1, 2, 2, 3] ∧
      shellSort ltInt [1, 2, 2, 3] = some [1, 2, 2, 3] ∧
      mergeSort ltInt 0 [1, 2, 2, 3] = some [1, 2, 2, 3] ∧
      quickSort convInt ltInt [1, 2, 2, 3] = some [1, 2, 2, 3] :=
  have hs : NonDesc ltInt [1, 2, 2, 3] := by unfold NonDesc; decide
  have h := sorted_input_fixed convInt ltInt strictWeak_ltInt 0 [1, 2, 2, 3] hs
  ⟨strictWeak_ltInt, hs, h.1, h.2.1, h.2.2.1, (h.2.2.2.1 ltInt_antisymm).1,
    (h.2.2.2.1 ltInt_antisymm).2 (exact_convInt _)⟩

/-- C10: the empty sequence and every one-element sequence are returned unchanged, with
no access outside the vector, by `insertionSort`, `selectionSort`, `shellSort`, the array
`mergeSort` and `quickSort` (the empty vector giving the right bound `-1` to the private
functions), and so is a one-element sequence by `quickSelect` with `k = 0`; the list
`mergeSort` returns the same head and an untouched arena for the empty list and for a
list of one node. -/
theorem trivial_inputs_unchanged (cv : Conv α) (lt : α → α → Bool) (dflt x : α) (y : Int)
    (heap : Heap α) (p : Nat) (node : ListNode α) (hp : heap[p]? = some node)
    (hnx : node.next = none) :
    insertionSort cv lt [] = some [] ∧ insertionSort cv lt [x] = some [x] ∧
    selectionSort lt [] = some [] ∧ selectionSort lt [x] = some [x] ∧
    shellSort lt [] = some [] ∧ shellSort lt [x] = some [x] ∧
    mergeSort lt dflt [] = some [] ∧ mergeSort lt dflt [x] = some [x] ∧
    mergeSortArray lt 1 [] 0 (-1) [] = some ([], []) ∧
    quickSort cv lt [] = some [] ∧ quickSort cv lt [x] = some [x] ∧
    quickSortRange cv lt 1 [] 0 (-1) = some [] ∧
    quickSelect [y] 0 = some [y] ∧
    mergeSortL lt heap none = some (heap, none) ∧
    mergeSortL lt heap (some p) = some (heap, some p) := by
  refine ⟨rfl, rfl, rfl, rfl, shellSort_of_nonDesc lt [] List.Pairwise.nil,
    shellSort_of_nonDesc lt [x] (List.pairwise_singleton _ _), rfl, rfl, rfl, rfl, rfl, rfl,
    rfl, rfl, ?_⟩
  · unfold mergeSortL mergeSortList
    simp only [deref_some, hp, Option.some_bind, hnx]

theorem trivial_inputs_unchanged_witness :
    mergeSortL ltInt [⟨7, none⟩] (some 0) = some ([⟨7, none⟩], some 0) ∧
      quickSelect [5] 0 = some [5] :=
  have h := trivial_inputs_unchanged convInt ltInt 0 0 5 [⟨7, none⟩] 0 ⟨7, none⟩ rfl rfl
  ⟨h.2.2.2.2.2.2.2.2.2.2.2.2.2.2, h.2.2.2.2.2.2.2.2.2.2.2.2.1⟩

/-- C11: on the sample `[8, 79, 6, 56, 2, 0, 5, 44, 29, 31, 157]`, `quickSelect` with
`k = 0` returns with 0 at index 0, and `quickSelect` with `k = 10` (on a fresh copy of
the sample) returns with 157 at index 10. -/
theorem quickSelect_sample_ends :
    ((quickSelect [8, 79, 6, 56, 2, 0, 5, 44, 29, 31, 157] 0).bind fun out => rd out 0) =
      some 0 ∧
    ((quickSelect [8, 79, 6, 56, 2, 0, 5, 44, 29, 31, 157] 10).bind fun out => rd out 10) =
      some 157 := by
  decide

/-- C12: the list merge sort reuses the nodes and only rewrites links. For every
comparison and every finite acyclic list with chain `ps`, `mergeSort(h)` returns a head
whose chain `ps'` ends, visits exactly the nodes of `ps`, each once, in an arena of the
same size; no node's value is changed, the last node of the new chain links to
`nullptr`, and no node outside the original chain is touched. -/
theorem mergeSortL_reuses_nodes (lt : α → α → Bool) (heap : Heap α) (h : Ptr)
    (ps : List Nat) (hl : IsList heap h ps) :
    ∃ heap' h' ps', mergeSortL lt heap h = some (heap', h') ∧ IsList heap' h' ps' ∧
      ps'.Perm ps ∧ ps'.Nodup ∧ heap'.length = heap.length ∧
      (∀ q : Nat, (heap'[q]?).map ListNode.val = (heap[q]?).map ListNode.val) ∧
      (∀ p : Nat, ps'.getLast? = some p →
        ∃ node, heap'[p]? = some node ∧ node.next = none) ∧
      (∀ q : Nat, q ∉ ps → heap'[q]? = heap[q]?) := by
  obtain ⟨heap', h', ps', e, l, p, n, v, f, _, _⟩ := mergeSortL_spec lt heap h ps hl
  refine ⟨heap', h', ps', e, l, p, l.nodup, n, v, ?_, f⟩
  intro q hq
  rw [List.getLast?_eq_getElem?] at hq
  have hlen : ps'.length - 1 < ps'.length := (List.getElem?_eq_some_iff.mp hq).1
  obtain ⟨node, hn, hnx⟩ := l.next_at (ps'.length - 1) q hq
  refine ⟨node, hn, ?_⟩
  rw [hnx]
  exact List.getElem?_eq_none (by omega)

theorem mergeSortL_reuses_nodes_witness :
    IsList (buildList [3, 1, 2]).1 (buildList [3, 1, 2]).2 [0, 1, 2] ∧
      ∃ heap' h' ps', mergeSortL ltInt (buildList [3, 1, 2]).1 (buildList [3, 1, 2]).2 =
          some (heap', h') ∧ IsList heap' h' ps' ∧
        ps'.Perm [0, 1, 2] ∧ ps'.Nodup ∧ heap'.length = (buildList [3, 1, 2]).1.length ∧
        (∀ q : Nat, (heap'[q]?).map ListNode.val =
          ((buildList [3, 1, 2]).1[q]?).map ListNode.val) ∧
        (∀ p : Nat, ps'.getLast? = some p →
          ∃ node, heap'[p]? = some node ∧ node.next = none) ∧
        (∀ q : Nat, q ∉ [0, 1, 2] → heap'[q]? = (buildList [3, 1, 2]).1[q]?) :=
  ⟨⟨rfl, ⟨3, some 1⟩, rfl, rfl, ⟨1, some 2⟩, rfl, rfl, ⟨2, none⟩, rfl, rfl⟩,
    mergeSortL_reuses_nodes ltInt (buildList [3, 1, 2]).1 (buildList [3, 1, 2]).2 [0, 1, 2]
      ⟨rfl, ⟨3, some 1⟩, rfl, rfl, ⟨1, some 2⟩, rfl, rfl, ⟨2, none⟩, rfl, rfl⟩⟩

/-- C13: the small-range fallback of `quickSelect`. For every sequence of integers of
length at most 10 and every `k` (in range or not), `quickSelect(arr, k)` returns the
whole sequence sorted in non-descending order, a permutation of its input, so that the
element at index `k` is the kth smallest. -/
theorem quickSelect_small_range (arr : List Int) (k : Int) (hlen : arr.length ≤ 10) :
    ∃ out, quickSelect arr k = some out ∧ out.Sorted (· ≤ ·) ∧ out.Perm arr ∧
      rd out k = kthSmallest arr k := by
  obtain ⟨out, e, hs, hp⟩ := quickSelect_small arr k hlen
  refine ⟨out, e, sorted_of_nonDesc_ltInt hs, hp, ?_⟩
  unfold kthSmallest
  rw [← insertionSort_le_eq (sorted_of_nonDesc_ltInt hs) hp]

theorem quickSelect_small_range_witness :
    [3, 1, 2].length ≤ 10 ∧
      ∃ out, quickSelect [3, 1, 2] 1 = some out ∧ out.Sorted (· ≤ ·) ∧
        out.Perm [3, 1, 2] ∧ rd out 1 = kthSmallest [3, 1, 2] 1 :=
  ⟨by decide, quickSelect_small_range [3, 1, 2] 1 (by decide)⟩

/-- C14 (the code at the failing input): on the sample
`[8, 79, 6, 56, 2, 0, 5, 44, 29, 31, 157]` the first partition ends with crossing index
`i = 4`; with `k = 5 = i + 1` no recursive call is made, `quickSelect` returns the
partitioned vector, and the element at index 5 is 31 while the 5th smallest is 29. -/
theorem quickSelect_rank_after_pivot :
    partition ltInt [8, 79, 6, 56, 2, 0, 5, 44, 29, 31, 157] 0 10 =
      some ([0, 5, 6, 2, 8, 31, 79, 44, 29, 56, 157], 4) ∧
    quickSelect [8, 79, 6, 56, 2, 0, 5, 44, 29, 31, 157] 5 =
      some [0, 5, 6, 2, 8, 31, 79, 44, 29, 56, 157] ∧
    rd [0, 5, 6, 2, 8, 31, 79, 44, 29, 56, 157] 5 = some (31 : Int) ∧
    kthSmallest [8, 79, 6, 56, 2, 0, 5, 44, 29, 31, 157] 5 = some 29 := by
  decide

/-- C15: partition postcondition of `quickSort`. For every strict weak order, every
vector and every range with `0 ≤ left`, `right < size` and `right - left ≥ 10`, pivot
selection, the scan-and-swap loop and the pivot restoration return a crossing index `i`
with `left < i < right`; `a[i]` is the pivot returned by `choosePivot`; no element of
`[left, i - 1]` is greater and no element of `[i + 1, right]` is less than the pivot;
`[left, right]` holds the same multiset as before; `quickSort` then recurses on
`[left, i - 1]` and `[i + 1, right]`, both strictly shorter than `[left, right]`. -/
theorem partition_postcondition (lt : α → α → Bool) (sw : StrictWeak lt) (a : List α)
    (left right : Int) (h0 : 0 ≤ left) (hr : right < a.length) (hlr : right - left ≥ 10) :
    ∃ a' i p, partition lt a left right = some (a', i) ∧
      (∃ a1, choosePivot lt a left right = some (a1, p)) ∧
      left < i ∧ i < right ∧ rd a' i = some p ∧
      (∀ k x, left ≤ k → k ≤ i - 1 → rd a' k = some x → lt p x = false) ∧
      (∀ k x, i + 1 ≤ k → k ≤ right → rd a' k = some x → lt x p = false) ∧
      (slice a' left right).Perm (slice a left right) ∧
      (∀ (cv : Conv α) (fuel : Nat), quickSortRange cv lt (fuel + 1) a left right =
        (quickSortRange cv lt fuel a' left (i - 1)).bind fun b =>
          quickSortRange cv lt fuel b (i + 1) right) ∧
      i - 1 - left < right - left ∧ right - (i + 1) < right - left := by
  obtain ⟨a', i, p, e, g1, g2, r, hp, lo, hi, hcp⟩ :=
    partition_spec sw a left right h0 hr (by omega)
  refine ⟨a', i, p, e, hcp, g1, g2, hp, fun k x k1 k2 hx => lo k x k1 (by omega) hx,
    fun k x k1 k2 hx => hi k x (by omega) k2 hx, r.slice_perm h0 (by omega) hr, ?_,
    by omega, by omega⟩
  intro cv fuel
  rw [quickSortRange, if_pos (by omega), e, Option.some_bind]

theorem partition_postcondition_witness :
    StrictWeak ltInt ∧
      ∃ a' i p, partition ltInt [8, 79, 6, 56, 2, 0, 5, 44, 29, 31, 157] 0 10 = some (a', i) ∧
        (∃ a1, choosePivot ltInt [8, 79, 6, 56, 2, 0, 5, 44, 29, 31, 157] 0 10 =
          some (a1, p)) ∧
        0 < i ∧ i < 10 ∧ rd a' i = some p ∧
        (∀ k x, 0 ≤ k → k ≤ i - 1 → rd a' k = some x → ltInt p x = false) ∧
        (∀ k x, i + 1 ≤ k → k ≤ 10 → rd a' k = some x → ltInt x p = false) ∧
        (slice a' 0 10).Perm (slice [8, 79, 6, 56, 2, 0, 5, 44, 29, 31, 157] 0 10) ∧
        (∀ (cv : Conv Int) (fuel : Nat),
          quickSortRange cv ltInt (fuel + 1) [8, 79, 6, 56, 2, 0, 5, 44, 29, 31, 157] 0 10 =
            (quickSortRange cv ltInt fuel a' 0 (i - 1)).bind fun b =>
              quickSortRange cv ltInt fuel b (i + 1) 10) ∧
        i - 1 - 0 < 10 - 0 ∧ 10 - (i + 1) < 10 - 0 :=
  ⟨strictWeak_ltInt,
    partition_postcondition ltInt strictWeak_ltInt [8, 79, 6, 56, 2, 0, 5, 44, 29, 31, 157]
      0 10 (by decide) (by decide) (by decide)⟩

/-- C16 (the code at the failing input): for `T = long long`, `quickSelect` on the
sample with `2^32` added to every element. `choosePivot` returns `2^32 + 8`, which
`int pivot` truncates to 8. The upward scan stops at once, at `i = 1`. Every element of
the vector is greater than 8, so the test `pivot < a[--j]` of the downward scan holds at
every index from `right - 2 = 8` down to `left = 0`: the right cursor goes below `left`
and the scan reads `a[-1]`, whatever the fuel. The partition of `quickSelect`, and with it
`quickSelect` for every `k`, has no result. -/
theorem quickSelect_pivot_truncated :
    choosePivot ltInt [4294967304, 4294967375, 4294967302, 4294967352, 4294967298,
        4294967296, 4294967301, 4294967340, 4294967325, 4294967327, 4294967453] 0 10 =
      some ([4294967296, 4294967375, 4294967302, 4294967352, 4294967298, 4294967327,
        4294967301, 4294967340, 4294967325, 4294967304, 4294967453], 4294967304) ∧
    convLongLong.asInt 4294967304 = 8 ∧
    scanUp ltInt [4294967296, 4294967375, 4294967302, 4294967352, 4294967298, 4294967327,
      4294967301, 4294967340, 4294967325, 4294967304, 4294967453] 8 12 0 = some 1 ∧
    (∀ x ∈ [4294967296, 4294967375, 4294967302, 4294967352, 4294967298, 4294967327,
      4294967301, 4294967340, 4294967325, 4294967304, (4294967453 : Int)],
      ltInt 8 x = true) ∧
    (∀ fuel : Nat, scanDown ltInt [4294967296, 4294967375, 4294967302, 4294967352,
      4294967298, 4294967327, 4294967301, 4294967340, 4294967325, 4294967304,
      4294967453] 8 fuel 9 = none) ∧
    partitionSelect convLongLong ltInt [4294967304, 4294967375, 4294967302, 4294967352,
      4294967298, 4294967296, 4294967301, 4294967340, 4294967325, 4294967327,
      4294967453] 0 10 = none ∧
    (∀ k : Int, quickSelectRange convLongLong ltInt 12 [4294967304, 4294967375,
      4294967302, 4294967352, 4294967298, 4294967296, 4294967301, 4294967340, 4294967325,
      4294967327, 4294967453] 0 10 k = none) := by
  have hp : partitionSelect convLongLong ltInt [4294967304, 4294967375, 4294967302,
      4294967352, 4294967298, 4294967296, 4294967301, 4294967340, 4294967325, 4294967327,
      4294967453] 0 10 = none := by decide
  refine ⟨choosePivot_longlong_run, by decide, by decide, by decide,
    scanDown_longlong_run, hp, ?_⟩
  intro k
  rw [quickSelectRange, if_pos (by decide), hp]
  rfl

/-- C17: median-of-three postcondition. For every strict weak order, every vector and
indices with `0 ≤ left`, `right < size` and `right - left ≥ 10`, with
`mid = (left + right) / 2`, `choosePivot(a, left, right)` returns a value `p` that
equals the new `a[right - 1]` and is the median of the original `a[left]`, `a[mid]`,
`a[right]`: with `x` the new `a[left]` and `z` the new `a[right]`, `x, p, z` is a
rearrangement of the three original values, `x` is not greater than `p` and `z` is not
less than `p`. The vector is a permutation of its prior contents and only the positions
`left`, `mid`, `right - 1` and `right` can have changed. -/
theorem choosePivot_median (lt : α → α → Bool) (sw : StrictWeak lt) (a : List α)
    (left right : Int) (h0 : 0 ≤ left) (hr : right < a.length) (hlr : right - left ≥ 10) :
    ∃ a' p vl vm vr x z, choosePivot lt a left right = some (a', p) ∧
      rd a left = some vl ∧ rd a ((left + right) / 2) = some vm ∧ rd a right = some vr ∧
      rd a' (right - 1) = some p ∧ rd a' left = some x ∧ rd a' right = some z ∧
      [x, p, z].Perm [vl, vm, vr] ∧ lt p x = false ∧ lt z p = false ∧
      a'.Perm a ∧
      (∀ k, k ≠ left → k ≠ (left + right) / 2 → k ≠ right - 1 → k ≠ right →
        rd a' k = rd a k) := by
  obtain ⟨a', p, e, _, hp, f, hpv, ⟨x', hx', ox⟩, ⟨z', hz', oz⟩, _, _,
    vl, vm, vr, x, z, hvl, hvm, hvr, hx, hz, hperm⟩ :=
    choosePivot_spec sw a left right h0 hr (by omega)
  rw [hx] at hx'
  rw [hz] at hz'
  have ex : x = x' := Option.some.inj hx'
  have ez : z = z' := Option.some.inj hz'
  rw [← ex] at ox
  rw [← ez] at oz
  exact ⟨a', p, vl, vm, vr, x, z, e, hvl, hvm, hvr, hpv, hx, hz, hperm, ox, oz, hp, f⟩

theorem choosePivot_median_witness :
    StrictWeak ltInt ∧
      ∃ a' p vl vm vr x z,
        choosePivot ltInt [8, 79, 6, 56, 2, 0, 5, 44, 29, 31, 157] 0 10 = some (a', p) ∧
        rd [8, 79, 6, 56, 2, 0, 5, 44, 29, 31, 157] 0 = some vl ∧
        rd [8, 79, 6, 56, 2, 0, 5, 44, 29, 31, 157] ((0 + 10) / 2) = some vm ∧
        rd [8, 79, 6, 56, 2, 0, 5, 44, 29, 31, 157] 10 = some vr ∧
        rd a' (10 - 1) = some p ∧ rd a' 0 = some x ∧ rd a' 10 = some z ∧
        [x, p, z].Perm [vl, vm, vr] ∧ ltInt p x = false ∧ ltInt z p = false ∧
        a'.Perm [8, 79, 6, 56, 2, 0, 5, 44, 29, 31, 157] ∧
        (∀ k, k ≠ 0 → k ≠ (0 + 10) / 2 → k ≠ 10 - 1 → k ≠ 10 →
          rd a' k = rd [8, 79, 6, 56, 2, 0, 5, 44, 29, 31, 157] k) :=
  ⟨strictWeak_ltInt,
    choosePivot_median ltInt strictWeak_ltInt [8, 79, 6, 56, 2, 0, 5, 44, 29, 31, 157] 0 10
      (by decide) (by decide) (by decide)⟩

/-- C18 (the code at the failing inputs): the small-range branch does not stay within
its range. For `T = int`, the private `quickSort(a, 1, 2)` on `a = [5, 3, 1]` returns
`[1, 5, 3]`: the loop guard is `j >= 1`, not `j > left`, so index 0 is written. For
`T = unsigned char`, in the run of `quickSort(arr)` on 129 ones, 2, 126 ones, 4, 1, 3 the
first partition leaves 256 ones followed by `2, 4, 3` with the pivot at index 256, the
call on `[0, 255]` changes nothing, and the call on `[257, 258]` leaves `4, 3` in the
range and writes 3 at index 2: the insertion index, declared with the element type, is
`258 mod 256`. -/
theorem cutoff_writes_outside_range :
    quickSortRange convInt ltInt 4 [5, 3, 1] 1 2 = some [1, 5, 3] ∧
    partition ltInt (List.replicate 129 1 ++ [2] ++ List.replicate 126 1 ++ [4, 1, 3]) 0 258 =
      some (List.replicate 256 1 ++ [2, 4, 3], 256) ∧
    quickSortRange convUChar ltInt 259 (List.replicate 256 1 ++ [2, 4, 3]) 0 255 =
      some (List.replicate 256 1 ++ [2, 4, 3]) ∧
    quickSortRange convUChar ltInt 259 (List.replicate 256 1 ++ [2, 4, 3]) 257 258 =
      some (1 :: 1 :: 3 :: List.replicate 253 1 ++ [2, 4, 3]) :=
  ⟨by decide, partition_uchar_run, left_uchar_run, cutoff_uchar_run 258⟩

/-- C19: the two merge sorts agree. For every finite sequence `xs` of pairs of a key
and a tag compared by key only, the list built from `xs` holds `xs`; running the list
`mergeSort` on it and traversing the result yields exactly the sequence that the array
`mergeSort` produces from `xs`, tied elements included. -/
theorem mergeSorts_agree {κ τ : Type} [LinearOrder κ] (dflt : κ × τ) (xs : List (κ × τ)) :
    ((traverse (buildList xs).1 xs.length (buildList xs).2).map (vals (buildList xs).1)) =
      some xs ∧
    ∃ heap' h' ps', mergeSortL keyLt (buildList xs).1 (buildList xs).2 = some (heap', h') ∧
      traverse heap' xs.length h' = some ps' ∧
      mergeSort keyLt dflt xs = some (vals heap' ps') := by
  have hb := isList_buildList xs
  constructor
  · rw [traverse_of_isList xs.length hb (by simp)]
    simp only [Option.map_some', vals_buildList]
  · obtain ⟨heap', h', ps', e, l, p, _, _, _, s, _⟩ :=
      mergeSortL_spec keyLt (buildList xs).1 (buildList xs).2 _ hb
    refine ⟨heap', h', ps', e, ?_, ?_⟩
    · apply traverse_of_isList _ l
      rw [p.length_eq, List.length_range]
    · rw [s strictWeak_keyLt, vals_buildList]
      exact mergeSort_eq_refSort strictWeak_keyLt dflt xs

end SortEngine
